import Mathlib

/-!
Verification of the Norway_Automation repository (Lovdata scrape + Google-Sheets
ledger reconciliation).  The Python sources are shallowly embedded: pure string
manipulation, the status classifier, the filename-based identifier derivation,
the coordinate-shift functions, and the pure planning core of `run_scrape`
(the part between the single ledger read and the batched writes) are translated
into executable Lean definitions.  External I/O (HTTP download, tar extraction,
lxml tag lookup, the Sheets RPC transport) is treated as the collaborator
boundary: the sheet itself is modelled as a list of rows holding the five
tracked columns C/H/S/M/E, and the batched insert/write calls are modelled by
their documented effect on that grid.
-/

/-! ## Python string primitives used by the source -/

/-- ASCII whitespace recognised by Python `str.strip` / regex `\s`
(space, tab, newline, carriage return, vertical tab, form feed). -/
def isPyWs (c : Char) : Bool :=
  c = ' ' || c = '\t' || c = '\n' || c = '\r' || c = '\x0b' || c = '\x0c'

/-- Python `str.strip()`. -/
def pyStrip (s : String) : String :=
  String.mk (((s.toList.dropWhile isPyWs).reverse.dropWhile isPyWs).reverse)

/-- Python `str.lower()` restricted to the alphabets that occur in this
repository (ASCII plus the Norwegian letters Æ/Ø/Å). -/
def pyLowerChar (c : Char) : Char :=
  if 'A' ≤ c ∧ c ≤ 'Z' then Char.ofNat (c.toNat + 32)
  else if c = 'Æ' then 'æ'
  else if c = 'Ø' then 'ø'
  else if c = 'Å' then 'å'
  else c

/-- Python `str.lower()`. -/
def pyLower (s : String) : String :=
  String.mk (s.toList.map pyLowerChar)

/-- If `pat` is a leading run of `cs`, return the remainder. -/
def dropPref : List Char → List Char → Option (List Char)
  | [], cs => some cs
  | _ :: _, [] => none
  | p :: ps, c :: cs => if c = p then dropPref ps cs else none

def hasSubAux (pat : List Char) : List Char → Bool
  | [] => (dropPref pat []).isSome
  | c :: cs => (dropPref pat (c :: cs)).isSome || hasSubAux pat cs

/-- Python `pat in hay` (substring membership). -/
def pyContains (hay pat : String) : Bool :=
  hasSubAux pat.toList hay.toList

def isDigitCh (c : Char) : Bool := '0' ≤ c && c ≤ '9'

/-- Does `pat` occur as a leading run of `s`? (Python `str.startswith`). -/
def pyStartsWith (s pat : String) : Bool :=
  (dropPref pat.toList s.toList).isSome

/-- Fuel-driven core of `str.replace(pat, "")` for a non-empty pattern:
delete every non-overlapping occurrence, scanning left to right. -/
def replaceEmptyAux (pat : List Char) : Nat → List Char → List Char
  | 0, cs => cs
  | Nat.succ fuel, cs =>
    match cs with
    | [] => []
    | c :: cs2 =>
      match dropPref pat (c :: cs2) with
      | some rest => replaceEmptyAux pat fuel rest
      | none => c :: replaceEmptyAux pat fuel cs2

/-- Python `s.replace(pat, "")` (the only replacements the source performs),
for a non-empty `pat`. -/
def pyReplaceDrop (s pat : String) : String :=
  String.mk (replaceEmptyAux pat.toList s.toList.length s.toList)

/-- Numeric value of a digit string (Python `int`). -/
def digitsVal (cs : List Char) : Nat :=
  cs.foldl (fun a c => a * 10 + (c.toNat - '0'.toNat)) 0

/-! ## Dates (`datetime.date`, `parse_iso_date`) -/

/-- A Python `datetime.date`: compared lexicographically. -/
structure PyDate where
  year : Nat
  month : Nat
  day : Nat
deriving DecidableEq, Repr

def PyDate.leb (a b : PyDate) : Bool :=
  a.year < b.year
  || (a.year = b.year
      && (a.month < b.month || (a.month = b.month && a.day ≤ b.day)))

def PyDate.ltb (a b : PyDate) : Bool :=
  a.year < b.year
  || (a.year = b.year
      && (a.month < b.month || (a.month = b.month && a.day < b.day)))

def isLeapYear (y : Nat) : Bool :=
  y % 4 = 0 && (y % 100 ≠ 0 || y % 400 = 0)

def daysInMonth (y m : Nat) : Nat :=
  if m = 1 then 31
  else if m = 2 then (if isLeapYear y then 29 else 28)
  else if m = 3 then 31
  else if m = 4 then 30
  else if m = 5 then 31
  else if m = 6 then 30
  else if m = 7 then 31
  else if m = 8 then 31
  else if m = 9 then 30
  else if m = 10 then 31
  else if m = 11 then 30
  else if m = 12 then 31
  else 0

/-- `parse_iso_date` from the source: `None` on empty input, otherwise
`datetime.strptime(d.strip(), "%Y-%m-%d").date()` with `None` on failure.
strptime accepts exactly four year digits, one or two month digits (1..12),
one or two day digits, and the constructed date must be a real calendar
date with year at least 1. -/
def parse_iso_date (d : String) : Option PyDate :=
  if d = "" then none
  else
    match ((pyStrip d).toList).splitOn '-' with
    | [ys, ms, ds] =>
      if ys.length = 4 && ys.all isDigitCh
          && (ms.length = 1 || ms.length = 2) && ms.all isDigitCh
          && (ds.length = 1 || ds.length = 2) && ds.all isDigitCh then
        let y := digitsVal ys
        let m := digitsVal ms
        let dd := digitsVal ds
        if 1 ≤ y && 1 ≤ m && m ≤ 12 && 1 ≤ dd && dd ≤ daysInMonth y m then
          some ⟨y, m, dd⟩
        else none
      else none
    | _ => none

/-- `any_future_date` (today is `date.today()`, passed explicitly). -/
def any_future_date (today : PyDate) (dates_list : List String) : Bool :=
  dates_list.any fun d =>
    match parse_iso_date d with
    | some dd => PyDate.ltb today dd
    | none => false

/-- `any_past_or_today_date`. -/
def any_past_or_today_date (today : PyDate) (dates_list : List String) : Bool :=
  dates_list.any fun d =>
    match parse_iso_date d with
    | some dd => PyDate.leb dd today
    | none => false

/-! ## `text_says_effective_date_not_fixed`

Each source regex is a sequence of literal words (or a two-way alternation)
separated by `\s*`; the matcher below tries every start position, matching
each word literally and skipping whitespace between words. -/

def dropWsChars (cs : List Char) : List Char := cs.dropWhile isPyWs

def matchAlt (alts : List String) (cs : List Char) : Option (List Char) :=
  match alts with
  | [] => none
  | a :: rest =>
    match dropPref a.toList cs with
    | some cs2 => some cs2
    | none => matchAlt rest cs

def matchSeqToks : List (List String) → List Char → Bool
  | [], _ => true
  | alts :: rest, cs =>
    match matchAlt alts cs with
    | some cs2 => matchSeqToks rest (dropWsChars cs2)
    | none => false

def searchSeqToks (p : List (List String)) : List Char → Bool
  | [] => matchSeqToks p []
  | c :: cs => matchSeqToks p (c :: cs) || searchSeqToks p cs

/-- The eight regex patterns of `text_says_effective_date_not_fixed`,
tokenised word by word. -/
def notFixedPatterns : List (List (List String)) :=
  [ [["i"], ["kraft"], ["fra", "frå"], ["kongen"], ["fastset"]],
    [["i"], ["kraft"], ["fra", "frå"], ["kongen"], ["fastsetter"]],
    [["frå", "fra"], ["den"], ["tid"], ["kongen"], ["fastset"]],
    [["frå", "fra"], ["den"], ["tid"], ["kongen"], ["fastsetter"]],
    [["frå", "fra"], ["den"], ["tid"], ["kongen"], ["bestemmer"]],
    [["kongen"], ["bestemmer"]],
    [["kongen"], ["fastset"]],
    [["kongen"], ["fastsetter"]] ]

/-- `text_says_effective_date_not_fixed`: lowercase the text, then try each
pattern with `re.search`. -/
def text_says_effective_date_not_fixed (text_full : String) : Bool :=
  let t := pyLower text_full
  notFixedPatterns.any fun p => searchSeqToks p t.toList

/-! ## The status classifier of `parse_law_xml`

The XML tag extraction (`first_text_any` / `all_text_any` over lxml) is the
external structured-field-lookup collaborator; the classifier below starts
from the extracted evidence, exactly the local variables of `parse_law_xml`
at the beginning of its status logic: the raw force flag `in_force_raw`, the
`accessRemovedDate` field, the full document text, and the deduplicated
positive candidate list (entry-into-force tag values plus free-text mined
dates). -/

structure LawEvidence where
  in_force_raw : String
  access_removed_date : String
  text_full : String
  positive_candidates : List String
deriving Repr

/-- `explicit_not_in_force` (both variants compute it the same way). -/
def explicit_not_in_force (ev : LawEvidence) : Bool :=
  pyContains (pyLower ev.text_full) "ikke i kraft"
  || pyContains (pyLower ev.text_full) "ikkje i kraft"
  || (let r := pyStrip (pyLower ev.in_force_raw)
      r = "false" || r = "0" || r = "no" || r = "nei")

/-- The shared fallback branch (raw `inForce` heuristics) of both variants. -/
def classify_fallback (ev : LawEvidence) : String × String :=
  let raw_lc := pyStrip (pyLower ev.in_force_raw)
  let raw_has_not_in_force :=
    pyContains raw_lc "ikke i kraft" || pyContains raw_lc "ikkje i kraft"
  let raw_has_in_force :=
    (raw_lc = "true" || raw_lc = "1" || raw_lc = "yes" || raw_lc = "ja")
    || (pyContains raw_lc "i kraft"
        && !(pyContains raw_lc "ikke") && !(pyContains raw_lc "ikkje"))
  if raw_has_not_in_force || pyStrip ev.access_removed_date ≠ "" then
    ("not_in_force", "raw inForce indicates not in force / accessRemovedDate")
  else if raw_has_in_force then
    ("in_force", "raw inForce indicates in force")
  else
    ("ambiguous", "no clear inForce + no effective date match")

/-- Status logic of `parse_law_xml` in `src/lib/Norway_Automation.py`
(gate order: explicit-not-in-force, past-or-today, not-fixed, future,
fallback). -/
def classify_law (today : PyDate) (ev : LawEvidence) : String × String :=
  let has_past_or_today := any_past_or_today_date today ev.positive_candidates
  let has_future := any_future_date today ev.positive_candidates
  if explicit_not_in_force ev && !has_past_or_today then
    ("not_in_force",
     "explicit ikke/ikkje i kraft and no past/today positive entry-into-force date")
  else if has_past_or_today then
    ("in_force", "positive entry-into-force date <= today found (tags or text)")
  else if text_says_effective_date_not_fixed ev.text_full then
    ("future", "entry into force not fixed (Kongen fastsetter/bestemmer)")
  else if has_future then
    ("future", "future positive entry-into-force date found (tags or text)")
  else classify_fallback ev

/-- Status logic of `parse_law_xml` in `src/api/Norway_Automation.py`
(gate order: explicit-not-in-force, future, not-fixed, past-or-today,
fallback). -/
def classify_law_api (today : PyDate) (ev : LawEvidence) : String × String :=
  if explicit_not_in_force ev
      && !(any_past_or_today_date today ev.positive_candidates) then
    ("not_in_force",
     "explicit ikke/ikkje i kraft and no past/today positive entry-into-force date")
  else if any_future_date today ev.positive_candidates then
    ("future", "future positive entry-into-force date found (tags or text)")
  else if text_says_effective_date_not_fixed ev.text_full
      && !(any_past_or_today_date today ev.positive_candidates) then
    ("future", "entry into force not fixed (Kongen fastsetter/bestemmer)")
  else if any_past_or_today_date today ev.positive_candidates then
    ("in_force", "positive entry-into-force date <= today found (tags or text)")
  else classify_fallback ev

/-! ## Filename-based identifiers and URLs -/

/-- Python `filename.lower().split("/")[-1]`. -/
def lastPathComponent (s : String) : String :=
  String.mk ((s.toList.splitOn '/').getLastD [])

/-- Tail match of the regex `{prefix}-(\d{8})-(\d+)\.xml$` against `fn`
(already lowercased).  A match is a decomposition
`fn = pre ++ prefix ++ "-" ++ d8 ++ "-" ++ suf ++ ".xml"` with `d8` exactly
eight digits and `suf` a nonempty digit run; because the suffix group is
bracketed by a literal `-` and the end anchor, the decomposition is unique
and can be read off from the right end of the string. -/
def matchNlSfTail (pre : String) (fn : String) : Option (List Char × List Char) :=
  let cs := fn.toList
  let r := cs.reverse
  match dropPref "lmx.".toList r with
  | none => none
  | some r1 =>
    let sufR := r1.takeWhile isDigitCh
    let r2 := r1.dropWhile isDigitCh
    if sufR = [] then none
    else
      match r2 with
      | '-' :: r3 =>
        let d8R := r3.take 8
        let r4 := r3.drop 8
        if d8R.length = 8 && d8R.all isDigitCh then
          match r4 with
          | '-' :: r5 =>
            if (dropPref pre.toList.reverse r5).isSome then
              some (d8R.reverse, sufR.reverse)
            else none
          | _ => none
        else none
      | _ => none

/-- `derive_date_and_suffix_from_filename`: returns `(YYYY-MM-DD, suffix)`
or `("", "")` when the filename does not match. -/
def derive_date_and_suffix_from_filename (filename : String) (pre : String) :
    String × String :=
  if filename = "" then ("", "")
  else
    let fn := lastPathComponent (pyLower filename)
    match matchNlSfTail pre fn with
    | none => ("", "")
    | some (d8, suf) =>
      let yyyy := String.mk (d8.take 4)
      let mm := String.mk ((d8.drop 4).take 2)
      let dd := String.mk (d8.drop 6)
      (yyyy ++ "-" ++ mm ++ "-" ++ dd, String.mk suf)

/-- `derive_law_id_from_filename`. -/
def derive_law_id_from_filename (filename : String) : String :=
  let p := derive_date_and_suffix_from_filename filename "nl"
  let date_iso := p.1
  let suffix_str := p.2
  if date_iso = "" then ""
  else
    let base := "lov/" ++ date_iso
    if suffix_str ≠ "" && digitsVal suffix_str.toList ≠ 0 then
      base ++ "-" ++ toString (digitsVal suffix_str.toList)
    else base

/-- `build_public_law_url`. -/
def build_public_law_url (doc_id : String) (filename : String) : String :=
  let ref := if filename ≠ "" then derive_law_id_from_filename filename else ""
  if filename ≠ "" && ref ≠ "" then
    "https://lovdata.no/dokument/NL/" ++ ref
  else if doc_id ≠ "" then
    let d := pyReplaceDrop (pyStrip doc_id) " "
    if pyStartsWith d "NL/lov/" then "https://lovdata.no/dokument/" ++ d
    else if pyStartsWith d "lov/" then "https://lovdata.no/dokument/NL/" ++ d
    else if pyStartsWith d "NL/" then "https://lovdata.no/dokument/NL/" ++ d
    else "https://lovdata.no/dokument/NL/" ++ d
  else ""

/-! ## Coordinate shifting -/

/-- `shift_new_segment_start_after_inserts`: a newly inserted segment planned
at `segment_start_row_1based` is shifted only by inserts strictly above it. -/
def shift_new_segment_start_after_inserts
    (segment_start_row_1based : Nat) (insert_ops_existing : List (Nat × Nat)) : Nat :=
  segment_start_row_1based
  + insert_ops_existing.foldl
      (fun shift op =>
        if op.1 < segment_start_row_1based then shift + op.2 else shift) 0

/-- `shift_existing_row_after_inserts`: a pre-existing row is also pushed down
by an insert exactly at its own row number. -/
def shift_existing_row_after_inserts
    (row_num_1based : Nat) (insert_ops_existing : List (Nat × Nat)) : Nat :=
  row_num_1based
  + insert_ops_existing.foldl
      (fun shift op =>
        if op.1 ≤ row_num_1based then shift + op.2 else shift) 0

/-! ## The ledger model

The sheet tab is a 1-based grid; the code tracks five columns (C = title,
H = date, S = url, M = Primary/Secondary marker, E = kind label).  A `Sheet`
is the list of rows starting at row 1; rows beyond the list are blank. -/

structure SheetRow where
  colC : String
  colH : String
  colS : String
  colM : String
  colE : String
deriving DecidableEq, Repr

def blankRow : SheetRow := ⟨"", "", "", "", ""⟩

abbrev Sheet := List SheetRow

/-- A row counts as used when any of the five tracked columns is non-empty
after stripping (`get_last_row` checks C, H, S, M, E). -/
def rowUsed (r : SheetRow) : Bool :=
  pyStrip r.colC ≠ "" || pyStrip r.colH ≠ "" || pyStrip r.colS ≠ ""
  || pyStrip r.colM ≠ "" || pyStrip r.colE ≠ ""

def lastUsedAux : List SheetRow → Nat → Nat → Nat
  | [], _, acc => acc
  | r :: rest, i, acc =>
    lastUsedAux rest (i + 1) (if rowUsed r then max acc (i + 1) else acc)

/-- `get_last_row`: highest 1-based row with a value in any tracked column,
with a floor of 2 (the template row). -/
def get_last_row (sheet : Sheet) : Nat := lastUsedAux sheet 0 2

/-! ## Dictionary / set helpers (Python `dict` and `set` as insertion-ordered
association lists with unique keys; only membership and per-key content are
ever consumed). -/

def addToSet {α : Type} [DecidableEq α] (x : α) (s : List α) : List α :=
  if x ∈ s then s else s ++ [x]

def dictGet {κ α : Type} [DecidableEq κ] (d : List (κ × α)) (k : κ) : Option α :=
  match d with
  | [] => none
  | (k2, v) :: rest => if k = k2 then some v else dictGet rest k

/-- `d.setdefault(k, dflt)` followed by an in-place update `f` of the entry. -/
def dictUpd {κ α : Type} [DecidableEq κ] (d : List (κ × α)) (k : κ) (dflt : α)
    (f : α → α) : List (κ × α) :=
  match d with
  | [] => [(k, f dflt)]
  | (k2, v) :: rest =>
    if k = k2 then (k2, f v) :: rest else (k2, v) :: dictUpd rest k dflt f

/-! ## `read_existing_context` -/

structure PrimaryBlock where
  url : Option String
  row : Nat
  end_row : Nat
deriving DecidableEq, Repr

structure LedgerContext where
  initial_last_row : Nat
  primary_pairs : List (String × String)
  regs_under_primary : List (Option String × List String)
  all_url_rows : List (Nat × String)
  primary_blocks : List PrimaryBlock
deriving Repr

structure ScanState where
  current_primary_url : Option String
  primary_pairs : List (String × String)
  regs_under_primary : List (Option String × List String)
  all_url_rows : List (Nat × String)
  primary_rows : List (Option String × Nat)
deriving Repr

def initScanState : ScanState := ⟨none, [], [], [], []⟩

/-- One iteration of the top-to-bottom walk in `read_existing_context`:
`d`/`u`/`m` are the stripped H/S/lowercased M values of row `rn`. -/
def scanRow (st : ScanState) (rn : Nat) (row : SheetRow) : ScanState :=
  let d := pyStrip row.colH
  let u := pyStrip row.colS
  let m := pyLower (pyStrip row.colM)
  let st1 :=
    if u ≠ "" then { st with all_url_rows := st.all_url_rows ++ [(rn, u)] }
    else st
  if m = "primary" then
    let cp : Option String := if u ≠ "" then some u else none
    let pairs :=
      if d ≠ "" && u ≠ "" then addToSet (d, u) st1.primary_pairs
      else st1.primary_pairs
    { st1 with
      current_primary_url := cp
      primary_pairs := pairs
      regs_under_primary := dictUpd st1.regs_under_primary cp [] id
      primary_rows := st1.primary_rows ++ [(cp, rn)] }
  else
    match st1.current_primary_url with
    | some cpu =>
      if u ≠ "" then
        { st1 with
          regs_under_primary := dictUpd st1.regs_under_primary (some cpu) [] (addToSet u) }
      else st1
    | none => st1

/-- Blocks: each primary row extends to the row before the next primary row,
the last one to `initial_last_row`. -/
def buildBlocks (last : Nat) : List (Option String × Nat) → List PrimaryBlock
  | [] => []
  | [(u, r)] => [⟨u, r, last⟩]
  | (u, r) :: (u2, r2) :: rest => ⟨u, r, r2 - 1⟩ :: buildBlocks last ((u2, r2) :: rest)

/-- `read_existing_context`: one read of rows 3..last over columns H/S/M. -/
def read_existing_context (sheet : Sheet) : LedgerContext :=
  let last := get_last_row sheet
  if last < 3 then ⟨last, [], [], [], []⟩
  else
    let rows := (List.range' 3 (last - 2)).map fun rn => (rn, sheet.getD (rn - 1) blankRow)
    let st := rows.foldl (fun st p => scanRow st p.1 p.2) initScanState
    ⟨last, st.primary_pairs, st.regs_under_primary, st.all_url_rows,
     buildBlocks last st.primary_rows⟩

/-! ## The planning core of `run_scrape`

`run_scrape` parses and keeps documents, reads the ledger once, then builds
its whole write plan in memory.  `LawDoc`/`RegDoc` are the per-document
dictionaries at the point they enter the reconciliation loop (title, date,
url, id, status), and `reg_map` is the regulation map keyed by referenced law
id.  `RowItem` is one planned output row (`type` law/reg plus title, date,
url). -/

structure LawDoc where
  title : String
  date : String
  url : String
  lawId : String
  status : String
deriving DecidableEq, Repr

structure RegDoc where
  title : String
  date : String
  url : String
deriving DecidableEq, Repr

structure RowItem where
  isReg : Bool
  title : String
  date : String
  url : String
deriving DecidableEq, Repr

structure BuildState where
  output_rows_to_append : List RowItem
  regs_to_insert_under_existing : List (String × List RowItem)
  ambiguous_positions_new : List Nat
  scraped_urls : List String
  primary_pairs : List (String × String)
deriving Repr

/-- Inner loop body over `regs_for_law`: secondary dedup is scoped to the
urls already under this primary in the sheet plus those seen for this law in
this run. -/
def processReg (law_is_existing : Bool) (law_url : String)
    (existing_regs : List String) (st : BuildState × List String)
    (reg : RegDoc) : BuildState × List String :=
  let bs := st.1
  let seen := st.2
  let reg_url := pyStrip reg.url
  let bs :=
    if reg_url ≠ "" then { bs with scraped_urls := addToSet reg_url bs.scraped_urls }
    else bs
  if reg_url ≠ "" && reg_url ∈ existing_regs then (bs, seen)
  else if reg_url ≠ "" && reg_url ∈ seen then (bs, seen)
  else
    let reg_row : RowItem := ⟨true, reg.title, reg.date, reg_url⟩
    let bs :=
      if law_is_existing then
        { bs with
          regs_to_insert_under_existing :=
            dictUpd bs.regs_to_insert_under_existing law_url [] (fun l => l ++ [reg_row]) }
      else
        { bs with output_rows_to_append := bs.output_rows_to_append ++ [reg_row] }
    let seen := if reg_url ≠ "" then addToSet reg_url seen else seen
    (bs, seen)

/-- Outer loop body over `kept_laws`. -/
def processLaw (ctx : LedgerContext) (reg_map : List (String × List RegDoc))
    (bs : BuildState) (law : LawDoc) : BuildState :=
  let law_date := law.date
  let law_url := pyStrip law.url
  let bs :=
    if law_url ≠ "" then { bs with scraped_urls := addToSet law_url bs.scraped_urls }
    else bs
  let law_is_existing :=
    law_date ≠ "" && law_url ≠ "" && decide ((law_date, law_url) ∈ bs.primary_pairs)
  let bs :=
    if !law_is_existing then
      let out := bs.output_rows_to_append ++ [⟨false, law.title, law_date, law_url⟩]
      let amb :=
        if law.status = "ambiguous" then bs.ambiguous_positions_new ++ [out.length - 1]
        else bs.ambiguous_positions_new
      let pairs :=
        if law_date ≠ "" && law_url ≠ "" then addToSet (law_date, law_url) bs.primary_pairs
        else bs.primary_pairs
      { bs with
        output_rows_to_append := out
        ambiguous_positions_new := amb
        primary_pairs := pairs }
    else bs
  let law_id_key := pyReplaceDrop law.lawId "NL/"
  let regs_for_law := (dictGet reg_map law_id_key).getD []
  let existing_regs := (dictGet ctx.regs_under_primary (some law_url)).getD []
  (regs_for_law.foldl (processReg law_is_existing law_url existing_regs) (bs, [])).1

def initBuildState (ctx : LedgerContext) : BuildState :=
  ⟨[], [], [], [], ctx.primary_pairs⟩

/-- `primary_block_by_url = {b["url"]: b for b in primary_blocks if b["url"]}`:
on duplicate urls the later block wins. -/
def lookupBlock (blocks : List PrimaryBlock) (u : String) : Option PrimaryBlock :=
  (blocks.filter (fun b => b.url = some u)).getLast?

/-- Stable descending insertion by key (Python `sorted(key=..., reverse=True)`). -/
def insDescBy {α : Type} (key : α → Nat) (x : α) : List α → List α
  | [] => [x]
  | y :: ys => if key y > key x then y :: insDescBy key x ys else x :: y :: ys

def sortDescBy {α : Type} (key : α → Nat) (l : List α) : List α :=
  l.foldr (insDescBy key) []

structure PlanResult where
  insert_ops_existing : List (Nat × Nat)
  segments_existing : List (Nat × List RowItem)
  append_op : Option (Nat × Nat)
  segments_append : List (Nat × List RowItem)
  ambiguous_rows : List Nat
  stale_rows : List Nat
  scraped_urls : List String
deriving Repr

/-- The pure reconciliation plan of one `run_scrape` call, from the ledger
context and the kept documents: which rows to append at the bottom, which
segments to insert under existing primary blocks (bottom-up), the final
ambiguous-row and stale-row coordinates, and the scraped-url set. -/
def plan_run (ctx : LedgerContext) (kept_laws : List LawDoc)
    (reg_map : List (String × List RegDoc)) : PlanResult :=
  let bs := kept_laws.foldl (processLaw ctx reg_map) (initBuildState ctx)
  let step := bs.regs_to_insert_under_existing.foldl
    (fun (acc : List RowItem × List (Nat × String × List RowItem)) kv =>
      match lookupBlock ctx.primary_blocks kv.1 with
      | none => (acc.1 ++ kv.2, acc.2)
      | some block => (acc.1, acc.2 ++ [(block.end_row + 1, kv.1, kv.2)]))
    ([], [])
  let blocks_sorted := sortDescBy (fun t => t.1) step.2
  let filtered := blocks_sorted.filter (fun t => t.2.2.length ≠ 0)
  let insert_ops := filtered.map (fun t => (t.1, t.2.2.length))
  let segments_existing := filtered.map (fun t => (t.1, t.2.2))
  let total_inserted := (insert_ops.map (fun op => op.2)).sum
  let output_rows := bs.output_rows_to_append ++ step.1
  let append_start :=
    let s0 := ctx.initial_last_row + total_inserted + 1
    if s0 < 3 then 3 else s0
  let append_op :=
    if output_rows.length ≠ 0 then some (append_start, output_rows.length) else none
  let segments_append :=
    if output_rows.length ≠ 0 then [(append_start, output_rows)] else []
  let ambiguous_rows :=
    if output_rows.length ≠ 0 && bs.ambiguous_positions_new.length ≠ 0 then
      bs.ambiguous_positions_new.map (fun idx => append_start + idx)
    else []
  let stale_rows := (ctx.all_url_rows.filter
      (fun p => p.2 ≠ "" && !(bs.scraped_urls.contains p.2))).map
    (fun p => shift_existing_row_after_inserts p.1 insert_ops)
  ⟨insert_ops, segments_existing, append_op, segments_append,
   ambiguous_rows, stale_rows, bs.scraped_urls⟩

/-! ## Executing the plan against the sheet -/

/-- The first `n` rows of the grid holding `sheet`: the sheet padded with
blank rows up to length `n` and truncated to `n` (the spreadsheet grid always
extends past its used region with blank rows). -/
def padTake (sheet : Sheet) (n : Nat) : Sheet :=
  (sheet ++ List.replicate (n - sheet.length) blankRow).take n

/-- `insertDimension` of `count` blank rows at 1-based row `start` of the
grid: rows at or below `start` shift down by `count`. -/
def insertBlankRows (sheet : Sheet) (start count : Nat) : Sheet :=
  padTake sheet (start - 1) ++ List.replicate count blankRow ++ sheet.drop (start - 1)

/-- The cell values written for one planned row (C/H/S/M/E). -/
def mkRow (it : RowItem) : SheetRow :=
  ⟨it.title, it.date, it.url,
   if it.isReg then "Secondary" else "Primary",
   if it.isReg then "Rule/Regulation (non-EU)" else ""⟩

def setSheetRow (sheet : Sheet) (rn : Nat) (r : SheetRow) : Sheet :=
  let idx := rn - 1
  if idx < sheet.length then sheet.set idx r
  else sheet ++ List.replicate (idx - sheet.length) blankRow ++ [r]

def writeSegment (sheet : Sheet) (start : Nat) (rows : List RowItem) : Sheet :=
  (rows.foldl (fun (acc : Sheet × Nat) it => (setSheetRow acc.1 acc.2 (mkRow it), acc.2 + 1))
    (sheet, start)).1

/-- `batch_insert_rows_with_format` followed by `batch_write_segments_values`:
inserts under existing blocks are executed bottom-up (requests in one batch
are applied sequentially), then the append block, then all value writes at
their shifted coordinates.  Formatting copies and row colouring do not touch
cell values and are not modelled. -/
def apply_plan (sheet : Sheet) (p : PlanResult) : Sheet :=
  let s1 := (sortDescBy (fun op : Nat × Nat => op.1) p.insert_ops_existing).foldl
    (fun sh op => if op.2 = 0 then sh else insertBlankRows sh op.1 op.2) sheet
  let s2 :=
    match p.append_op with
    | some op => if op.2 = 0 then s1 else insertBlankRows s1 op.1 op.2
    | none => s1
  let s3 := p.segments_existing.foldl
    (fun sh seg =>
      writeSegment sh (shift_new_segment_start_after_inserts seg.1 p.insert_ops_existing) seg.2)
    s2
  p.segments_append.foldl (fun sh seg => writeSegment sh seg.1 seg.2) s3

/-- One complete run against a sheet: read once, plan, execute. -/
def run_plan (sheet : Sheet) (kept_laws : List LawDoc)
    (reg_map : List (String × List RegDoc)) : PlanResult :=
  plan_run (read_existing_context sheet) kept_laws reg_map

def run_apply (sheet : Sheet) (kept_laws : List LawDoc)
    (reg_map : List (String × List RegDoc)) : Sheet :=
  apply_plan sheet (run_plan sheet kept_laws reg_map)

/-- The urls a run marks stale: urls present in the ledger read but absent
from the run's scraped-url set (the url projection of the stale-row list). -/
def stale_url_list (ctx : LedgerContext) (scraped : List String) : List String :=
  (ctx.all_url_rows.filter (fun p => p.2 ≠ "" && !(scraped.contains p.2))).map
    (fun p => p.2)

/-! ## Regulation identifiers and the parse loops of `run_scrape` -/

def derive_reg_id_from_filename (filename : String) : String :=
  let p := derive_date_and_suffix_from_filename filename "sf"
  let date_iso := p.1
  let suffix_str := p.2
  if date_iso = "" then ""
  else
    let base := "forskrift/" ++ date_iso
    if suffix_str ≠ "" && digitsVal suffix_str.toList ≠ 0 then
      base ++ "-" ++ toString (digitsVal suffix_str.toList)
    else base

def derive_reg_date_from_filename (filename : String) : String :=
  (derive_date_and_suffix_from_filename filename "sf").1

def build_public_reg_url (doc_id : String) (filename : String) : String :=
  let rid := if filename ≠ "" then derive_reg_id_from_filename filename else ""
  if filename ≠ "" && rid ≠ "" then
    "https://lovdata.no/dokument/SF/" ++ rid
  else if doc_id = "" then ""
  else
    let d := pyStrip doc_id
    if pyStartsWith d "SF/" then "https://lovdata.no/dokument/" ++ d
    else if pyStartsWith d "sf/" then "https://lovdata.no/dokument/SF/" ++ d
    else if pyStartsWith d "forskrift/" then "https://lovdata.no/dokument/SF/" ++ d
    else "https://lovdata.no/dokument/" ++ d

/-- Result of `parse_law_xml` on one law document, restricted to the fields
`run_scrape` consumes downstream (`status` is the classifier output on the
document's evidence, i.e. `(classify_law today ev).1`). -/
structure ParsedLaw where
  title : String
  datePromulgated : String
  docId : String
  status : String
deriving DecidableEq, Repr

/-- Result of `parse_reg_xml` on one regulation document, restricted to the
fields consumed downstream. -/
structure ParsedReg where
  title : String
  datePromulgated : String
  regId : String
deriving DecidableEq, Repr

/-- One extracted law file: its archive name and the outcome of the XML
parse (`etree.fromstring` + field extraction may raise). -/
structure LawFile where
  name : String
  parsed : Except String ParsedLaw
deriving Repr

/-- One extracted regulation file: archive name, XML parse outcome, and the
law references mined from its raw bytes by `find_law_refs_in_regulation`
(only consulted when the parse succeeded). -/
structure RegFile where
  name : String
  parsed : Except String ParsedReg
  law_refs : List String
deriving Repr

/-- The law-parsing loop of `run_scrape` (lines building `candidate_laws`):
a parse failure is caught and the document is skipped. -/
def buildCandidateLaws (files : List LawFile) : List LawDoc :=
  files.foldl
    (fun acc f =>
      match f.parsed with
      | .error _ => acc
      | .ok law =>
        let date_iso := (derive_date_and_suffix_from_filename f.name "nl").1
        let d := if law.datePromulgated ≠ "" then law.datePromulgated else date_iso
        let lid := if law.docId ≠ "" then law.docId else derive_law_id_from_filename f.name
        let url := build_public_law_url lid f.name
        acc ++ [⟨law.title, d, url, lid, law.status⟩])
    []

/-- The regulation-map loop of `run_scrape`: a parse failure is caught and
the document contributes nothing to `reg_map`. -/
def buildRegMap (files : List RegFile) : List (String × List RegDoc) :=
  files.foldl
    (fun rm f =>
      match f.parsed with
      | .error _ => rm
      | .ok item =>
        let reg_date :=
          if item.datePromulgated ≠ "" then item.datePromulgated
          else derive_reg_date_from_filename f.name
        let rid := if item.regId ≠ "" then item.regId else derive_reg_id_from_filename f.name
        let url := build_public_reg_url rid f.name
        let reg : RegDoc := ⟨item.title, reg_date, url⟩
        f.law_refs.foldl (fun rm2 lid => dictUpd rm2 lid [] (fun l => l ++ [reg])) rm)
    []

/-! ## Cleanliness side conditions for reconciliation idempotence -/

/-- The regulations attached to one kept law in `run_scrape`
(`reg_map.get(law_id_key, [])` with the `NL/` alias stripped). -/
def regsForLaw (reg_map : List (String × List RegDoc)) (law : LawDoc) : List RegDoc :=
  (dictGet reg_map (pyReplaceDrop law.lawId "NL/")).getD []

/-- A kept law whose identity columns are well formed: non-empty date written
exactly as read back (stripping is the identity on it) and a non-empty url. -/
def cleanLaw (l : LawDoc) : Prop :=
  l.date ≠ "" ∧ pyStrip l.date = l.date ∧ pyStrip l.url ≠ ""

/-- A regulation row with a non-empty url. -/
def cleanReg (r : RegDoc) : Prop := pyStrip r.url ≠ ""

/-- The kept-law input of a run is clean: every law and every attached
regulation is clean, and no two kept laws share the `(date, url)` dedup key. -/
def cleanRun (kept_laws : List LawDoc) (reg_map : List (String × List RegDoc)) : Prop :=
  (∀ l ∈ kept_laws, cleanLaw l ∧ ∀ r ∈ regsForLaw reg_map l, cleanReg r)
  ∧ kept_laws.Pairwise (fun a b => (a.date, pyStrip a.url) ≠ (b.date, pyStrip b.url))

/-! ## Splice helpers (used to characterise `apply_plan`) -/

/-- Inserting blank runs at strictly descending 1-based positions. -/
def spliceBlanksDesc (s : Sheet) : List (Nat × Nat) → Sheet
  | [] => s
  | (q, c) :: rest =>
    spliceBlanksDesc (padTake s (q - 1)) rest ++ List.replicate c blankRow ++ s.drop (q - 1)

/-- Inserting written segments at strictly descending 1-based positions. -/
def spliceSegsDesc (s : Sheet) : List (Nat × List RowItem) → Sheet
  | [] => s
  | (q, w) :: rest =>
    spliceSegsDesc (padTake s (q - 1)) rest ++ w.map mkRow ++ s.drop (q - 1)

/-- `X2` interleaves `X1` with extra rows satisfying `E` (the row lists of a
post-run sheet window versus the pre-run window: old rows in order, plus
inserted rows that are invisible to the grouping scan). -/
inductive Ilv (E : SheetRow → Prop) : List SheetRow → List SheetRow → Prop
  | nil : Ilv E [] []
  | old (r : SheetRow) {X2 X1 : List SheetRow} :
      Ilv E X2 X1 → Ilv E (r :: X2) (r :: X1)
  | extra (r : SheetRow) {X2 X1 : List SheetRow} :
      E r → Ilv E X2 X1 → Ilv E (r :: X2) X1

/-- A row is syntactically non-primary for the grouping scan. -/
def nonPrimaryRow (r : SheetRow) : Prop :=
  pyLower (pyStrip r.colM) ≠ "primary"

/-- The url column of a row window, restricted to urls outside the scraped
set: exactly the urls a run would mark stale in that window. -/
def urlProj (scraped : List String) (rows : List SheetRow) : List String :=
  (rows.filter
    (fun r => pyStrip r.colS ≠ "" && !(scraped.contains (pyStrip r.colS)))).map
    (fun r => pyStrip r.colS)

/-- Rows of a window paired with their 1-based row numbers starting at `r`. -/
def rowsFrom (r : Nat) : List SheetRow → List (Nat × SheetRow)
  | [] => []
  | x :: xs => (r, x) :: rowsFrom (r + 1) xs

/-- The scan of `read_existing_context` as a fold over a numbered window. -/
def scanFold (st : ScanState) (w : List (Nat × SheetRow)) : ScanState :=
  w.foldl (fun st p => scanRow st p.1 p.2) st

/-! ## Concrete fixtures (sample ledger states and document sets) -/

def sampleLawA : LawDoc := ⟨"Law A", "2020-01-01", "https://x/lawA", "lov/2020-01-01", "in_force"⟩

def sampleLawB : LawDoc := ⟨"Law B", "2021-01-01", "https://x/lawB", "lov/2021-01-01", "in_force"⟩

def sampleRegA1 : RegDoc := ⟨"Reg A1", "2020-02-02", "https://x/regA1"⟩

def sampleRegA2 : RegDoc := ⟨"Reg A2", "2020-03-03", "https://x/regA2"⟩

def sampleRegB1 : RegDoc := ⟨"Reg B1", "2021-02-02", "https://x/regB1"⟩

def sampleRegMap : List (String × List RegDoc) :=
  [("lov/2020-01-01", [sampleRegA1, sampleRegA2]), ("lov/2021-01-01", [sampleRegB1])]

def sampleLaws : List LawDoc := [sampleLawA, sampleLawB]

/-- Header row, template row, then one primary block holding one secondary. -/
def sampleSheet : Sheet :=
  [ ⟨"hdr", "", "", "", ""⟩, ⟨"tmpl", "", "", "", ""⟩,
    ⟨"Law A", "2020-01-01", "https://x/lawA", "Primary", ""⟩,
    ⟨"Reg A1", "2020-02-02", "https://x/regA1", "Secondary", "Rule/Regulation (non-EU)"⟩ ]

/-- The sample sheet after one full run. -/
def sampleSheet1 : Sheet := run_apply sampleSheet sampleLaws sampleRegMap

/-- A kept law with an empty derived url (and empty id). -/
def sampleLawEmptyUrl : LawDoc := ⟨"Law E", "2020-05-05", "", "", "in_force"⟩

/-! ## Projected grouping-scan state (row numbers dropped)

The reconciliation conclusions of the second run depend only on the
row-number-free part of the scan state: the current primary, the
`(date, url)` pair set, the per-primary regulation sets, and the url column
in order. -/

structure PState where
  cp : Option String
  pairs : List (String × String)
  regs : List (Option String × List String)
  urls : List String

def pProj (st : ScanState) : PState :=
  ⟨st.current_primary_url, st.primary_pairs, st.regs_under_primary,
   st.all_url_rows.map (fun p => p.2)⟩

/-- `scanRow` with the row number forgotten. -/
def pstep (p : PState) (row : SheetRow) : PState :=
  let d := pyStrip row.colH
  let u := pyStrip row.colS
  let m := pyLower (pyStrip row.colM)
  let urls := if u ≠ "" then p.urls ++ [u] else p.urls
  if m = "primary" then
    let cp : Option String := if u ≠ "" then some u else none
    ⟨cp,
     (if d ≠ "" && u ≠ "" then addToSet (d, u) p.pairs else p.pairs),
     dictUpd p.regs cp [] id, urls⟩
  else
    match p.cp with
    | some cpu =>
      ⟨p.cp, p.pairs,
       (if u ≠ "" then dictUpd p.regs (some cpu) [] (addToSet u) else p.regs), urls⟩
    | none => ⟨p.cp, p.pairs, p.regs, urls⟩

def pfold (p : PState) (X : List SheetRow) : PState := X.foldl pstep p

/-- The window of rows a ledger read walks: rows 3..last of the grid. -/
def winOf (s : Sheet) : List SheetRow := (padTake s (get_last_row s)).drop 2

/-- The stale filter on one url of the ledger. -/
def urlKeep (scraped : List String) (u : String) : Bool :=
  u ≠ "" && !(scraped.contains u)

/-- Per-key containment of regulation dictionaries. -/
def dictLE (d1 d2 : List (Option String × List String)) : Prop :=
  ∀ (k : Option String) (x : String),
    x ∈ (dictGet d1 k).getD [] → x ∈ (dictGet d2 k).getD []

/-- Simulation relation between the projected scan of a post-run window and
the scan of the pre-run window: same current primary, identical pair set,
at least the same regulations under every primary, and the same
stale-candidate url column. -/
def SimRel (scraped : List String) (p2 p1 : PState) : Prop :=
  p2.cp = p1.cp ∧ p2.pairs = p1.pairs ∧ dictLE p1.regs p2.regs
  ∧ p2.urls.filter (urlKeep scraped) = p1.urls.filter (urlKeep scraped)

/-- The current-primary value a primary row installs. -/
def cpvOf (row : SheetRow) : Option String :=
  if pyStrip row.colS ≠ "" then some (pyStrip row.colS) else none

/-- Append-block structure: one group per appended law, its row followed by
its regulation rows. -/
def flatG (G : List (RowItem × List RowItem)) : List RowItem :=
  G.foldr (fun g acc => g.1 :: g.2 ++ acc) []

/-- A planned regulation row as the readback scan sees it. -/
def regItOK (scraped : List String) (it : RowItem) : Prop :=
  it.isReg = true ∧ it.url ≠ "" ∧ pyStrip it.url = it.url ∧ it.url ∈ scraped

/-- A planned law (group head) row as the readback scan sees it. -/
def headOK (scraped : List String) (it : RowItem) : Prop :=
  it.isReg = false ∧ it.date ≠ "" ∧ pyStrip it.date = it.date
  ∧ it.url ≠ "" ∧ pyStrip it.url = it.url ∧ it.url ∈ scraped

/-- One regulation of a kept law is covered: already under its primary in the
ledger, or planned in the law's append group, or planned in the insert
segment keyed by the law's url. -/
def regCovered (ctx : LedgerContext) (bs : BuildState)
    (G : List (RowItem × List RowItem)) (law : LawDoc) (r : RegDoc) : Prop :=
  pyStrip r.url ∈ (dictGet ctx.regs_under_primary (some (pyStrip law.url))).getD []
  ∨ (∃ g ∈ G, g.1.url = pyStrip law.url
      ∧ pyStrip r.url ∈ g.2.map (fun it => it.url))
  ∨ pyStrip r.url ∈
      ((dictGet bs.regs_to_insert_under_existing (pyStrip law.url)).getD []).map
        (fun it => it.url)

/-- A processed kept law is fully accounted for by the plan. -/
def lawHandled (ctx : LedgerContext) (bs : BuildState)
    (G : List (RowItem × List RowItem)) (rm : List (String × List RegDoc))
    (law : LawDoc) : Prop :=
  ((law.date, pyStrip law.url) ∈ ctx.primary_pairs
    ∨ ∃ g ∈ G, g.1 = ⟨false, law.title, law.date, pyStrip law.url⟩)
  ∧ ∀ r ∈ regsForLaw rm law, regCovered ctx bs G law r

/-- Structural facts maintained by the reconciliation loop over kept laws. -/
def buildFacts (ctx : LedgerContext) (bs : BuildState)
    (G : List (RowItem × List RowItem)) : Prop :=
  bs.output_rows_to_append = flatG G
  ∧ (∀ g ∈ G, headOK bs.scraped_urls g.1 ∧ ∀ it ∈ g.2, regItOK bs.scraped_urls it)
  ∧ (∀ e ∈ bs.regs_to_insert_under_existing, ∃ d2, (d2, e.1) ∈ ctx.primary_pairs)
  ∧ (∀ (k : String) (it : RowItem),
      it ∈ (dictGet bs.regs_to_insert_under_existing k).getD [] →
      regItOK bs.scraped_urls it)

/-! ## Named stages of `plan_run` (abbreviations for its `let` chain) -/

def planBS (ctx : LedgerContext) (laws : List LawDoc)
    (rm : List (String × List RegDoc)) : BuildState :=
  laws.foldl (processLaw ctx rm) (initBuildState ctx)

def planStep (ctx : LedgerContext) (laws : List LawDoc)
    (rm : List (String × List RegDoc)) :
    List RowItem × List (Nat × String × List RowItem) :=
  (planBS ctx laws rm).regs_to_insert_under_existing.foldl
    (fun acc kv =>
      match lookupBlock ctx.primary_blocks kv.1 with
      | none => (acc.1 ++ kv.2, acc.2)
      | some block => (acc.1, acc.2 ++ [(block.end_row + 1, kv.1, kv.2)])) ([], [])

def planFiltered (ctx : LedgerContext) (laws : List LawDoc)
    (rm : List (String × List RegDoc)) : List (Nat × String × List RowItem) :=
  (sortDescBy (fun t => t.1) (planStep ctx laws rm).2).filter
    (fun t => t.2.2.length ≠ 0)

def planSegs (ctx : LedgerContext) (laws : List LawDoc)
    (rm : List (String × List RegDoc)) : List (Nat × List RowItem) :=
  (planFiltered ctx laws rm).map (fun t => (t.1, t.2.2))

def planOut (ctx : LedgerContext) (laws : List LawDoc)
    (rm : List (String × List RegDoc)) : List RowItem :=
  (planBS ctx laws rm).output_rows_to_append ++ (planStep ctx laws rm).1

/-- The op list a segment list is inserted for. -/
def segsOps (segs : List (Nat × List RowItem)) : List (Nat × Nat) :=
  segs.map (fun sg => (sg.1, sg.2.length))

/-! # Theorems -/

/-! ## Generic helper lemmas -/

theorem shift_fold_sum (P : Nat → Prop) [DecidablePred P] :
    ∀ (l : List (Nat × Nat)) (n : Nat),
      l.foldl (fun a op => if P op.1 then a + op.2 else a) n
        = n + (l.map (fun op => if P op.1 then op.2 else 0)).sum := by
  intro l
  induction l with
  | nil => intro n; simp
  | cons x xs ih =>
    intro n
    by_cases h : P x.1 <;> simp [List.foldl_cons, ih, h] <;> try omega

theorem shift_new_eq_sum (r : Nat) (ops : List (Nat × Nat)) :
    shift_new_segment_start_after_inserts r ops
      = r + (ops.map (fun op => if op.1 < r then op.2 else 0)).sum := by
  unfold shift_new_segment_start_after_inserts
  rw [shift_fold_sum (fun q => q < r)]
  omega

theorem shift_existing_eq_sum (r : Nat) (ops : List (Nat × Nat)) :
    shift_existing_row_after_inserts r ops
      = r + (ops.map (fun op => if op.1 ≤ r then op.2 else 0)).sum := by
  unfold shift_existing_row_after_inserts
  rw [shift_fold_sum (fun q => q ≤ r)]
  omega

/-- C3: coordinate shifting law.  A new segment planned at row `r` is shifted
by the counts of all inserts strictly above `r`; a pre-existing row at `r` is
shifted by the counts of all inserts at or above `r`; on inserts
`[(10,2),(20,3)]` a new segment at 20 resolves to 22 and a pre-existing row
at 20 resolves to 25. -/
theorem claim_C3_coordinate_shift_law :
    (∀ (ops : List (Nat × Nat)) (r : Nat),
      shift_new_segment_start_after_inserts r ops
          = r + (ops.map (fun op => if op.1 < r then op.2 else 0)).sum
      ∧ shift_existing_row_after_inserts r ops
          = r + (ops.map (fun op => if op.1 ≤ r then op.2 else 0)).sum)
    ∧ shift_new_segment_start_after_inserts 20 [(10, 2), (20, 3)] = 22
    ∧ shift_existing_row_after_inserts 20 [(10, 2), (20, 3)] = 25 := by
  refine ⟨fun ops r => ⟨shift_new_eq_sum r ops, shift_existing_eq_sum r ops⟩, by decide, by decide⟩

/-! ## C1: gate-2 dominance of the status classifier -/

/-- C1 (amended): for the `src/lib` variant of `parse_law_xml`, whenever the
positive candidate list contains a parseable ISO date at or before the
current date, the classifier returns `in_force`, regardless of every other
signal (explicit not-in-force text, false-like raw flag, future candidate
dates, or a Kongen fastsetter/bestemmer phrase). -/
theorem claim_C1_gate2_dominance_lib (today : PyDate) (ev : LawEvidence)
    (h : any_past_or_today_date today ev.positive_candidates = true) :
    (classify_law today ev).1 = "in_force" := by
  unfold classify_law
  simp [h]

/-- C1 witness: a document carrying every conflicting signal at once
(not-in-force text, false-like raw flag, a Kongen-bestemmer phrase, a future
date) still classifies `in_force` because of the past date 2020-01-01. -/
theorem claim_C1_witness :
    any_past_or_today_date ⟨2025, 6, 15⟩ ["2020-01-01", "2999-12-31"] = true
    ∧ (classify_law ⟨2025, 6, 15⟩
        ⟨"false", "2024-01-01", "Ikke i kraft. Kongen bestemmer.",
          ["2020-01-01", "2999-12-31"]⟩).1 = "in_force" :=
  ⟨by decide,
   claim_C1_gate2_dominance_lib ⟨2025, 6, 15⟩
     ⟨"false", "2024-01-01", "Ikke i kraft. Kongen bestemmer.",
       ["2020-01-01", "2999-12-31"]⟩ (by decide)⟩

/-- C1 counterexample: the `src/api` variant of `parse_law_xml` (also cited
by the claim) checks future dates before past dates, so a document whose
candidates hold a past date 2020-01-01 and a future date 2999-01-01
classifies `future`, not `in_force`. -/
theorem claim_C1_counterexample :
    any_past_or_today_date ⟨2025, 6, 15⟩ ["2020-01-01", "2999-01-01"] = true
    ∧ (classify_law_api ⟨2025, 6, 15⟩
        ⟨"", "", "", ["2020-01-01", "2999-01-01"]⟩).1 = "future" := by
  constructor
  · decide
  · decide

/-! ## C7: false-like raw flag with no parseable candidate -/

theorem any_date_none_past (today : PyDate) (l : List String)
    (h : ∀ c ∈ l, parse_iso_date c = none) :
    any_past_or_today_date today l = false := by
  simp only [any_past_or_today_date, List.any_eq_false]
  intro c hc
  simp [h c hc]

theorem any_date_none_future (today : PyDate) (l : List String)
    (h : ∀ c ∈ l, parse_iso_date c = none) :
    any_future_date today l = false := by
  simp only [any_future_date, List.any_eq_false]
  intro c hc
  simp [h c hc]

/-- C7: if the raw force flag is a recognised false-like token and no
positive candidate parses as an ISO date, the `src/lib` classifier returns
`not_in_force`. -/
theorem claim_C7_false_like_flag (today : PyDate) (ev : LawEvidence)
    (hflag : pyStrip (pyLower ev.in_force_raw) ∈ ["false", "0", "no", "nei"])
    (hnone : ∀ c ∈ ev.positive_candidates, parse_iso_date c = none) :
    (classify_law today ev).1 = "not_in_force" := by
  have hpast := any_date_none_past today ev.positive_candidates hnone
  have hexp : explicit_not_in_force ev = true := by
    unfold explicit_not_in_force
    simp only [List.mem_cons, List.mem_singleton, List.not_mem_nil, or_false] at hflag
    rcases hflag with h | h | h | h <;> simp [h]
  unfold classify_law
  simp [hpast, hexp]

/-- C7 witness at a concrete document: raw flag `" NEI "`, candidates that do
not parse. -/
theorem claim_C7_witness :
    pyStrip (pyLower " NEI ") ∈ ["false", "0", "no", "nei"]
    ∧ (∀ c ∈ ["not-a-date", "", "2024-13-40"], parse_iso_date c = none)
    ∧ (classify_law ⟨2025, 6, 15⟩
        ⟨" NEI ", "", "some text", ["not-a-date", "", "2024-13-40"]⟩).1 = "not_in_force" :=
  ⟨by decide, by decide,
   claim_C7_false_like_flag ⟨2025, 6, 15⟩
     ⟨" NEI ", "", "some text", ["not-a-date", "", "2024-13-40"]⟩
     (by decide) (by decide)⟩

/-! ## C4: identifier derivation round-trip -/

/-- C4 counterexample: for `nl-20240115-3.xml` the code derives the
native-prefix identifier `lov/2024-01-15-3`, not `law/2024-01-15-3`; and a
filename with the numeric suffix absent does not match the filename regex at
all, so the derived identifier is empty rather than `law/2024-01-15`. -/
theorem claim_C4_counterexample :
    derive_law_id_from_filename "nl-20240115-3.xml" ≠ "law/2024-01-15-3"
    ∧ derive_law_id_from_filename "nl-20240115.xml" ≠ "law/2024-01-15" := by
  constructor
  · decide
  · decide

/-- C4 (amended): for `nl-20240115-3.xml` the derived identifier is
`lov/2024-01-15-3` and the public URL ends with exactly that path; for
suffix `0` the identifier is `lov/2024-01-15` with no trailing suffix; for a
filename with the suffix absent the derivation fails and returns the empty
string. -/
theorem claim_C4_identifier_derivation :
    derive_law_id_from_filename "nl-20240115-3.xml" = "lov/2024-01-15-3"
    ∧ build_public_law_url "" "nl-20240115-3.xml"
        = "https://lovdata.no/dokument/NL/" ++ "lov/2024-01-15-3"
    ∧ derive_law_id_from_filename "nl-20240115-0.xml" = "lov/2024-01-15"
    ∧ derive_law_id_from_filename "nl-20240115.xml" = "" := by
  refine ⟨by decide, by decide, by decide, by decide⟩

/-! ## C8: per-document parse-failure recovery -/

/-- C8: a law or regulation document whose XML parse raises is caught and
skipped, and the candidate-law list / regulation map of the run are exactly
those produced with the failing document removed from the input. -/
theorem claim_C8_parse_failure_recovery
    (xs ys : List LawFile) (n e : String)
    (rxs rys : List RegFile) (rn re : String) (refs : List String) :
    buildCandidateLaws (xs ++ ⟨n, Except.error e⟩ :: ys) = buildCandidateLaws (xs ++ ys)
    ∧ buildRegMap (rxs ++ ⟨rn, Except.error re, refs⟩ :: rys) = buildRegMap (rxs ++ rys) := by
  constructor
  · unfold buildCandidateLaws
    rw [List.foldl_append, List.foldl_append, List.foldl_cons]
  · unfold buildRegMap
    rw [List.foldl_append, List.foldl_append, List.foldl_cons]

/-! ## C10: the template-row floor -/

theorem lastUsedAux_ge_acc : ∀ (l : List SheetRow) (i acc : Nat), acc ≤ lastUsedAux l i acc := by
  intro l
  induction l with
  | nil => intro i acc; exact Nat.le_refl acc
  | cons r rest ih =>
    intro i acc
    refine Nat.le_trans ?_ (ih (i + 1) _)
    by_cases h : rowUsed r = true
    · simp only [h, if_true]
      exact Nat.le_max_left _ _
    · simp [h]

theorem get_last_row_ge_two (sheet : Sheet) : 2 ≤ get_last_row sheet :=
  lastUsedAux_ge_acc sheet 0 2

theorem plan_append_start_ge_three (ctx : LedgerContext) (laws : List LawDoc)
    (rm : List (String × List RegDoc)) (op : Nat × Nat)
    (h : (plan_run ctx laws rm).append_op = some op) : 3 ≤ op.1 := by
  unfold plan_run at h
  dsimp only at h
  split at h
  · injection h with h2
    rw [← h2]
    dsimp only
    split
    · exact Nat.le_refl 3
    · omega
  · exact Option.noConfusion h

/-- C10: `get_last_row` never returns less than 2 (the template row), for any
sheet contents including the empty sheet, and consequently a planned append
segment always starts at row 3 or below it never writes: the append start is
at least 3. -/
theorem claim_C10_template_floor (sheet : Sheet) (laws : List LawDoc)
    (rm : List (String × List RegDoc)) (op : Nat × Nat)
    (h : (run_plan sheet laws rm).append_op = some op) :
    2 ≤ get_last_row sheet ∧ 3 ≤ op.1 :=
  ⟨get_last_row_ge_two sheet,
   plan_append_start_ge_three (read_existing_context sheet) laws rm op h⟩

/-- C10 witness: on the empty sheet with one kept law, the append segment is
planned at row 3. -/
theorem claim_C10_witness :
    (run_plan ([] : Sheet) [sampleLawA] []).append_op = some (3, 1)
    ∧ 2 ≤ get_last_row ([] : Sheet) ∧ 3 ≤ (3, 1).1 :=
  ⟨by decide, claim_C10_template_floor [] [sampleLawA] [] (3, 1) (by decide)⟩

/-! ## C9: laws with empty date or url are re-appended on every run -/

theorem processReg_out_extends (lie : Bool) (lu : String) (er : List String)
    (st : BuildState × List String) (reg : RegDoc) :
    ∃ t, (processReg lie lu er st reg).1.output_rows_to_append
        = st.1.output_rows_to_append ++ t := by
  unfold processReg
  dsimp only
  split_ifs <;> first | exact ⟨[], (List.append_nil _).symm⟩ | exact ⟨_, rfl⟩

theorem foldl_processReg_out_extends (lie : Bool) (lu : String) (er : List String) :
    ∀ (regs : List RegDoc) (st : BuildState × List String),
      ∃ t, (regs.foldl (processReg lie lu er) st).1.output_rows_to_append
          = st.1.output_rows_to_append ++ t := by
  intro regs
  induction regs with
  | nil => intro st; exact ⟨[], by simp⟩
  | cons r rs ih =>
    intro st
    obtain ⟨t1, h1⟩ := processReg_out_extends lie lu er st r
    obtain ⟨t2, h2⟩ := ih (processReg lie lu er st r)
    exact ⟨t1 ++ t2, by rw [List.foldl_cons, h2, h1, List.append_assoc]⟩

theorem exists_ext_trans {α : Type} {X mid out : List α}
    (h1 : ∃ t, X = mid ++ t) (h2 : ∃ u, mid = out ++ u) : ∃ t, X = out ++ t := by
  obtain ⟨t, ht⟩ := h1
  obtain ⟨u, hu⟩ := h2
  exact ⟨u ++ t, by rw [ht, hu, List.append_assoc]⟩

theorem processLaw_out_extends (ctx : LedgerContext)
    (rm : List (String × List RegDoc)) (bs : BuildState) (law : LawDoc) :
    ∃ t, (processLaw ctx rm bs law).output_rows_to_append
        = bs.output_rows_to_append ++ t := by
  unfold processLaw
  dsimp only
  split_ifs <;>
    first
      | exact exists_ext_trans (foldl_processReg_out_extends _ _ _ _ _)
          ⟨[], (List.append_nil _).symm⟩
      | exact exists_ext_trans (foldl_processReg_out_extends _ _ _ _ _) ⟨_, rfl⟩

theorem mem_of_ext {α : Type} {X mid : List α} {a : α}
    (h1 : ∃ t, X = mid ++ t) (h2 : a ∈ mid) : a ∈ X := by
  obtain ⟨t, ht⟩ := h1
  rw [ht]
  exact List.mem_append_left _ h2

theorem foldl_processLaw_out_extends (ctx : LedgerContext)
    (rm : List (String × List RegDoc)) :
    ∀ (laws : List LawDoc) (bs : BuildState),
      ∃ t, (laws.foldl (processLaw ctx rm) bs).output_rows_to_append
          = bs.output_rows_to_append ++ t := by
  intro laws
  induction laws with
  | nil => intro bs; exact ⟨[], (List.append_nil _).symm⟩
  | cons l ls ih =>
    intro bs
    rw [List.foldl_cons]
    exact exists_ext_trans (ih (processLaw ctx rm bs l)) (processLaw_out_extends ctx rm bs l)

theorem processLaw_mem_append (ctx : LedgerContext)
    (rm : List (String × List RegDoc)) (bs : BuildState) (law : LawDoc)
    (h : law.date = "" ∨ pyStrip law.url = "") :
    (⟨false, law.title, law.date, pyStrip law.url⟩ : RowItem)
      ∈ (processLaw ctx rm bs law).output_rows_to_append := by
  have hfalse : (decide (law.date ≠ "") && decide (pyStrip law.url ≠ "")) = false := by
    rcases h with h | h <;> simp [h]
  unfold processLaw
  dsimp only
  simp only [hfalse, Bool.false_and, Bool.not_false, if_true]
  split_ifs <;>
    exact mem_of_ext (foldl_processReg_out_extends _ _ _ _ _) (by simp)

theorem foldl_processLaw_mem (ctx : LedgerContext)
    (rm : List (String × List RegDoc)) :
    ∀ (laws : List LawDoc) (bs : BuildState) (law : LawDoc), law ∈ laws →
      (law.date = "" ∨ pyStrip law.url = "") →
      (⟨false, law.title, law.date, pyStrip law.url⟩ : RowItem)
        ∈ (laws.foldl (processLaw ctx rm) bs).output_rows_to_append := by
  intro laws
  induction laws with
  | nil => intro bs law hmem _; exact absurd hmem (List.not_mem_nil _)
  | cons l ls ih =>
    intro bs law hmem hurl
    rw [List.foldl_cons]
    rcases List.mem_cons.mp hmem with rfl | hmem2
    · exact mem_of_ext (foldl_processLaw_out_extends ctx rm ls (processLaw ctx rm bs law))
        (processLaw_mem_append ctx rm bs law hurl)
    · exact ih (processLaw ctx rm bs l) law hmem2 hurl

theorem length_append_ne_zero_left {α : Type} {A B : List α} {a : α} (h : a ∈ A) :
    (A ++ B).length ≠ 0 := by
  have := List.length_pos.mpr (List.ne_nil_of_mem h)
  rw [List.length_append]
  omega

/-- C9: a kept law whose date or (stripped) url is empty is never treated as
already existing, whatever the ledger contains: it lands in the append
segment of every run, so empty-identity laws are re-appended by each
execution instead of being deduplicated. -/
theorem claim_C9_empty_identity_reappended (ctx : LedgerContext)
    (laws : List LawDoc) (rm : List (String × List RegDoc)) (law : LawDoc)
    (h1 : law ∈ laws) (h2 : law.date = "" ∨ pyStrip law.url = "") :
    ∃ st rows, (plan_run ctx laws rm).segments_append = [(st, rows)]
      ∧ (⟨false, law.title, law.date, pyStrip law.url⟩ : RowItem) ∈ rows := by
  have hmem := foldl_processLaw_mem ctx rm laws (initBuildState ctx) law h1 h2
  unfold plan_run
  dsimp only
  split
  · exact ⟨_, _, rfl, List.mem_append_left _ hmem⟩
  · rename_i hcond
    exact absurd (length_append_ne_zero_left hmem) hcond

/-- C9 witness: against the empty ledger, the empty-url law is planned into
the append segment. -/
theorem claim_C9_witness :
    ∃ st rows,
      (plan_run (read_existing_context []) [sampleLawEmptyUrl] []).segments_append
          = [(st, rows)]
      ∧ (⟨false, "Law E", "2020-05-05", ""⟩ : RowItem) ∈ rows :=
  claim_C9_empty_identity_reappended (read_existing_context []) [sampleLawEmptyUrl] []
    sampleLawEmptyUrl (List.mem_singleton.mpr rfl) (Or.inr (by decide))

/-! ## C5: staleness marking -/

theorem scanRow_urlrows (st : ScanState) (rn : Nat) (row : SheetRow) :
    (scanRow st rn row).all_url_rows
      = st.all_url_rows
        ++ (if pyStrip row.colS ≠ "" then [(rn, pyStrip row.colS)] else []) := by
  unfold scanRow
  dsimp only
  split_ifs <;> (try split) <;> (try split_ifs) <;>
    first | rfl | exact (List.append_nil _).symm

theorem foldl_scan_urlrows :
    ∀ (w : List (Nat × SheetRow)) (st : ScanState),
      (w.foldl (fun st p => scanRow st p.1 p.2) st).all_url_rows
        = st.all_url_rows
          ++ (w.filter (fun p => pyStrip p.2.colS ≠ "")).map
              (fun p => (p.1, pyStrip p.2.colS)) := by
  intro w
  induction w with
  | nil => intro st; simp
  | cons x xs ih =>
    intro st
    rw [List.foldl_cons, ih, scanRow_urlrows]
    by_cases h : pyStrip x.2.colS ≠ "" <;>
      simp [List.filter_cons, h, List.append_assoc]

theorem pairwise_lt_range_one (s n : Nat) :
    List.Pairwise (· < ·) (List.range' s n) := by
  induction n generalizing s with
  | zero => simp
  | succ k ih =>
    rw [List.range'_succ]
    refine List.Pairwise.cons ?_ (ih (s + 1))
    intro b hb
    have := List.mem_range'_1.mp hb
    omega

theorem read_urlrows_shape (sheet : Sheet) :
    (read_existing_context sheet).all_url_rows
      = (((List.range' 3 (get_last_row sheet - 2)).map
            (fun rn => (rn, sheet.getD (rn - 1) blankRow))).filter
          (fun p => pyStrip p.2.colS ≠ "")).map (fun p => (p.1, pyStrip p.2.colS))
      ∨ ((read_existing_context sheet).all_url_rows = [] ∧ get_last_row sheet < 3) := by
  unfold read_existing_context
  dsimp only
  split
  · rename_i h
    exact Or.inr ⟨rfl, h⟩
  · left
    rw [foldl_scan_urlrows]
    rfl

theorem read_urlrows_pairwise (sheet : Sheet) :
    List.Pairwise (fun a b : Nat × String => a.1 < b.1)
      (read_existing_context sheet).all_url_rows := by
  rcases read_urlrows_shape sheet with h | ⟨h, _⟩
  · rw [h]
    refine List.pairwise_map.mpr (List.Pairwise.filter _ (List.pairwise_map.mpr ?_))
    exact (pairwise_lt_range_one 3 _).imp (fun hab => hab)
  · rw [h]
    exact List.Pairwise.nil

theorem read_urlrows_nonempty (sheet : Sheet) :
    ∀ p ∈ (read_existing_context sheet).all_url_rows, p.2 ≠ "" := by
  rcases read_urlrows_shape sheet with h | ⟨h, _⟩ <;> rw [h]
  · intro p hp
    obtain ⟨q, hq, hqe⟩ := List.mem_map.mp hp
    have := List.of_mem_filter hq
    simp only [ne_eq, decide_not, Bool.not_eq_true', decide_eq_false_iff_not] at this
    rw [← hqe]
    exact this
  · intro p hp
    exact absurd hp (List.not_mem_nil _)

theorem shift_existing_lt_of_lt (ops : List (Nat × Nat)) {r r2 : Nat} (h : r < r2) :
    shift_existing_row_after_inserts r ops < shift_existing_row_after_inserts r2 ops := by
  rw [shift_existing_eq_sum, shift_existing_eq_sum]
  have hs : ((ops.map (fun op => if op.1 ≤ r then op.2 else 0)).sum)
      ≤ ((ops.map (fun op => if op.1 ≤ r2 then op.2 else 0)).sum) := by
    refine List.sum_le_sum ?_
    intro op _
    by_cases h1 : op.1 ≤ r
    · have h2 : op.1 ≤ r2 := Nat.le_trans h1 (Nat.le_of_lt h)
      simp [h1, h2]
    · simp [h1]
  omega

theorem stale_count_of_mem {l : List (Nat × String)} (P : Nat × String → Bool)
    (g : Nat → Nat) (hg : ∀ a b : Nat, a < b → g a < g b) :
    ∀ (rn : Nat) (u : String),
      List.Pairwise (fun a b : Nat × String => a.1 < b.1) l → (rn, u) ∈ l →
      (P (rn, u) = true → ((l.filter P).map (fun p => g p.1)).count (g rn) = 1)
      ∧ (P (rn, u) = false → g rn ∉ (l.filter P).map (fun p => g p.1)) := by
  induction l with
  | nil => intro rn u _ hmem; exact absurd hmem (List.not_mem_nil _)
  | cons x xs ih =>
    intro rn u hp hmem
    have hxall : ∀ q ∈ xs, x.1 < q.1 := fun q hq => List.rel_of_pairwise_cons hp hq
    have hptail := List.Pairwise.of_cons hp
    rcases List.mem_cons.mp hmem with rfl | hmem2
    · -- the entry is the head; every tail row is strictly below it
      have tail_ne : ∀ z ∈ (xs.filter P).map (fun p => g p.1), z ≠ g rn := by
        intro z hz
        obtain ⟨q, hq, hqe⟩ := List.mem_map.mp hz
        have hqx : rn < q.1 := hxall q (List.mem_of_mem_filter hq)
        rw [← hqe]
        exact Nat.ne_of_gt (hg rn q.1 hqx)
      constructor
      · intro hP
        rw [List.filter_cons_of_pos hP, List.map_cons, List.count_cons_self]
        have : ((xs.filter P).map (fun p => g p.1)).count (g rn) = 0 :=
          List.count_eq_zero.mpr (fun hz => (tail_ne _ hz) rfl)
        omega
      · intro hP
        rw [List.filter_cons_of_neg (by simp [hP])]
        intro hz
        exact (tail_ne _ hz) rfl
    · -- the entry is in the tail; the head is strictly below it
      have hx : x.1 < rn := by
        have := hxall (rn, u) hmem2
        exact this
      have ihres := ih rn u hptail hmem2
      by_cases hPx : P x = true
      · rw [List.filter_cons_of_pos hPx, List.map_cons]
        have hne : g x.1 ≠ g rn := Nat.ne_of_lt (hg x.1 rn hx)
        constructor
        · intro hP
          rw [List.count_cons_of_ne (Ne.symm hne)]
          exact ihres.1 hP
        · intro hP
          rw [List.mem_cons]
          rintro (h1 | h2)
          · exact hne h1.symm
          · exact ihres.2 hP h2
      · rw [List.filter_cons_of_neg (by simp [hPx])]
        exact ihres

theorem plan_run_stale_eq (ctx : LedgerContext) (laws : List LawDoc)
    (rm : List (String × List RegDoc)) :
    (plan_run ctx laws rm).stale_rows
      = (ctx.all_url_rows.filter
          (fun p => p.2 ≠ "" && !((plan_run ctx laws rm).scraped_urls.contains p.2))).map
        (fun p =>
          shift_existing_row_after_inserts p.1 (plan_run ctx laws rm).insert_ops_existing) :=
  rfl

/-- C5: every pre-existing ledger row `(rn, u)` collected at read time whose
url is missing from the run's scraped-url set contributes exactly one entry,
at its shifted coordinate, to the stale-row list handed to the black-colour
call; a row whose url was scraped contributes none. -/
theorem claim_C5_stale_marking (sheet : Sheet) (laws : List LawDoc)
    (rm : List (String × List RegDoc)) (rn : Nat) (u : String)
    (hmem : (rn, u) ∈ (read_existing_context sheet).all_url_rows) :
    (u ∉ (run_plan sheet laws rm).scraped_urls →
      ((run_plan sheet laws rm).stale_rows).count
        (shift_existing_row_after_inserts rn (run_plan sheet laws rm).insert_ops_existing)
        = 1)
    ∧ (u ∈ (run_plan sheet laws rm).scraped_urls →
      shift_existing_row_after_inserts rn (run_plan sheet laws rm).insert_ops_existing
        ∉ (run_plan sheet laws rm).stale_rows) := by
  have hu : u ≠ "" := read_urlrows_nonempty sheet (rn, u) hmem
  have hpw := read_urlrows_pairwise sheet
  have hkey := stale_count_of_mem
    (fun p => p.2 ≠ "" && !((run_plan sheet laws rm).scraped_urls.contains p.2))
    (fun r => shift_existing_row_after_inserts r (run_plan sheet laws rm).insert_ops_existing)
    (fun a b hab => shift_existing_lt_of_lt _ hab) rn u hpw hmem
  constructor
  · intro hnotin
    refine hkey.1 ?_
    simp [hu, hnotin]
  · intro hin
    refine hkey.2 ?_
    simp [hin]

/-- C5 witness: in the sample one-block ledger scraped with only Law B, the
old rows for Law A and its regulation are absent from the scraped set and
each is marked stale exactly once, while Law B's url is scraped and gets no
stale entry. -/
theorem claim_C5_witness :
    ("https://x/lawA" ∉ (run_plan sampleSheet1 [sampleLawB] sampleRegMap).scraped_urls
      ∧ ((run_plan sampleSheet1 [sampleLawB] sampleRegMap).stale_rows).count
          (shift_existing_row_after_inserts 3
            (run_plan sampleSheet1 [sampleLawB] sampleRegMap).insert_ops_existing) = 1)
    ∧ ("https://x/lawB" ∈ (run_plan sampleSheet1 [sampleLawB] sampleRegMap).scraped_urls
      ∧ shift_existing_row_after_inserts 6
          (run_plan sampleSheet1 [sampleLawB] sampleRegMap).insert_ops_existing
          ∉ (run_plan sampleSheet1 [sampleLawB] sampleRegMap).stale_rows) :=
  ⟨⟨by decide,
    (claim_C5_stale_marking sampleSheet1 [sampleLawB] sampleRegMap 3 "https://x/lawA"
      (by decide)).1 (by decide)⟩,
   ⟨by decide,
    (claim_C5_stale_marking sampleSheet1 [sampleLawB] sampleRegMap 6 "https://x/lawB"
      (by decide)).2 (by decide)⟩⟩

/-! ## C6: insert planning (block end + 1, issued bottom-up) -/

theorem dictUpd_mem_fst {κ α : Type} [DecidableEq κ] :
    ∀ (d : List (κ × α)) (k : κ) (dflt : α) (f : α → α) (x : κ × α),
      x ∈ dictUpd d k dflt f → x.1 = k ∨ x.1 ∈ d.map Prod.fst := by
  intro d
  induction d with
  | nil =>
    intro k dflt f x hx
    simp only [dictUpd, List.mem_singleton] at hx
    rw [hx]
    exact Or.inl rfl
  | cons y ys ih =>
    intro k dflt f x hx
    simp only [dictUpd] at hx
    split at hx
    · rename_i hk
      rcases List.mem_cons.mp hx with h1 | h2
      · refine Or.inr ?_
        rw [h1]
        simp
      · refine Or.inr ?_
        rw [List.map_cons, List.mem_cons]
        exact Or.inr (List.mem_map.mpr ⟨x, h2, rfl⟩)
    · rcases List.mem_cons.mp hx with h1 | h2
      · refine Or.inr ?_
        rw [h1, List.map_cons, List.mem_cons]
        exact Or.inl rfl
      · rcases ih k dflt f x h2 with h | h
        · exact Or.inl h
        · refine Or.inr ?_
          rw [List.map_cons, List.mem_cons]
          exact Or.inr h

theorem dictUpd_keys_nodup {κ α : Type} [DecidableEq κ] :
    ∀ (d : List (κ × α)) (k : κ) (dflt : α) (f : α → α),
      List.Pairwise (fun a b : κ × α => a.1 ≠ b.1) d →
      List.Pairwise (fun a b : κ × α => a.1 ≠ b.1) (dictUpd d k dflt f) := by
  intro d
  induction d with
  | nil => intro k dflt f _; simp [dictUpd]
  | cons y ys ih =>
    intro k dflt f hp
    have hyall : ∀ q ∈ ys, y.1 ≠ q.1 := fun q hq => List.rel_of_pairwise_cons hp hq
    have hptail := List.Pairwise.of_cons hp
    simp only [dictUpd]
    split
    · rename_i hk
      exact List.Pairwise.cons hyall hptail
    · rename_i hk
      refine List.Pairwise.cons ?_ (ih k dflt f hptail)
      intro q hq
      rcases dictUpd_mem_fst ys k dflt f q hq with h | h
      · rw [h]
        exact fun hc => hk (hc ▸ rfl)
      · obtain ⟨z, hz, hze⟩ := List.mem_map.mp h
        have := hyall z hz
        rw [← hze]
        exact this

theorem processReg_regs_nodup (lie : Bool) (lu : String) (er : List String)
    (st : BuildState × List String) (reg : RegDoc)
    (h : List.Pairwise (fun a b : String × List RowItem => a.1 ≠ b.1)
      st.1.regs_to_insert_under_existing) :
    List.Pairwise (fun a b : String × List RowItem => a.1 ≠ b.1)
      (processReg lie lu er st reg).1.regs_to_insert_under_existing := by
  unfold processReg
  dsimp only
  split_ifs <;> first | exact h | exact dictUpd_keys_nodup _ _ _ _ h

theorem foldl_processReg_regs_nodup (lie : Bool) (lu : String) (er : List String) :
    ∀ (regs : List RegDoc) (st : BuildState × List String),
      List.Pairwise (fun a b : String × List RowItem => a.1 ≠ b.1)
        st.1.regs_to_insert_under_existing →
      List.Pairwise (fun a b : String × List RowItem => a.1 ≠ b.1)
        (regs.foldl (processReg lie lu er) st).1.regs_to_insert_under_existing := by
  intro regs
  induction regs with
  | nil => intro st h; exact h
  | cons r rs ih =>
    intro st h
    rw [List.foldl_cons]
    exact ih _ (processReg_regs_nodup lie lu er st r h)

theorem processLaw_regs_nodup (ctx : LedgerContext)
    (rm : List (String × List RegDoc)) (bs : BuildState) (law : LawDoc)
    (h : List.Pairwise (fun a b : String × List RowItem => a.1 ≠ b.1)
      bs.regs_to_insert_under_existing) :
    List.Pairwise (fun a b : String × List RowItem => a.1 ≠ b.1)
      (processLaw ctx rm bs law).regs_to_insert_under_existing := by
  unfold processLaw
  dsimp only
  split_ifs <;> exact foldl_processReg_regs_nodup _ _ _ _ _ h

theorem foldl_processLaw_regs_nodup (ctx : LedgerContext)
    (rm : List (String × List RegDoc)) :
    ∀ (laws : List LawDoc) (bs : BuildState),
      List.Pairwise (fun a b : String × List RowItem => a.1 ≠ b.1)
        bs.regs_to_insert_under_existing →
      List.Pairwise (fun a b : String × List RowItem => a.1 ≠ b.1)
        (laws.foldl (processLaw ctx rm) bs).regs_to_insert_under_existing := by
  intro laws
  induction laws with
  | nil => intro bs h; exact h
  | cons l ls ih =>
    intro bs h
    rw [List.foldl_cons]
    exact ih _ (processLaw_regs_nodup ctx rm bs l h)

theorem scanRow_primrows (st : ScanState) (rn : Nat) (row : SheetRow) :
    (scanRow st rn row).primary_rows
      = st.primary_rows
        ++ (if pyLower (pyStrip row.colM) = "primary" then
              [((if pyStrip row.colS ≠ "" then some (pyStrip row.colS) else none), rn)]
            else []) := by
  unfold scanRow
  dsimp only
  split_ifs <;> (try split) <;> (try split_ifs) <;>
    first | rfl | exact (List.append_nil _).symm

theorem foldl_scan_primrows :
    ∀ (w : List (Nat × SheetRow)) (st : ScanState),
      (w.foldl (fun st p => scanRow st p.1 p.2) st).primary_rows
        = st.primary_rows
          ++ (w.filter (fun p => pyLower (pyStrip p.2.colM) = "primary")).map
              (fun p => ((if pyStrip p.2.colS ≠ "" then some (pyStrip p.2.colS) else none),
                p.1)) := by
  intro w
  induction w with
  | nil => intro st; simp
  | cons x xs ih =>
    intro st
    rw [List.foldl_cons, ih, scanRow_primrows]
    by_cases h : pyLower (pyStrip x.2.colM) = "primary" <;>
      simp [List.filter_cons, h, List.append_assoc]

theorem buildBlocks_end_lower (last : Nat) :
    ∀ (l : List (Option String × Nat)) (u : Option String) (r : Nat),
      List.Pairwise (fun a b : Option String × Nat => a.2 < b.2) ((u, r) :: l) →
      (∀ p ∈ (u, r) :: l, p.2 ≤ last) → 1 ≤ r →
      ∀ b ∈ buildBlocks last ((u, r) :: l), r - 1 < b.end_row := by
  intro l
  induction l with
  | nil =>
    intro u r _ hlast hr b hb
    simp only [buildBlocks, List.mem_singleton] at hb
    rw [hb]
    have := hlast (u, r) (by simp)
    dsimp only at this ⊢
    omega
  | cons q rest ih =>
    intro u r hp hlast hr b hb
    simp only [buildBlocks] at hb
    rcases List.mem_cons.mp hb with h1 | h2
    · rw [h1]
      have hrq : r < q.2 := List.rel_of_pairwise_cons hp (by simp)
      dsimp only
      omega
    · have hrq : r < q.2 := List.rel_of_pairwise_cons hp (by simp)
      have h3 := ih q.1 q.2 (by simpa using List.Pairwise.of_cons hp)
        (fun p hp2 => hlast p (List.mem_cons_of_mem _ hp2)) (by omega) b (by simpa using h2)
      omega

theorem buildBlocks_ends_pairwise (last : Nat) :
    ∀ (l : List (Option String × Nat)),
      List.Pairwise (fun a b : Option String × Nat => a.2 < b.2) l →
      (∀ p ∈ l, p.2 ≤ last) → (∀ p ∈ l, 1 ≤ p.2) →
      List.Pairwise (fun b b2 : PrimaryBlock => b.end_row < b2.end_row)
        (buildBlocks last l) := by
  intro l
  induction l with
  | nil => intro _ _ _; simp [buildBlocks]
  | cons x xs ih =>
    intro hp hlast hone
    have htail := ih (List.Pairwise.of_cons hp)
      (fun p hp2 => hlast p (List.mem_cons_of_mem _ hp2))
      (fun p hp2 => hone p (List.mem_cons_of_mem _ hp2))
    match xs, htail with
    | [], _ =>
      simp [buildBlocks]
    | q :: rest, htail =>
      simp only [buildBlocks]
      refine List.Pairwise.cons ?_ htail
      intro b hb
      dsimp only
      have := buildBlocks_end_lower last rest q.1 q.2
        (by simpa using List.Pairwise.of_cons hp)
        (fun p hp2 => hlast p (List.mem_cons_of_mem _ hp2))
        (by have := hone q (by simp); omega) b (by simpa using hb)
      have hxq : x.2 < q.2 := List.rel_of_pairwise_cons hp (by simp)
      omega

theorem insDescBy_perm {α : Type} (key : α → Nat) (x : α) :
    ∀ l : List α, (insDescBy key x l).Perm (x :: l) := by
  intro l
  induction l with
  | nil => exact List.Perm.refl _
  | cons y ys ih =>
    simp only [insDescBy]
    split
    · exact (List.Perm.cons y ih).trans (List.Perm.swap x y ys)
    · exact List.Perm.refl _

theorem sortDescBy_perm {α : Type} (key : α → Nat) :
    ∀ l : List α, (sortDescBy key l).Perm l := by
  intro l
  induction l with
  | nil => exact List.Perm.refl _
  | cons x xs ih =>
    have h1 : sortDescBy key (x :: xs) = insDescBy key x (sortDescBy key xs) := rfl
    rw [h1]
    exact (insDescBy_perm key x _).trans (List.Perm.cons x ih)

theorem insDescBy_sorted {α : Type} (key : α → Nat) (x : α) :
    ∀ l : List α, List.Pairwise (fun a b => key b ≤ key a) l →
      List.Pairwise (fun a b => key b ≤ key a) (insDescBy key x l) := by
  intro l
  induction l with
  | nil => intro _; simp [insDescBy]
  | cons y ys ih =>
    intro hp
    have hyall : ∀ q ∈ ys, key q ≤ key y := fun q hq => List.rel_of_pairwise_cons hp hq
    simp only [insDescBy]
    split
    · rename_i hgt
      refine List.Pairwise.cons ?_ (ih (List.Pairwise.of_cons hp))
      intro z hz
      have hz2 := (insDescBy_perm key x ys).mem_iff.mp hz
      rcases List.mem_cons.mp hz2 with h1 | h2
      · rw [h1]; exact Nat.le_of_lt hgt
      · exact hyall z h2
    · rename_i hle
      refine List.Pairwise.cons ?_ hp
      intro z hz
      rcases List.mem_cons.mp hz with h1 | h2
      · rw [h1]; omega
      · exact Nat.le_trans (hyall z h2) (by omega)

theorem sortDescBy_sorted {α : Type} (key : α → Nat) :
    ∀ l : List α, List.Pairwise (fun a b => key b ≤ key a) (sortDescBy key l) := by
  intro l
  induction l with
  | nil => simp [sortDescBy]
  | cons x xs ih => exact insDescBy_sorted key x _ ih

theorem sortDescBy_strict_of_ne {α : Type} (key : α → Nat) (l : List α)
    (hne : List.Pairwise (fun a b => key a ≠ key b) l) :
    List.Pairwise (fun a b => key b < key a) (sortDescBy key l) := by
  have hs := sortDescBy_sorted key l
  have hperm := sortDescBy_perm key l
  have hne2 : List.Pairwise (fun a b => key a ≠ key b) (sortDescBy key l) :=
    (List.Perm.pairwise_iff (fun h => Ne.symm h) hperm).mpr hne
  exact (hs.and hne2).imp (fun h => Nat.lt_of_le_of_ne h.1 (Ne.symm h.2))

theorem lookupBlock_spec (blocks : List PrimaryBlock) (u : String) (b : PrimaryBlock)
    (h : lookupBlock blocks u = some b) : b ∈ blocks ∧ b.url = some u := by
  unfold lookupBlock at h
  have hm := List.mem_of_mem_getLast? h
  refine ⟨List.mem_of_mem_filter hm, ?_⟩
  have := List.of_mem_filter hm
  simpa using this

/-- The fold that turns `regs_to_insert_under_existing` into
`blocks_with_regs` in `run_scrape`. -/
theorem blocksfold_shape (blocks : List PrimaryBlock) :
    ∀ (dict : List (String × List RowItem))
      (acc : List RowItem × List (Nat × String × List RowItem)),
      (∀ t ∈ acc.2, ∃ b, lookupBlock blocks t.2.1 = some b ∧ t.1 = b.end_row + 1) →
      ∀ t ∈ (dict.foldl (fun acc kv =>
          match lookupBlock blocks kv.1 with
          | none => (acc.1 ++ kv.2, acc.2)
          | some block => (acc.1, acc.2 ++ [(block.end_row + 1, kv.1, kv.2)])) acc).2,
        ∃ b, lookupBlock blocks t.2.1 = some b ∧ t.1 = b.end_row + 1 := by
  intro dict
  induction dict with
  | nil => intro acc hacc t ht; exact hacc t ht
  | cons kv rest ih =>
    intro acc hacc t ht
    rw [List.foldl_cons] at ht
    rcases hlb : lookupBlock blocks kv.1 with _ | b
    · simp only [hlb] at ht
      exact ih (acc.1 ++ kv.2, acc.2) hacc t ht
    · simp only [hlb] at ht
      refine ih _ ?_ t ht
      intro t2 ht2
      rcases List.mem_append.mp ht2 with h1 | h2
      · exact hacc t2 h1
      · rw [List.mem_singleton] at h2
        rw [h2]
        exact ⟨b, hlb, rfl⟩

theorem blocksfold_keys_nodup (blocks : List PrimaryBlock) :
    ∀ (dict : List (String × List RowItem))
      (acc : List RowItem × List (Nat × String × List RowItem)),
      List.Pairwise (fun a b : String × List RowItem => a.1 ≠ b.1) dict →
      List.Pairwise (fun t t2 : Nat × String × List RowItem => t.2.1 ≠ t2.2.1) acc.2 →
      (∀ t ∈ acc.2, ∀ kv ∈ dict, t.2.1 ≠ kv.1) →
      List.Pairwise (fun t t2 : Nat × String × List RowItem => t.2.1 ≠ t2.2.1)
        (dict.foldl (fun acc kv =>
          match lookupBlock blocks kv.1 with
          | none => (acc.1 ++ kv.2, acc.2)
          | some block => (acc.1, acc.2 ++ [(block.end_row + 1, kv.1, kv.2)])) acc).2 := by
  intro dict
  induction dict with
  | nil => intro acc _ hacc _; exact hacc
  | cons kv rest ih =>
    intro acc hdict hacc hsep
    have hdtail := List.Pairwise.of_cons hdict
    have hkvall : ∀ q ∈ rest, kv.1 ≠ q.1 := fun q hq => List.rel_of_pairwise_cons hdict hq
    rw [List.foldl_cons]
    rcases hlb : lookupBlock blocks kv.1 with _ | b
    · simp only [hlb]
      refine ih (acc.1 ++ kv.2, acc.2) hdtail hacc ?_
      intro t ht kv2 hkv2
      exact hsep t ht kv2 (List.mem_cons_of_mem _ hkv2)
    · simp only [hlb]
      refine ih _ hdtail ?_ ?_
      · rw [List.pairwise_append]
        refine ⟨hacc, by simp, ?_⟩
        intro t ht t2 ht2
        rw [List.mem_singleton] at ht2
        rw [ht2]
        exact hsep t ht kv (by simp)
      · intro t ht kv2 hkv2
        rcases List.mem_append.mp ht with h1 | h2
        · exact hsep t h1 kv2 (List.mem_cons_of_mem _ hkv2)
        · rw [List.mem_singleton] at h2
          rw [h2]
          exact hkvall kv2 hkv2

theorem read_blocks_ends_pairwise (sheet : Sheet) :
    List.Pairwise (fun b b2 : PrimaryBlock => b.end_row < b2.end_row)
      (read_existing_context sheet).primary_blocks := by
  unfold read_existing_context
  dsimp only
  split
  · exact List.Pairwise.nil
  · rename_i hlast
    rw [foldl_scan_primrows]
    simp only [initScanState, List.nil_append]
    refine buildBlocks_ends_pairwise _ _ ?_ ?_ ?_
    · refine List.pairwise_map.mpr (List.Pairwise.filter _ (List.pairwise_map.mpr ?_))
      exact (pairwise_lt_range_one 3 _).imp (fun h => h)
    · intro p hp
      obtain ⟨q, hq, hqe⟩ := List.mem_map.mp hp
      obtain ⟨rn, hrn, hrne⟩ := List.mem_map.mp (List.mem_of_mem_filter hq)
      have hb := List.mem_range'_1.mp hrn
      rw [← hqe]
      dsimp only
      rw [← hrne]
      dsimp only
      omega
    · intro p hp
      obtain ⟨q, hq, hqe⟩ := List.mem_map.mp hp
      obtain ⟨rn, hrn, hrne⟩ := List.mem_map.mp (List.mem_of_mem_filter hq)
      have hb := List.mem_range'_1.mp hrn
      rw [← hqe]
      dsimp only
      rw [← hrne]
      dsimp only
      omega

theorem plan_run_ops_eq (ctx : LedgerContext) (laws : List LawDoc)
    (rm : List (String × List RegDoc)) :
    (plan_run ctx laws rm).insert_ops_existing
      = ((sortDescBy (fun t : Nat × String × List RowItem => t.1)
            (((laws.foldl (processLaw ctx rm) (initBuildState ctx)).regs_to_insert_under_existing).foldl
              (fun acc kv =>
                match lookupBlock ctx.primary_blocks kv.1 with
                | none => (acc.1 ++ kv.2, acc.2)
                | some block => (acc.1, acc.2 ++ [(block.end_row + 1, kv.1, kv.2)]))
              ([], [])).2).filter
          (fun t => t.2.2.length ≠ 0)).map (fun t => (t.1, t.2.2.length)) := rfl

/-- C6: every structural insert op planned for an existing primary block is
at that block's end row plus one, and the ops are issued to the batch call
in strictly decreasing order of start row (bottommost first). -/
theorem claim_C6_insert_planning (sheet : Sheet) (laws : List LawDoc)
    (rm : List (String × List RegDoc)) :
    (∀ op ∈ (run_plan sheet laws rm).insert_ops_existing,
      ∃ u b, lookupBlock (read_existing_context sheet).primary_blocks u = some b
        ∧ op.1 = b.end_row + 1)
    ∧ List.Pairwise (fun a b : Nat × Nat => b.1 < a.1)
        (sortDescBy (fun op : Nat × Nat => op.1)
          (run_plan sheet laws rm).insert_ops_existing) := by
  have hshape := blocksfold_shape (read_existing_context sheet).primary_blocks
    ((laws.foldl (processLaw (read_existing_context sheet) rm)
      (initBuildState (read_existing_context sheet))).regs_to_insert_under_existing)
    ([], []) (by intro t ht; exact absurd ht (List.not_mem_nil _))
  have hkeys := blocksfold_keys_nodup (read_existing_context sheet).primary_blocks
    ((laws.foldl (processLaw (read_existing_context sheet) rm)
      (initBuildState (read_existing_context sheet))).regs_to_insert_under_existing)
    ([], [])
    (foldl_processLaw_regs_nodup (read_existing_context sheet) rm laws
      (initBuildState (read_existing_context sheet)) (by simp [initBuildState]))
    List.Pairwise.nil
    (by intro t ht; exact absurd ht (List.not_mem_nil _))
  have hends := read_blocks_ends_pairwise sheet
  -- positions in the fold output are pairwise distinct
  have hposne : List.Pairwise
      (fun t t2 : Nat × String × List RowItem => t.1 ≠ t2.1)
      (((laws.foldl (processLaw (read_existing_context sheet) rm)
        (initBuildState (read_existing_context sheet))).regs_to_insert_under_existing).foldl
        (fun acc kv =>
          match lookupBlock (read_existing_context sheet).primary_blocks kv.1 with
          | none => (acc.1 ++ kv.2, acc.2)
          | some block => (acc.1, acc.2 ++ [(block.end_row + 1, kv.1, kv.2)]))
        ([], [])).2 := by
    refine List.Pairwise.imp_of_mem ?_ hkeys
    intro a b ha hb hne
    obtain ⟨ba, hba, hpa⟩ := hshape a ha
    obtain ⟨bb, hbb, hpb⟩ := hshape b hb
    obtain ⟨hma, hua⟩ := lookupBlock_spec _ _ _ hba
    obtain ⟨hmb, hub⟩ := lookupBlock_spec _ _ _ hbb
    have hbane : ba ≠ bb := by
      intro hc
      rw [hc, hub] at hua
      injection hua with hv
      exact hne hv.symm
    have hendne : ba.end_row ≠ bb.end_row :=
      List.Pairwise.forall (fun {x y} h => Ne.symm h)
        (hends.imp (fun h => Nat.ne_of_lt h)) hma hmb hbane
    rw [hpa, hpb]
    omega
  constructor
  · intro op hop
    unfold run_plan at hop
    rw [plan_run_ops_eq] at hop
    obtain ⟨t, ht, hte⟩ := List.mem_map.mp hop
    have ht2 := List.mem_of_mem_filter ht
    have ht3 := (sortDescBy_perm (fun t : Nat × String × List RowItem => t.1) _).mem_iff.mp ht2
    obtain ⟨b, hb, hpos⟩ := hshape t ht3
    exact ⟨t.2.1, b, hb, by rw [← hte]; exact hpos⟩
  · unfold run_plan
    rw [plan_run_ops_eq]
    refine sortDescBy_strict_of_ne _ _ ?_
    refine List.pairwise_map.mpr ?_
    refine List.Pairwise.filter _ ?_
    have := (List.Perm.pairwise_iff (fun {x y} h => Ne.symm h)
      (sortDescBy_perm (fun t : Nat × String × List RowItem => t.1) _)).mpr hposne
    exact this

/-- C6 witness: for the sample ledger and document set, the single planned
insert op `(5, 1)` sits at the Law-A block's end row 4 plus one. -/
theorem claim_C6_witness :
    (run_plan sampleSheet sampleLaws sampleRegMap).insert_ops_existing = [(5, 1)]
    ∧ ∃ u b, lookupBlock (read_existing_context sampleSheet).primary_blocks u = some b
        ∧ (5, 1).1 = b.end_row + 1 :=
  ⟨by decide,
   (claim_C6_insert_planning sampleSheet sampleLaws sampleRegMap).1 (5, 1) (by decide)⟩

/-! ## C2: reconciliation idempotence.

Counterexample first; then the machinery for the amended statement:
stripping facts, a characterisation of `apply_plan` as a splice, an
interleaving simulation between the pre-run and post-run grouping scans, and
plan-level invariants of the reconciliation loop under clean inputs. -/

/-- C2 counterexample: an empty-url law is re-appended by the second run
(the claim promises no append segment on the second run for every document
set). -/
theorem claim_C2_counterexample :
    (run_plan (run_apply [] [sampleLawEmptyUrl] []) [sampleLawEmptyUrl] []).append_op
      = some (4, 1) := by decide

theorem dropWhile_take (p : Char → Bool) (l : List Char) (k : Nat)
    (h : List.dropWhile p l = l) : List.dropWhile p (l.take k) = l.take k := by
  cases l with
  | nil => simp
  | cons c cs =>
    cases k with
    | zero => simp
    | succ k2 =>
      have hc : ¬ p c = true := by
        intro hpc
        rw [List.dropWhile_cons_of_pos hpc] at h
        have hle := (List.dropWhile_suffix (l := cs) p).length_le
        have hlen := congrArg List.length h
        simp at hlen
        omega
      rw [List.take_succ_cons, List.dropWhile_cons_of_neg hc]

theorem dropWhile_idem (p : Char → Bool) (l : List Char) :
    List.dropWhile p (List.dropWhile p l) = List.dropWhile p l := by
  induction l with
  | nil => rfl
  | cons c cs ih =>
    by_cases h : p c = true
    · rw [List.dropWhile_cons_of_pos h]
      exact ih
    · rw [List.dropWhile_cons_of_neg h, List.dropWhile_cons_of_neg h]

theorem strip_end_is_take (p : Char → Bool) (l : List Char) :
    ∃ k, (List.dropWhile p l.reverse).reverse = l.take k := by
  obtain ⟨t, ht⟩ := List.dropWhile_suffix (l := l.reverse) p
  refine ⟨(List.dropWhile p l.reverse).length, ?_⟩
  have hl : (List.dropWhile p l.reverse).reverse ++ t.reverse = l := by
    have := congrArg List.reverse ht
    simpa using this
  have hx : ((List.dropWhile p l.reverse).reverse ++ t.reverse).take
        (List.dropWhile p l.reverse).length
      = (List.dropWhile p l.reverse).reverse := List.take_left' (by simp)
  rw [hl] at hx
  exact hx.symm

theorem pyStrip_idem (s : String) : pyStrip (pyStrip s) = pyStrip s := by
  have hAfix := dropWhile_idem isPyWs s.toList
  have c1 : List.dropWhile isPyWs
      (((s.toList.dropWhile isPyWs).reverse.dropWhile isPyWs).reverse)
      = ((s.toList.dropWhile isPyWs).reverse.dropWhile isPyWs).reverse := by
    obtain ⟨k, hk⟩ := strip_end_is_take isPyWs (s.toList.dropWhile isPyWs)
    rw [hk]
    exact dropWhile_take isPyWs _ k hAfix
  simp only [pyStrip]
  have htl : ∀ L : List Char, (String.mk L).toList = L := fun L => rfl
  rw [htl, c1, List.reverse_reverse, dropWhile_idem]

theorem scanRow_blank (st : ScanState) (rn : Nat) : scanRow st rn blankRow = st := by
  unfold scanRow
  have h1 : pyStrip blankRow.colS = "" := by decide
  have h2 : pyLower (pyStrip blankRow.colM) = "" := by decide
  rw [h1, h2]
  simp only [ne_eq, not_true_eq_false, if_false]
  have : ("" = "primary") = False := by simp
  rw [if_neg (by decide)]
  cases hc : st.current_primary_url with
  | none => rfl
  | some cpu => rfl

theorem rowUsed_mkRow (it : RowItem) : rowUsed (mkRow it) = true := by
  have hp : pyStrip ("Primary" : String) = "Primary" := by decide
  have hs : pyStrip ("Secondary" : String) = "Secondary" := by decide
  have hp2 : ("Primary" : String) ≠ "" := by decide
  have hs2 : ("Secondary" : String) ≠ "" := by decide
  cases hr : it.isReg <;> simp [rowUsed, mkRow, hr, hp, hs, hp2, hs2]

theorem mkRow_reg_nonprimary (it : RowItem) (h : it.isReg = true) :
    nonPrimaryRow (mkRow it) := by
  unfold nonPrimaryRow mkRow
  rw [h]
  show pyLower (pyStrip ("Secondary" : String)) ≠ "primary"
  decide

theorem blankRow_nonprimary : nonPrimaryRow blankRow := by
  unfold nonPrimaryRow blankRow
  decide

/-! ## Grid-prefix (`padTake`) algebra -/

theorem padTake_length (s : Sheet) (n : Nat) : (padTake s n).length = n := by
  simp [padTake]
  omega

theorem padTake_eq_take (s : Sheet) (n : Nat) (h : n ≤ s.length) :
    padTake s n = s.take n := by
  unfold padTake
  rw [Nat.sub_eq_zero_of_le h]
  simp

theorem padTake_of_le (s : Sheet) (n : Nat) (h : s.length ≤ n) :
    padTake s n = s ++ List.replicate (n - s.length) blankRow := by
  unfold padTake
  refine List.take_of_length_le ?_
  simp
  omega

theorem padTake_getElem? (s : Sheet) (n i : Nat) :
    (padTake s n)[i]? = if i < n then some (s.getD i blankRow) else none := by
  unfold padTake
  rw [List.getElem?_take]
  rcases Nat.lt_or_ge i n with hin | hin
  · rw [if_pos hin, if_pos hin, List.getElem?_append]
    rcases Nat.lt_or_ge i s.length with his | his
    · rw [if_pos his, List.getD_eq_getElem?_getD, List.getElem?_eq_getElem his]
      rfl
    · rw [if_neg (by omega), List.getElem?_replicate, if_pos (by omega),
        List.getD_eq_default _ _ his]
  · rw [if_neg (by omega), if_neg (by omega)]

theorem padTake_getD (s : Sheet) (n i : Nat) (h : i < n) :
    (padTake s n).getD i blankRow = s.getD i blankRow := by
  rw [List.getD_eq_getElem?_getD, padTake_getElem?, if_pos h]
  rfl

theorem padTake_append_exact (A B : Sheet) (m : Nat) :
    padTake (A ++ B) (A.length + m) = A ++ padTake B m := by
  apply List.ext_getElem?
  intro i
  rw [padTake_getElem?]
  rcases Nat.lt_or_ge i (A.length + m) with him | him
  · rw [if_pos him]
    rcases Nat.lt_or_ge i A.length with hiA | hiA
    · rw [List.getElem?_append, if_pos hiA,
        List.getD_eq_getElem?_getD, List.getElem?_append, if_pos hiA,
        List.getElem?_eq_getElem hiA]
      rfl
    · rw [List.getElem?_append, if_neg (by omega), padTake_getElem?, if_pos (by omega),
        List.getD_eq_getElem?_getD, List.getD_eq_getElem?_getD,
        List.getElem?_append, if_neg (by omega)]
  · rw [if_neg (by omega), List.getElem?_append, if_neg (by omega), padTake_getElem?,
      if_neg (by omega)]

theorem padTake_padTake (s : Sheet) (m n : Nat) (h : m ≤ n) :
    padTake (padTake s n) m = padTake s m := by
  apply List.ext_getElem?
  intro i
  rw [padTake_getElem?, padTake_getElem?]
  rcases Nat.lt_or_ge i m with him | him
  · rw [if_pos him, if_pos him, padTake_getD s n i (by omega)]
  · rw [if_neg (by omega), if_neg (by omega)]

theorem padTake_drop (s : Sheet) (m n : Nat) (h : m ≤ n) :
    (padTake s n).drop m = padTake (s.drop m) (n - m) := by
  apply List.ext_getElem?
  intro i
  rw [List.getElem?_drop, padTake_getElem?, padTake_getElem?]
  rcases Nat.lt_or_ge (m + i) n with hin | hin
  · rw [if_pos hin, if_pos (by omega), List.getD_eq_getElem?_getD,
      List.getD_eq_getElem?_getD, List.getElem?_drop]
  · rw [if_neg (by omega), if_neg (by omega)]

/-! ## Lengths of splices -/

theorem spliceBlanksDesc_length :
    ∀ (ops : List (Nat × Nat)) (s : Sheet),
      List.Pairwise (fun a b : Nat × Nat => b.1 ≤ a.1) ops →
      (∀ op ∈ ops, op.1 ≤ s.length + 1) →
      (spliceBlanksDesc s ops).length = s.length + (ops.map (fun op => op.2)).sum := by
  intro ops
  induction ops with
  | nil => intro s _ _; simp [spliceBlanksDesc]
  | cons op rest ih =>
    intro s hp hbd
    obtain ⟨q, c⟩ := op
    simp only [spliceBlanksDesc, List.length_append, List.length_replicate,
      List.length_drop, List.map_cons, List.sum_cons]
    have hbd2 : ∀ op2 ∈ rest, op2.1 ≤ (padTake s (q - 1)).length + 1 := by
      intro op2 hop2
      rw [padTake_length]
      have h1 : op2.1 ≤ q := List.rel_of_pairwise_cons hp hop2
      omega
    rw [ih (padTake s (q - 1)) (List.Pairwise.of_cons hp) hbd2, padTake_length]
    have hq : q ≤ s.length + 1 := hbd (q, c) (List.mem_cons_self _ _)
    omega

theorem spliceSegsDesc_length :
    ∀ (segs : List (Nat × List RowItem)) (s : Sheet),
      List.Pairwise (fun a b : Nat × List RowItem => b.1 ≤ a.1) segs →
      (∀ sg ∈ segs, sg.1 ≤ s.length + 1) →
      (spliceSegsDesc s segs).length
        = s.length + (segs.map (fun sg => sg.2.length)).sum := by
  intro segs
  induction segs with
  | nil => intro s _ _; simp [spliceSegsDesc]
  | cons sg rest ih =>
    intro s hp hbd
    obtain ⟨q, w⟩ := sg
    simp only [spliceSegsDesc, List.length_append, List.length_map,
      List.length_drop, List.map_cons, List.sum_cons]
    have hbd2 : ∀ sg2 ∈ rest, sg2.1 ≤ (padTake s (q - 1)).length + 1 := by
      intro sg2 hsg2
      rw [padTake_length]
      have h1 : sg2.1 ≤ q := List.rel_of_pairwise_cons hp hsg2
      omega
    rw [ih (padTake s (q - 1)) (List.Pairwise.of_cons hp) hbd2, padTake_length]
    have hq : q ≤ s.length + 1 := hbd (q, w) (List.mem_cons_self _ _)
    omega

/-! ## Three-part append arithmetic -/

theorem drop_append3 {α : Type} (A B C : List α) (N : Nat)
    (h : A.length + B.length ≤ N) :
    (A ++ B ++ C).drop N = C.drop (N - A.length - B.length) := by
  rw [List.drop_append_eq_append_drop, List.drop_append_eq_append_drop]
  rw [List.drop_eq_nil_of_le (by omega), List.drop_eq_nil_of_le (by omega)]
  simp only [List.nil_append, List.length_append]
  rw [show N - (A.length + B.length) = N - A.length - B.length by omega]

theorem padTake_append3 (A B C : Sheet) (N : Nat)
    (h : A.length + B.length ≤ N) :
    padTake (A ++ B ++ C) N = A ++ B ++ padTake C (N - A.length - B.length) := by
  conv_lhs => rw [show N = (A ++ B).length + (N - A.length - B.length) by simp; omega]
  rw [padTake_append_exact (A ++ B) C]

/-! ## The insert phase of `apply_plan` as a splice -/

theorem insertBlankRows_append (A B : Sheet) (q c : Nat) (h : q - 1 ≤ A.length) :
    insertBlankRows (A ++ B) q c = insertBlankRows A q c ++ B := by
  unfold insertBlankRows
  rw [padTake_eq_take _ _ (by simp; omega), padTake_eq_take _ _ h]
  rw [List.take_append_eq_append_take, Nat.sub_eq_zero_of_le h, List.take_zero,
    List.append_nil]
  rw [List.drop_append_eq_append_drop, Nat.sub_eq_zero_of_le h, List.drop_zero]
  simp [List.append_assoc]

theorem insertBlankRows_length_ge (s : Sheet) (q c : Nat) :
    s.length ≤ (insertBlankRows s q c).length := by
  unfold insertBlankRows
  simp [padTake_length]
  omega

theorem foldl_insert_prefix :
    ∀ (ops : List (Nat × Nat)) (A B : Sheet),
      (∀ op ∈ ops, op.1 - 1 ≤ A.length) →
      ops.foldl (fun sh op => insertBlankRows sh op.1 op.2) (A ++ B)
        = ops.foldl (fun sh op => insertBlankRows sh op.1 op.2) A ++ B := by
  intro ops
  induction ops with
  | nil => intro A B _; rfl
  | cons op rest ih =>
    intro A B hbd
    simp only [List.foldl_cons]
    rw [insertBlankRows_append A B op.1 op.2 (hbd op (List.mem_cons_self _ _))]
    refine ih _ B ?_
    intro op2 hop2
    exact Nat.le_trans (hbd op2 (List.mem_cons_of_mem _ hop2))
      (insertBlankRows_length_ge _ _ _)

theorem foldl_insert_eq_splice :
    ∀ (ops : List (Nat × Nat)) (s : Sheet),
      List.Pairwise (fun a b : Nat × Nat => b.1 ≤ a.1) ops →
      ops.foldl (fun sh op => insertBlankRows sh op.1 op.2) s
        = spliceBlanksDesc s ops := by
  intro ops
  induction ops with
  | nil => intro s _; rfl
  | cons op rest ih =>
    intro s hp
    obtain ⟨q, c⟩ := op
    simp only [List.foldl_cons]
    have hsplit : insertBlankRows s q c
        = padTake s (q - 1) ++ (List.replicate c blankRow ++ s.drop (q - 1)) := by
      unfold insertBlankRows
      rw [List.append_assoc]
    have hbd2 : ∀ op2 ∈ rest, op2.1 - 1 ≤ (padTake s (q - 1)).length := by
      intro op2 hop2
      rw [padTake_length]
      have h2 : op2.1 ≤ q := List.rel_of_pairwise_cons hp hop2
      omega
    rw [hsplit, foldl_insert_prefix rest _ _ hbd2, ih _ (List.Pairwise.of_cons hp)]
    simp [spliceBlanksDesc, List.append_assoc]

theorem spliceBlanksDesc_drop (ops : List (Nat × Nat)) (s : Sheet) (L : Nat)
    (hp : List.Pairwise (fun a b : Nat × Nat => b.1 ≤ a.1) ops)
    (hbd : ∀ op ∈ ops, op.1 ≤ L + 1) :
    (spliceBlanksDesc s ops).drop (L + (ops.map (fun op => op.2)).sum)
      = s.drop L := by
  cases ops with
  | nil => simp [spliceBlanksDesc]
  | cons op rest =>
    obtain ⟨q, c⟩ := op
    have hq : q ≤ L + 1 := hbd (q, c) (List.mem_cons_self _ _)
    have hbd2 : ∀ op2 ∈ rest, op2.1 ≤ (padTake s (q - 1)).length + 1 := by
      intro op2 hop2
      rw [padTake_length]
      have h2 : op2.1 ≤ q := List.rel_of_pairwise_cons hp hop2
      omega
    have hlenP : (spliceBlanksDesc (padTake s (q - 1)) rest).length
        = (q - 1) + (rest.map (fun op => op.2)).sum := by
      rw [spliceBlanksDesc_length rest _ (List.Pairwise.of_cons hp) hbd2, padTake_length]
    simp only [spliceBlanksDesc, List.map_cons, List.sum_cons]
    rw [drop_append3 _ _ _ _ (by simp [hlenP]; omega)]
    rw [List.drop_drop]
    rw [show q - 1 + (L + (c + (rest.map (fun op => op.2)).sum)
          - (spliceBlanksDesc (padTake s (q - 1)) rest).length
          - (List.replicate c blankRow).length) = L by simp [hlenP]; omega]

theorem spliceBlanksDesc_padTake (ops : List (Nat × Nat)) (s : Sheet) (L : Nat)
    (hp : List.Pairwise (fun a b : Nat × Nat => b.1 ≤ a.1) ops)
    (hbd : ∀ op ∈ ops, op.1 ≤ L + 1) :
    padTake (spliceBlanksDesc s ops) (L + (ops.map (fun op => op.2)).sum)
      = spliceBlanksDesc (padTake s L) ops := by
  cases ops with
  | nil => simp [spliceBlanksDesc]
  | cons op rest =>
    obtain ⟨q, c⟩ := op
    have hq : q ≤ L + 1 := hbd (q, c) (List.mem_cons_self _ _)
    have hbd2 : ∀ op2 ∈ rest, op2.1 ≤ (padTake s (q - 1)).length + 1 := by
      intro op2 hop2
      rw [padTake_length]
      have h2 : op2.1 ≤ q := List.rel_of_pairwise_cons hp hop2
      omega
    have hlenP : (spliceBlanksDesc (padTake s (q - 1)) rest).length
        = (q - 1) + (rest.map (fun op => op.2)).sum := by
      rw [spliceBlanksDesc_length rest _ (List.Pairwise.of_cons hp) hbd2, padTake_length]
    simp only [spliceBlanksDesc, List.map_cons, List.sum_cons]
    rw [padTake_append3 _ _ _ _ (by simp [hlenP]; omega)]
    rw [padTake_padTake s (q - 1) L (by omega), padTake_drop s (q - 1) L (by omega)]
    rw [show L + (c + (rest.map (fun op => op.2)).sum)
          - (spliceBlanksDesc (padTake s (q - 1)) rest).length
          - (List.replicate c blankRow).length = L - (q - 1) by simp [hlenP]; omega]

theorem spliceSegsDesc_drop (segs : List (Nat × List RowItem)) (s : Sheet) (L : Nat)
    (hp : List.Pairwise (fun a b : Nat × List RowItem => b.1 ≤ a.1) segs)
    (hbd : ∀ sg ∈ segs, sg.1 ≤ L + 1) :
    (spliceSegsDesc s segs).drop (L + (segs.map (fun sg => sg.2.length)).sum)
      = s.drop L := by
  cases segs with
  | nil => simp [spliceSegsDesc]
  | cons sg rest =>
    obtain ⟨q, w⟩ := sg
    have hq : q ≤ L + 1 := hbd (q, w) (List.mem_cons_self _ _)
    have hbd2 : ∀ sg2 ∈ rest, sg2.1 ≤ (padTake s (q - 1)).length + 1 := by
      intro sg2 hsg2
      rw [padTake_length]
      have h2 : sg2.1 ≤ q := List.rel_of_pairwise_cons hp hsg2
      omega
    have hlenP : (spliceSegsDesc (padTake s (q - 1)) rest).length
        = (q - 1) + (rest.map (fun sg => sg.2.length)).sum := by
      rw [spliceSegsDesc_length rest _ (List.Pairwise.of_cons hp) hbd2, padTake_length]
    simp only [spliceSegsDesc, List.map_cons, List.sum_cons]
    rw [drop_append3 _ _ _ _ (by simp [hlenP]; omega)]
    rw [List.drop_drop]
    rw [show q - 1 + (L + (w.length + (rest.map (fun sg => sg.2.length)).sum)
          - (spliceSegsDesc (padTake s (q - 1)) rest).length
          - (w.map mkRow).length) = L by simp [hlenP]; omega]

theorem spliceSegsDesc_padTake (segs : List (Nat × List RowItem)) (s : Sheet) (L : Nat)
    (hp : List.Pairwise (fun a b : Nat × List RowItem => b.1 ≤ a.1) segs)
    (hbd : ∀ sg ∈ segs, sg.1 ≤ L + 1) :
    padTake (spliceSegsDesc s segs) (L + (segs.map (fun sg => sg.2.length)).sum)
      = spliceSegsDesc (padTake s L) segs := by
  cases segs with
  | nil => simp [spliceSegsDesc]
  | cons sg rest =>
    obtain ⟨q, w⟩ := sg
    have hq : q ≤ L + 1 := hbd (q, w) (List.mem_cons_self _ _)
    have hbd2 : ∀ sg2 ∈ rest, sg2.1 ≤ (padTake s (q - 1)).length + 1 := by
      intro sg2 hsg2
      rw [padTake_length]
      have h2 : sg2.1 ≤ q := List.rel_of_pairwise_cons hp hsg2
      omega
    have hlenP : (spliceSegsDesc (padTake s (q - 1)) rest).length
        = (q - 1) + (rest.map (fun sg => sg.2.length)).sum := by
      rw [spliceSegsDesc_length rest _ (List.Pairwise.of_cons hp) hbd2, padTake_length]
    simp only [spliceSegsDesc, List.map_cons, List.sum_cons]
    rw [padTake_append3 _ _ _ _ (by simp [hlenP]; omega)]
    rw [padTake_padTake s (q - 1) L (by omega), padTake_drop s (q - 1) L (by omega)]
    rw [show L + (w.length + (rest.map (fun sg => sg.2.length)).sum)
          - (spliceSegsDesc (padTake s (q - 1)) rest).length
          - (w.map mkRow).length = L - (q - 1) by simp [hlenP]; omega]

/-! ## The write phase of `apply_plan` -/

theorem writeSegment_cons (sheet : Sheet) (st : Nat) (x : RowItem) (xs : List RowItem) :
    writeSegment sheet st (x :: xs)
      = writeSegment (setSheetRow sheet st (mkRow x)) (st + 1) xs := rfl

theorem writeSegment_exact :
    ∀ (w : List RowItem) (A B : Sheet),
      writeSegment (A ++ List.replicate w.length blankRow ++ B) (A.length + 1) w
        = A ++ w.map mkRow ++ B := by
  intro w
  induction w with
  | nil => intro A B; simp [writeSegment]
  | cons x xs ih =>
    intro A B
    rw [writeSegment_cons]
    have hset : setSheetRow (A ++ List.replicate (x :: xs).length blankRow ++ B)
        (A.length + 1) (mkRow x)
        = (A ++ [mkRow x]) ++ List.replicate xs.length blankRow ++ B := by
      simp only [setSheetRow]
      rw [if_pos (by simp only [List.length_append, List.length_replicate, List.length_cons]; omega)]
      simp only [Nat.add_sub_cancel]
      rw [List.length_cons, List.replicate_succ, List.append_assoc, List.cons_append,
        List.set_append_right _ _ (Nat.le_refl _), Nat.sub_self, List.set_cons_zero]
      simp [List.append_assoc]
    rw [hset]
    have hih := ih (A ++ [mkRow x]) B
    rw [show (A ++ [mkRow x]).length + 1 = A.length + 1 + 1 by simp] at hih
    rw [hih]
    simp [List.append_assoc]

theorem setSheetRow_append (Q R : Sheet) (rn : Nat) (v : SheetRow)
    (h2 : rn - 1 < Q.length) :
    setSheetRow (Q ++ R) rn v = setSheetRow Q rn v ++ R := by
  simp only [setSheetRow]
  rw [if_pos (by simp; omega), if_pos h2]
  exact List.set_append_left _ _ h2

theorem setSheetRow_length (s : Sheet) (rn : Nat) (v : SheetRow)
    (h : rn - 1 < s.length) :
    (setSheetRow s rn v).length = s.length := by
  simp only [setSheetRow]
  rw [if_pos h]
  simp

theorem writeSegment_length :
    ∀ (w : List RowItem) (s : Sheet) (st : Nat),
      st - 1 + w.length ≤ s.length →
      (writeSegment s st w).length = s.length := by
  intro w
  induction w with
  | nil => intro s st _; rfl
  | cons x xs ih =>
    intro s st h2
    simp only [List.length_cons] at h2
    rw [writeSegment_cons]
    have hlen : (setSheetRow s st (mkRow x)).length = s.length :=
      setSheetRow_length s st _ (by omega)
    rw [ih _ (st + 1) (by rw [hlen]; omega), hlen]

theorem writeSegment_front_eq :
    ∀ (w : List RowItem) (Q R : Sheet) (st : Nat),
      st - 1 + w.length ≤ Q.length →
      writeSegment (Q ++ R) st w = writeSegment Q st w ++ R := by
  intro w
  induction w with
  | nil => intro Q R st _; rfl
  | cons x xs ih =>
    intro Q R st h2
    simp only [List.length_cons] at h2
    rw [writeSegment_cons, writeSegment_cons]
    rw [setSheetRow_append Q R st (mkRow x) (by omega)]
    have hlen : (setSheetRow Q st (mkRow x)).length = Q.length :=
      setSheetRow_length Q st _ (by omega)
    exact ih _ R (st + 1) (by rw [hlen]; omega)

theorem foldl_write_front_eq :
    ∀ (segs : List (Nat × List RowItem)) (F : Nat → Nat) (Q R : Sheet),
      (∀ sg ∈ segs, F sg.1 - 1 + sg.2.length ≤ Q.length) →
      segs.foldl (fun sh seg => writeSegment sh (F seg.1) seg.2) (Q ++ R)
        = segs.foldl (fun sh seg => writeSegment sh (F seg.1) seg.2) Q ++ R := by
  intro segs
  induction segs with
  | nil => intro F Q R _; rfl
  | cons sg rest ih =>
    intro F Q R hbd
    have h2 := hbd sg (List.mem_cons_self _ _)
    simp only [List.foldl_cons]
    rw [writeSegment_front_eq sg.2 Q R (F sg.1) h2]
    have hlen : (writeSegment Q (F sg.1) sg.2).length = Q.length :=
      writeSegment_length sg.2 Q (F sg.1) h2
    refine ih F _ R ?_
    intro sg2 hsg2
    have g2 := hbd sg2 (List.mem_cons_of_mem _ hsg2)
    rw [hlen]
    exact g2

theorem foldl_write_congr (segs : List (Nat × List RowItem)) (F G2 : Nat → Nat) :
    ∀ (s : Sheet), (∀ sg ∈ segs, F sg.1 = G2 sg.1) →
      segs.foldl (fun sh seg => writeSegment sh (F seg.1) seg.2) s
        = segs.foldl (fun sh seg => writeSegment sh (G2 seg.1) seg.2) s := by
  induction segs with
  | nil => intro s _; rfl
  | cons sg rest ih =>
    intro s h
    simp only [List.foldl_cons]
    rw [h sg (List.mem_cons_self _ _)]
    exact ih _ (fun sg2 h2 => h sg2 (List.mem_cons_of_mem _ h2))

/-! ## Coordinate-shift helpers for aligned writes -/

theorem sum_if_le_sum (l : List (Nat × Nat)) (q : Nat) :
    (l.map (fun op => if op.1 < q then op.2 else 0)).sum
      ≤ (l.map (fun op => op.2)).sum := by
  refine List.sum_le_sum ?_
  intro op _
  split <;> omega

theorem shift_new_head (q c : Nat) (rest : List (Nat × Nat))
    (hall : ∀ op ∈ rest, op.1 < q) :
    shift_new_segment_start_after_inserts q ((q, c) :: rest)
      = q + (rest.map (fun op => op.2)).sum := by
  have hmap : rest.map (fun op => if op.1 < q then op.2 else 0)
      = rest.map (fun op => op.2) :=
    List.map_congr_left (fun op hop => if_pos (hall op hop))
  rw [shift_new_eq_sum]
  simp only [List.map_cons, List.sum_cons]
  rw [if_neg (lt_irrefl q), hmap]
  omega

theorem shift_new_drop_head (q c q2 : Nat) (ops : List (Nat × Nat)) (h : q2 < q) :
    shift_new_segment_start_after_inserts q2 ((q, c) :: ops)
      = shift_new_segment_start_after_inserts q2 ops := by
  rw [shift_new_eq_sum, shift_new_eq_sum]
  simp only [List.map_cons, List.sum_cons]
  rw [if_neg (by omega)]
  omega

theorem shift_new_le_total :
    ∀ (ops : List (Nat × Nat)) (q c : Nat),
      List.Pairwise (fun a b : Nat × Nat => b.1 < a.1) ops → (q, c) ∈ ops →
      (ops.map (fun op => if op.1 < q then op.2 else 0)).sum + c
        ≤ (ops.map (fun op => op.2)).sum := by
  intro ops
  induction ops with
  | nil => intro q c _ hm; exact absurd hm (List.not_mem_nil _)
  | cons op rest ih =>
    intro q c hp hm
    simp only [List.map_cons, List.sum_cons]
    rcases List.mem_cons.mp hm with heq | hmem
    · rcases heq.symm with rfl
      rw [if_neg (lt_irrefl q)]
      have := sum_if_le_sum rest q
      omega
    · have hqop : q < op.1 := List.rel_of_pairwise_cons hp hmem
      rw [if_neg (by omega)]
      have := ih q c (List.Pairwise.of_cons hp) hmem
      omega

theorem sortDescBy_eq_self {α : Type} (key : α → Nat) :
    ∀ l : List α, List.Pairwise (fun a b => key b ≤ key a) l →
      sortDescBy key l = l := by
  intro l
  induction l with
  | nil => intro _; rfl
  | cons x xs ih =>
    intro hp
    have h1 : sortDescBy key (x :: xs) = insDescBy key x (sortDescBy key xs) := rfl
    rw [h1, ih (List.Pairwise.of_cons hp)]
    cases xs with
    | nil => rfl
    | cons y ys =>
      have hxy : key y ≤ key x := List.rel_of_pairwise_cons hp (List.mem_cons_self _ _)
      simp only [insDescBy]
      rw [if_neg (by omega)]

/-! ## Writes land exactly on the inserted blank runs -/

theorem foldl_write_eq_splice :
    ∀ (segs : List (Nat × List RowItem)) (s : Sheet),
      List.Pairwise (fun a b : Nat × List RowItem => b.1 < a.1) segs →
      (∀ sg ∈ segs, 1 ≤ sg.1) →
      segs.foldl
        (fun sh seg =>
          writeSegment sh
            (shift_new_segment_start_after_inserts seg.1 (segsOps segs)) seg.2)
        (spliceBlanksDesc s (segsOps segs))
        = spliceSegsDesc s segs := by
  intro segs
  induction segs with
  | nil => intro s _ _; rfl
  | cons sg rest ih =>
    intro s hp hpos
    obtain ⟨q, w⟩ := sg
    have hq1 : 1 ≤ q := hpos (q, w) (List.mem_cons_self _ _)
    have hall : ∀ sg2 ∈ rest, sg2.1 < q :=
      fun sg2 h2 => List.rel_of_pairwise_cons hp h2
    have hallops : ∀ op ∈ segsOps rest, op.1 < q := by
      intro op hop
      obtain ⟨sg2, hsg2, hre⟩ := List.mem_map.mp hop
      rw [← hre]
      exact hall sg2 hsg2
    have hrest_le : List.Pairwise (fun a b : Nat × Nat => b.1 ≤ a.1) (segsOps rest) := by
      refine List.pairwise_map.mpr ?_
      exact (List.Pairwise.of_cons hp).imp (fun h => Nat.le_of_lt h)
    have hco : segsOps ((q, w) :: rest) = (q, w.length) :: segsOps rest := rfl
    have hPlen : (spliceBlanksDesc (padTake s (q - 1)) (segsOps rest)).length
        = (q - 1) + ((segsOps rest).map (fun op => op.2)).sum := by
      rw [spliceBlanksDesc_length (segsOps rest) _ hrest_le ?_, padTake_length]
      intro op hop
      rw [padTake_length]
      have := hallops op hop
      omega
    have hsb : spliceBlanksDesc s ((q, w.length) :: segsOps rest)
        = spliceBlanksDesc (padTake s (q - 1)) (segsOps rest)
          ++ List.replicate w.length blankRow ++ s.drop (q - 1) := rfl
    rw [hco, hsb]
    simp only [List.foldl_cons]
    have hstart : shift_new_segment_start_after_inserts q ((q, w.length) :: segsOps rest)
        = (spliceBlanksDesc (padTake s (q - 1)) (segsOps rest)).length + 1 := by
      rw [shift_new_head q w.length (segsOps rest) hallops, hPlen]
      omega
    rw [hstart, writeSegment_exact w _ (s.drop (q - 1))]
    rw [List.append_assoc]
    have hbounds : ∀ sg2 ∈ rest,
        shift_new_segment_start_after_inserts sg2.1 ((q, w.length) :: segsOps rest) - 1
            + sg2.2.length
          ≤ (spliceBlanksDesc (padTake s (q - 1)) (segsOps rest)).length := by
      intro sg2 hsg2
      rw [shift_new_drop_head q w.length sg2.1 (segsOps rest) (hall sg2 hsg2)]
      rw [shift_new_eq_sum, hPlen]
      have hmem2 : (sg2.1, sg2.2.length) ∈ segsOps rest :=
        List.mem_map.mpr ⟨sg2, hsg2, rfl⟩
      have hbd := shift_new_le_total (segsOps rest) sg2.1 sg2.2.length
        (List.pairwise_map.mpr (List.Pairwise.of_cons hp)) hmem2
      have hlt : sg2.1 < q := hall sg2 hsg2
      omega
    rw [foldl_write_front_eq rest
      (fun r => shift_new_segment_start_after_inserts r ((q, w.length) :: segsOps rest))
      (spliceBlanksDesc (padTake s (q - 1)) (segsOps rest))
      (w.map mkRow ++ s.drop (q - 1)) hbounds]
    rw [foldl_write_congr rest
      (fun r => shift_new_segment_start_after_inserts r ((q, w.length) :: segsOps rest))
      (fun r => shift_new_segment_start_after_inserts r (segsOps rest)) _
      (fun sg2 hsg2 => shift_new_drop_head q w.length sg2.1 (segsOps rest) (hall sg2 hsg2))]
    rw [ih (padTake s (q - 1)) (List.Pairwise.of_cons hp)
      (fun sg2 hsg2 => hpos sg2 (List.mem_cons_of_mem _ hsg2))]
    show _ = spliceSegsDesc (padTake s (q - 1)) rest
        ++ List.map mkRow w ++ List.drop (q - 1) s
    exact (List.append_assoc _ _ _).symm

/-! ## `apply_plan` as one splice of written segments -/

theorem foldl_congr_mem {α β : Type} :
    ∀ (l : List α) (f g : β → α → β) (b : β),
      (∀ x ∈ l, ∀ acc, f acc x = g acc x) → l.foldl f b = l.foldl g b := by
  intro l
  induction l with
  | nil => intro f g b _; rfl
  | cons x xs ih =>
    intro f g b h
    simp only [List.foldl_cons]
    rw [h x (List.mem_cons_self _ _)]
    exact ih f g _ (fun y hy => h y (List.mem_cons_of_mem _ hy))

theorem segsOps_sum (segs : List (Nat × List RowItem)) :
    ((segsOps segs).map (fun op => op.2)).sum
      = (segs.map (fun sg => sg.2.length)).sum := by
  rw [segsOps, List.map_map]
  rfl

theorem segsOps_le_of_strict (segs : List (Nat × List RowItem))
    (hstrict : List.Pairwise (fun a b : Nat × List RowItem => b.1 < a.1) segs) :
    List.Pairwise (fun a b : Nat × Nat => b.1 ≤ a.1) (segsOps segs) :=
  List.pairwise_map.mpr (hstrict.imp (fun h => Nat.le_of_lt h))

theorem apply_plan_phase1 (s : Sheet) (p : PlanResult)
    (segs : List (Nat × List RowItem))
    (hops : p.insert_ops_existing = segsOps segs)
    (hstrict : List.Pairwise (fun a b : Nat × List RowItem => b.1 < a.1) segs)
    (hne : ∀ sg ∈ segs, sg.2.length ≠ 0) :
    (sortDescBy (fun op : Nat × Nat => op.1) p.insert_ops_existing).foldl
      (fun sh op => if op.2 = 0 then sh else insertBlankRows sh op.1 op.2) s
      = spliceBlanksDesc s (segsOps segs) := by
  rw [hops, sortDescBy_eq_self _ _ (segsOps_le_of_strict segs hstrict)]
  have hcongr : ∀ op ∈ segsOps segs, ∀ acc : Sheet,
      (if op.2 = 0 then acc else insertBlankRows acc op.1 op.2)
        = insertBlankRows acc op.1 op.2 := by
    intro op hop acc
    obtain ⟨sg, hsg, hre⟩ := List.mem_map.mp hop
    have hne2 : ¬ op.2 = 0 := by rw [← hre]; exact hne sg hsg
    rw [if_neg hne2]
  rw [foldl_congr_mem (segsOps segs)
    (fun sh op => if op.2 = 0 then sh else insertBlankRows sh op.1 op.2)
    (fun sh op => insertBlankRows sh op.1 op.2) s hcongr]
  exact foldl_insert_eq_splice _ _ (segsOps_le_of_strict segs hstrict)

theorem apply_plan_phase3 (s0 : Sheet) (p : PlanResult)
    (segs : List (Nat × List RowItem)) (R : Sheet)
    (hops : p.insert_ops_existing = segsOps segs)
    (hsegs : p.segments_existing = segs)
    (hstrict : List.Pairwise (fun a b : Nat × List RowItem => b.1 < a.1) segs)
    (hpos : ∀ sg ∈ segs, 1 ≤ sg.1)
    (hbd : ∀ sg ∈ segs, sg.1 ≤ s0.length + 1) :
    p.segments_existing.foldl
      (fun sh seg =>
        writeSegment sh
          (shift_new_segment_start_after_inserts seg.1 p.insert_ops_existing) seg.2)
      (spliceBlanksDesc s0 (segsOps segs) ++ R)
      = spliceSegsDesc s0 segs ++ R := by
  rw [hsegs, hops]
  have hPlen : (spliceBlanksDesc s0 (segsOps segs)).length
      = s0.length + ((segsOps segs).map (fun op => op.2)).sum := by
    refine spliceBlanksDesc_length _ _ (segsOps_le_of_strict segs hstrict) ?_
    intro op hop
    obtain ⟨sg, hsg, hre⟩ := List.mem_map.mp hop
    rw [← hre]
    exact hbd sg hsg
  have hbounds : ∀ sg ∈ segs,
      (fun r => shift_new_segment_start_after_inserts r (segsOps segs)) sg.1 - 1
          + sg.2.length
        ≤ (spliceBlanksDesc s0 (segsOps segs)).length := by
    intro sg hsg
    have hmem2 : (sg.1, sg.2.length) ∈ segsOps segs := List.mem_map.mpr ⟨sg, hsg, rfl⟩
    have hsum := shift_new_le_total (segsOps segs) sg.1 sg.2.length
      (List.pairwise_map.mpr hstrict) hmem2
    show shift_new_segment_start_after_inserts sg.1 (segsOps segs) - 1 + sg.2.length
        ≤ (spliceBlanksDesc s0 (segsOps segs)).length
    rw [shift_new_eq_sum, hPlen]
    have := hbd sg hsg
    omega
  rw [foldl_write_front_eq segs
    (fun r => shift_new_segment_start_after_inserts r (segsOps segs))
    (spliceBlanksDesc s0 (segsOps segs)) R hbounds]
  rw [foldl_write_eq_splice segs s0 hstrict hpos]

theorem apply_plan_char_append (s : Sheet) (p : PlanResult)
    (segs : List (Nat × List RowItem)) (L n : Nat) (Arows : List RowItem)
    (hops : p.insert_ops_existing = segsOps segs)
    (hsegs : p.segments_existing = segs)
    (hstrict : List.Pairwise (fun a b : Nat × List RowItem => b.1 < a.1) segs)
    (hbd : ∀ sg ∈ segs, 1 ≤ sg.1 ∧ sg.1 ≤ L + 1)
    (hne : ∀ sg ∈ segs, sg.2.length ≠ 0)
    (happ : p.append_op
      = some (L + (segs.map (fun sg => sg.2.length)).sum + 1, n))
    (hsapp : p.segments_append
      = [(L + (segs.map (fun sg => sg.2.length)).sum + 1, Arows)])
    (hn : n = Arows.length) (hn0 : n ≠ 0) :
    apply_plan s p
      = spliceSegsDesc (padTake s L) segs ++ Arows.map mkRow ++ s.drop L := by
  have hple : List.Pairwise (fun a b : Nat × List RowItem => b.1 ≤ a.1) segs :=
    hstrict.imp (fun h => Nat.le_of_lt h)
  have hbdL : ∀ sg ∈ segs, sg.1 ≤ L + 1 := fun sg h => (hbd sg h).2
  have hpos : ∀ sg ∈ segs, 1 ≤ sg.1 := fun sg h => (hbd sg h).1
  simp only [apply_plan]
  rw [apply_plan_phase1 s p segs hops hstrict hne]
  simp only [happ]
  rw [if_neg hn0]
  have hT : ((segsOps segs).map (fun op => op.2)).sum
      = (segs.map (fun sg => sg.2.length)).sum := segsOps_sum segs
  have hopsbd : ∀ op ∈ segsOps segs, op.1 ≤ L + 1 := by
    intro op hop
    obtain ⟨sg, hsg, hre⟩ := List.mem_map.mp hop
    rw [← hre]
    exact hbdL sg hsg
  have hopsle := segsOps_le_of_strict segs hstrict
  have hins : insertBlankRows (spliceBlanksDesc s (segsOps segs))
      (L + (segs.map (fun sg => sg.2.length)).sum + 1) n
      = spliceBlanksDesc (padTake s L) (segsOps segs)
        ++ (List.replicate n blankRow ++ s.drop L) := by
    unfold insertBlankRows
    rw [show L + (segs.map (fun sg => sg.2.length)).sum + 1 - 1
        = L + ((segsOps segs).map (fun op => op.2)).sum by omega]
    rw [spliceBlanksDesc_padTake (segsOps segs) s L hopsle hopsbd,
      spliceBlanksDesc_drop (segsOps segs) s L hopsle hopsbd]
    rw [List.append_assoc]
  rw [hins]
  have hbd0 : ∀ sg ∈ segs, sg.1 ≤ (padTake s L).length + 1 := by
    intro sg hsg
    rw [padTake_length]
    exact hbdL sg hsg
  rw [apply_plan_phase3 (padTake s L) p segs
    (List.replicate n blankRow ++ s.drop L) hops hsegs hstrict hpos hbd0]
  rw [hsapp]
  simp only [List.foldl_cons, List.foldl_nil]
  have hSSlen : (spliceSegsDesc (padTake s L) segs).length
      = L + (segs.map (fun sg => sg.2.length)).sum := by
    rw [spliceSegsDesc_length segs _ hple hbd0, padTake_length]
  rw [show L + (segs.map (fun sg => sg.2.length)).sum + 1
      = (spliceSegsDesc (padTake s L) segs).length + 1 by rw [hSSlen]]
  rw [← List.append_assoc, hn]
  rw [writeSegment_exact Arows (spliceSegsDesc (padTake s L) segs) (s.drop L)]

theorem apply_plan_char_noappend (s : Sheet) (p : PlanResult)
    (segs : List (Nat × List RowItem))
    (hops : p.insert_ops_existing = segsOps segs)
    (hsegs : p.segments_existing = segs)
    (hstrict : List.Pairwise (fun a b : Nat × List RowItem => b.1 < a.1) segs)
    (hpos : ∀ sg ∈ segs, 1 ≤ sg.1)
    (hbd : ∀ sg ∈ segs, sg.1 ≤ s.length + 1)
    (hne : ∀ sg ∈ segs, sg.2.length ≠ 0)
    (happ : p.append_op = none)
    (hsapp : p.segments_append = []) :
    apply_plan s p = spliceSegsDesc s segs := by
  simp only [apply_plan]
  rw [apply_plan_phase1 s p segs hops hstrict hne, happ, hsapp]
  have := apply_plan_phase3 s p segs [] hops hsegs hstrict hpos hbd
  rw [List.append_nil, List.append_nil] at this
  rw [this]
  rfl

theorem apply_plan_trivial (s : Sheet) (p : PlanResult)
    (h1 : p.insert_ops_existing = []) (h2 : p.segments_existing = [])
    (h3 : p.append_op = none) (h4 : p.segments_append = []) :
    apply_plan s p = s := by
  simp only [apply_plan, h1, h2, h3, h4]
  rfl

/-! ## `get_last_row` under splices and appends -/

theorem getD_drop_add {α : Type} (l : List α) (m j : Nat) (d : α) :
    (l.drop m).getD j d = l.getD (m + j) d := by
  rw [List.getD_eq_getElem?_getD, List.getD_eq_getElem?_getD, List.getElem?_drop]

theorem lastUsedAux_append :
    ∀ (l1 l2 : List SheetRow) (i acc : Nat),
      lastUsedAux (l1 ++ l2) i acc = lastUsedAux l2 (i + l1.length) (lastUsedAux l1 i acc) := by
  intro l1
  induction l1 with
  | nil => intro l2 i acc; simp [lastUsedAux]
  | cons r rest ih =>
    intro l2 i acc
    show lastUsedAux (rest ++ l2) (i + 1)
        (if rowUsed r = true then max acc (i + 1) else acc)
      = lastUsedAux l2 (i + (r :: rest).length)
        (lastUsedAux rest (i + 1) (if rowUsed r = true then max acc (i + 1) else acc))
    rw [ih]
    congr 1
    simp only [List.length_cons]
    omega

theorem lastUsedAux_unused :
    ∀ (l : List SheetRow), (∀ r ∈ l, rowUsed r = false) →
      ∀ (i acc : Nat), lastUsedAux l i acc = acc := by
  intro l
  induction l with
  | nil => intro _ i acc; rfl
  | cons r rest ih =>
    intro h i acc
    simp only [lastUsedAux]
    rw [if_neg (by rw [h r (List.mem_cons_self _ _)]; simp)]
    exact ih (fun r2 h2 => h r2 (List.mem_cons_of_mem _ h2)) _ _

theorem lastUsedAux_le :
    ∀ (l : List SheetRow) (i acc : Nat), lastUsedAux l i acc ≤ max acc (i + l.length) := by
  intro l
  induction l with
  | nil => intro i acc; simp [lastUsedAux]
  | cons r rest ih =>
    intro i acc
    simp only [lastUsedAux, List.length_cons]
    by_cases hr : rowUsed r = true
    · rw [if_pos hr]
      have := ih (i + 1) (max acc (i + 1))
      omega
    · rw [if_neg hr]
      have := ih (i + 1) acc
      omega

theorem lastUsedAux_lower :
    ∀ (l : List SheetRow) (i acc j : Nat), j < l.length →
      rowUsed (l.getD j blankRow) = true → i + j + 1 ≤ lastUsedAux l i acc := by
  intro l
  induction l with
  | nil => intro i acc j hj _; simp at hj
  | cons r rest ih =>
    intro i acc j hj hused
    simp only [lastUsedAux]
    cases j with
    | zero =>
      simp only [List.getD_cons_zero] at hused
      rw [if_pos hused]
      have := lastUsedAux_ge_acc rest (i + 1) (max acc (i + 1))
      omega
    | succ j2 =>
      simp only [List.getD_cons_succ] at hused
      have := ih (i + 1) (if rowUsed r = true then max acc (i + 1) else acc) j2
        (by simp at hj; omega) hused
      omega

theorem lastUsedAux_attained :
    ∀ (l : List SheetRow) (i acc : Nat),
      lastUsedAux l i acc = acc
      ∨ ∃ j, j < l.length ∧ rowUsed (l.getD j blankRow) = true
          ∧ lastUsedAux l i acc = i + j + 1 := by
  intro l
  induction l with
  | nil => intro i acc; exact Or.inl rfl
  | cons r rest ih =>
    intro i acc
    simp only [lastUsedAux]
    by_cases hr : rowUsed r = true
    · rw [if_pos hr]
      rcases ih (i + 1) (max acc (i + 1)) with h | ⟨j, hj, hu, he⟩
      · rw [h]
        rcases Nat.le_total acc (i + 1) with hc | hc
        · refine Or.inr ⟨0, by simp, by simpa using hr, ?_⟩
          omega
        · left
          omega
      · refine Or.inr ⟨j + 1, by simp; omega, by simpa using hu, ?_⟩
        omega
    · rw [if_neg hr]
      rcases ih (i + 1) acc with h | ⟨j, hj, hu, he⟩
      · exact Or.inl h
      · refine Or.inr ⟨j + 1, by simp; omega, by simpa using hu, ?_⟩
        omega

theorem get_last_row_le (s : Sheet) (h2 : 2 ≤ s.length) : get_last_row s ≤ s.length := by
  have := lastUsedAux_le s 0 2
  unfold get_last_row
  omega

theorem drop_last_unused (s : Sheet) :
    ∀ r ∈ s.drop (get_last_row s), rowUsed r = false := by
  intro r hr
  obtain ⟨j, hj, hje⟩ := List.mem_iff_getElem.mp hr
  by_contra hused
  rw [Bool.not_eq_false] at hused
  have hgd : (s.drop (get_last_row s)).getD j blankRow = r := by
    rw [List.getD_eq_getElem?_getD, List.getElem?_eq_getElem hj, hje]
    rfl
  have hgd2 : s.getD (get_last_row s + j) blankRow = r := by
    rw [← getD_drop_add, hgd]
  have hlow := lastUsedAux_lower s 0 2 (get_last_row s + j)
    (by have := hj; simp at this; omega) (by rw [hgd2]; exact hused)
  have heq : get_last_row s = lastUsedAux s 0 2 := rfl
  omega

theorem used_last_row (s : Sheet) (h : 3 ≤ get_last_row s) :
    rowUsed (s.getD (get_last_row s - 1) blankRow) = true := by
  rcases lastUsedAux_attained s 0 2 with hc | ⟨j, hj, hu, he⟩
  · unfold get_last_row at h
    omega
  · have hje : get_last_row s - 1 = j := by
      unfold get_last_row
      omega
    rw [hje]
    exact hu

theorem get_last_row_concat (X tail : Sheet) (hX2 : 2 ≤ X.length)
    (hlast : rowUsed (X.getD (X.length - 1) blankRow) = true)
    (htail : ∀ r ∈ tail, rowUsed r = false) :
    get_last_row (X ++ tail) = X.length := by
  unfold get_last_row
  rw [lastUsedAux_append, lastUsedAux_unused tail htail]
  have hle := lastUsedAux_le X 0 2
  have hlow := lastUsedAux_lower X 0 2 (X.length - 1) (by omega) hlast
  omega

/-! ## The read window as a row list -/

theorem rowsFrom_map_snd :
    ∀ (Y : List SheetRow) (r : Nat), (rowsFrom r Y).map (fun p => p.2) = Y := by
  intro Y
  induction Y with
  | nil => intro r; rfl
  | cons y ys ih =>
    intro r
    simp only [rowsFrom, List.map_cons]
    rw [ih]

theorem range_map_eq_rowsFrom :
    ∀ (Y : List SheetRow) (r : Nat) (X : Sheet), 1 ≤ r →
      (∀ i, i < Y.length → X.getD (r - 1 + i) blankRow = Y.getD i blankRow) →
      (List.range' r Y.length).map (fun rn => (rn, X.getD (rn - 1) blankRow))
        = rowsFrom r Y := by
  intro Y
  induction Y with
  | nil => intro r X _ _; rfl
  | cons y ys ih =>
    intro r X hr h
    rw [List.length_cons, List.range'_succ, List.map_cons]
    simp only [rowsFrom]
    have h0 := h 0 (by simp)
    rw [show r - 1 + 0 = r - 1 by omega] at h0
    simp only [List.getD_cons_zero] at h0
    rw [h0]
    rw [ih (r + 1) X (by omega) ?_]
    intro i hi
    have := h (i + 1) (by simp; omega)
    rw [show r - 1 + (i + 1) = r + 1 - 1 + i by omega] at this
    simpa using this

theorem winOf_length (s : Sheet) : (winOf s).length = get_last_row s - 2 := by
  simp [winOf, padTake_length]

theorem read_ctx_eq (s : Sheet) :
    read_existing_context s
      = ⟨get_last_row s,
         (scanFold initScanState (rowsFrom 3 (winOf s))).primary_pairs,
         (scanFold initScanState (rowsFrom 3 (winOf s))).regs_under_primary,
         (scanFold initScanState (rowsFrom 3 (winOf s))).all_url_rows,
         buildBlocks (get_last_row s)
           (scanFold initScanState (rowsFrom 3 (winOf s))).primary_rows⟩ := by
  unfold read_existing_context
  dsimp only
  split
  · rename_i hlt
    have h2 := get_last_row_ge_two s
    have hL : get_last_row s = 2 := by omega
    have hwin : winOf s = [] := by
      have := winOf_length s
      rw [hL] at this
      simp at this
      exact this
    rw [hwin]
    rfl
  · rename_i hge
    have hrows : (List.range' 3 (get_last_row s - 2)).map
        (fun rn => (rn, s.getD (rn - 1) blankRow)) = rowsFrom 3 (winOf s) := by
      rw [← winOf_length s]
      refine range_map_eq_rowsFrom (winOf s) 3 s (by omega) ?_
      intro i hi
      rw [winOf_length] at hi
      rw [winOf, getD_drop_add, padTake_getD s (get_last_row s) (2 + i) (by omega)]
    rw [hrows]
    rfl

/-! ## Set / dictionary order theory -/

theorem mem_addToSet_iff {α : Type} [DecidableEq α] (x y : α) (s : List α) :
    x ∈ addToSet y s ↔ x = y ∨ x ∈ s := by
  unfold addToSet
  split
  · rename_i hy
    constructor
    · intro h; exact Or.inr h
    · rintro (rfl | h)
      · exact hy
      · exact h
  · simp [or_comm]

theorem addToSet_mono {α : Type} [DecidableEq α] (x y : α) (s : List α)
    (h : x ∈ s) : x ∈ addToSet y s :=
  (mem_addToSet_iff x y s).mpr (Or.inr h)

theorem addToSet_self {α : Type} [DecidableEq α] (y : α) (s : List α) :
    y ∈ addToSet y s :=
  (mem_addToSet_iff y y s).mpr (Or.inl rfl)

theorem dictGet_dictUpd_self {κ α : Type} [DecidableEq κ] :
    ∀ (d : List (κ × α)) (k : κ) (dflt : α) (f : α → α),
      dictGet (dictUpd d k dflt f) k = some (f ((dictGet d k).getD dflt)) := by
  intro d
  induction d with
  | nil => intro k dflt f; simp [dictUpd, dictGet]
  | cons kv rest ih =>
    intro k dflt f
    obtain ⟨k2, v⟩ := kv
    by_cases hk : k = k2
    · simp only [dictUpd, dictGet, if_pos hk]
      rfl
    · simp only [dictUpd, dictGet, if_neg hk]
      exact ih k dflt f

theorem dictGet_dictUpd_other {κ α : Type} [DecidableEq κ] :
    ∀ (d : List (κ × α)) (k k3 : κ) (dflt : α) (f : α → α), k3 ≠ k →
      dictGet (dictUpd d k dflt f) k3 = dictGet d k3 := by
  intro d
  induction d with
  | nil => intro k k3 dflt f hne; simp [dictUpd, dictGet, if_neg hne]
  | cons kv rest ih =>
    intro k k3 dflt f hne
    obtain ⟨k2, v⟩ := kv
    by_cases hk : k = k2
    · subst hk
      simp only [dictUpd, if_pos rfl, dictGet, if_neg hne]
    · simp only [dictUpd, if_neg hk, dictGet]
      by_cases hk3 : k3 = k2
      · rw [if_pos hk3, if_pos hk3]
      · rw [if_neg hk3, if_neg hk3]
        exact ih k k3 dflt f hne

theorem dictLE_refl (d : List (Option String × List String)) : dictLE d d :=
  fun _ _ h => h

theorem dictLE_trans {d1 d2 d3 : List (Option String × List String)}
    (h1 : dictLE d1 d2) (h2 : dictLE d2 d3) : dictLE d1 d3 :=
  fun k x h => h2 k x (h1 k x h)

theorem dictLE_upd_grows (d : List (Option String × List String))
    (k : Option String) (f : List String → List String)
    (hf : ∀ (v : List String) (x : String), x ∈ v → x ∈ f v) :
    dictLE d (dictUpd d k [] f) := by
  intro k2 x hx
  by_cases hk : k2 = k
  · subst hk
    rw [dictGet_dictUpd_self]
    exact hf _ x hx
  · rw [dictGet_dictUpd_other d k k2 [] f hk]
    exact hx

theorem dictLE_upd_cong {d1 d2 : List (Option String × List String)}
    (k : Option String) (f : List String → List String)
    (hle : dictLE d1 d2)
    (hf : ∀ (v1 v2 : List String), (∀ x ∈ v1, x ∈ v2) →
      ∀ x ∈ f v1, x ∈ f v2) :
    dictLE (dictUpd d1 k [] f) (dictUpd d2 k [] f) := by
  intro k2 x hx
  by_cases hk : k2 = k
  · subst hk
    rw [dictGet_dictUpd_self] at hx ⊢
    simp only [Option.getD_some] at hx ⊢
    exact hf _ _ (fun y hy => hle k2 y hy) x hx
  · rw [dictGet_dictUpd_other d1 k k2 [] f hk] at hx
    rw [dictGet_dictUpd_other d2 k k2 [] f hk]
    exact hle k2 x hx

theorem dictUpd_mem_val {κ : Type} [DecidableEq κ]
    (d : List (κ × List String)) (k : κ) (u : String) :
    u ∈ (dictGet (dictUpd d k [] (addToSet u)) k).getD [] := by
  rw [dictGet_dictUpd_self]
  exact addToSet_self u _

/-! ## The projected scan -/

theorem pProj_scanRow (st : ScanState) (rn : Nat) (row : SheetRow) :
    pProj (scanRow st rn row) = pstep (pProj st) row := by
  unfold scanRow pstep pProj
  dsimp only
  by_cases hm : pyLower (pyStrip row.colM) = "primary" <;>
    by_cases hu : pyStrip row.colS ≠ "" <;>
      cases hc : st.current_primary_url <;>
        simp [hm, hu, hc, List.map_append] <;>
          split_ifs <;> simp

theorem pProj_scanFold :
    ∀ (w : List (Nat × SheetRow)) (st : ScanState),
      pProj (scanFold st w) = pfold (pProj st) (w.map (fun p => p.2)) := by
  intro w
  induction w with
  | nil => intro st; rfl
  | cons x xs ih =>
    intro st
    show pProj (scanFold (scanRow st x.1 x.2) xs) = _
    rw [ih, pProj_scanRow]
    rfl

theorem pProj_scan_rowsFrom (Y : List SheetRow) (r : Nat) (st : ScanState) :
    pProj (scanFold st (rowsFrom r Y)) = pfold (pProj st) Y := by
  rw [pProj_scanFold, rowsFrom_map_snd]

theorem pfold_append (p : PState) (X Y : List SheetRow) :
    pfold p (X ++ Y) = pfold (pfold p X) Y :=
  List.foldl_append _ _ _ _

/-! ## Component behaviour of one projected scan step -/

theorem pstep_urls (p : PState) (row : SheetRow) :
    (pstep p row).urls
      = p.urls ++ (if pyStrip row.colS ≠ "" then [pyStrip row.colS] else []) := by
  unfold pstep
  dsimp only
  split_ifs <;> (try split) <;> (try split_ifs) <;>
    first | rfl | exact (List.append_nil _).symm

theorem pstep_cp_nonprim (p : PState) (row : SheetRow)
    (h : pyLower (pyStrip row.colM) ≠ "primary") :
    (pstep p row).cp = p.cp := by
  unfold pstep
  dsimp only
  rw [if_neg h]
  split <;> rfl

theorem pstep_cp_prim (p : PState) (row : SheetRow)
    (h : pyLower (pyStrip row.colM) = "primary") :
    (pstep p row).cp = cpvOf row := by
  unfold pstep cpvOf
  dsimp only
  rw [if_pos h]

theorem pstep_pairs_nonprim (p : PState) (row : SheetRow)
    (h : pyLower (pyStrip row.colM) ≠ "primary") :
    (pstep p row).pairs = p.pairs := by
  unfold pstep
  dsimp only
  rw [if_neg h]
  split <;> rfl

theorem pstep_pairs_prim (p : PState) (row : SheetRow)
    (h : pyLower (pyStrip row.colM) = "primary") :
    (pstep p row).pairs
      = if pyStrip row.colH ≠ "" && pyStrip row.colS ≠ "" then
          addToSet (pyStrip row.colH, pyStrip row.colS) p.pairs
        else p.pairs := by
  unfold pstep
  dsimp only
  rw [if_pos h]

theorem pstep_pairs_mono (p : PState) (row : SheetRow) (x : String × String)
    (h : x ∈ p.pairs) : x ∈ (pstep p row).pairs := by
  by_cases hm : pyLower (pyStrip row.colM) = "primary"
  · rw [pstep_pairs_prim p row hm]
    split
    · exact addToSet_mono x _ _ h
    · exact h
  · rw [pstep_pairs_nonprim p row hm]
    exact h

theorem pfold_pairs_mono :
    ∀ (X : List SheetRow) (p : PState) (x : String × String),
      x ∈ p.pairs → x ∈ (pfold p X).pairs := by
  intro X
  induction X with
  | nil => intro p x h; exact h
  | cons row rest ih =>
    intro p x h
    exact ih (pstep p row) x (pstep_pairs_mono p row x h)

theorem pstep_regs_grows (p : PState) (row : SheetRow) :
    dictLE p.regs (pstep p row).regs := by
  unfold pstep
  dsimp only
  by_cases hm : pyLower (pyStrip row.colM) = "primary"
  · rw [if_pos hm]
    exact dictLE_upd_grows p.regs _ id (fun v x hx => hx)
  · rw [if_neg hm]
    cases hc : p.cp with
    | none => exact dictLE_refl _
    | some cpu =>
      dsimp only
      split_ifs with h2
      · exact dictLE_upd_grows p.regs _ (addToSet _) (fun v x hx => addToSet_mono x _ _ hx)
      · exact dictLE_refl _

theorem pfold_regs_grows :
    ∀ (X : List SheetRow) (p : PState), dictLE p.regs (pfold p X).regs := by
  intro X
  induction X with
  | nil => intro p; exact dictLE_refl _
  | cons row rest ih =>
    intro p
    exact dictLE_trans (pstep_regs_grows p row) (ih (pstep p row))

theorem pstep_regs_prim (p : PState) (row : SheetRow)
    (hm : pyLower (pyStrip row.colM) = "primary") :
    (pstep p row).regs = dictUpd p.regs (cpvOf row) [] id := by
  unfold pstep cpvOf
  dsimp only
  rw [if_pos hm]

theorem pstep_regs_nonprim_some (p : PState) (row : SheetRow) (cpu : String)
    (hm : pyLower (pyStrip row.colM) ≠ "primary") (hc : p.cp = some cpu) :
    (pstep p row).regs
      = if pyStrip row.colS ≠ "" then
          dictUpd p.regs (some cpu) [] (addToSet (pyStrip row.colS))
        else p.regs := by
  unfold pstep
  dsimp only
  rw [if_neg hm, hc]

theorem pstep_regs_nonprim_none (p : PState) (row : SheetRow)
    (hm : pyLower (pyStrip row.colM) ≠ "primary") (hc : p.cp = none) :
    (pstep p row).regs = p.regs := by
  unfold pstep
  dsimp only
  rw [if_neg hm, hc]

theorem addToSet_compat (u : String) (v1 v2 : List String)
    (hsub : ∀ x ∈ v1, x ∈ v2) : ∀ x ∈ addToSet u v1, x ∈ addToSet u v2 := by
  intro x hx
  rcases (mem_addToSet_iff x u v1).mp hx with rfl | h
  · exact addToSet_self x v2
  · exact addToSet_mono x u v2 (hsub x h)

theorem urlKeep_false_of_mem (scraped : List String) (u : String) (h : u ∈ scraped) :
    urlKeep scraped u = false := by
  have hc : scraped.contains u = true := by simpa using List.elem_eq_true_of_mem h
  unfold urlKeep
  rw [hc]
  simp

theorem urlKeep_false_of_empty (scraped : List String) : urlKeep scraped "" = false := by
  simp [urlKeep]

/-! ## The scan simulation -/

theorem sim_refl (scraped : List String) (p : PState) : SimRel scraped p p :=
  ⟨rfl, rfl, dictLE_refl _, rfl⟩

theorem sim_step (scraped : List String) (p2 p1 : PState) (row : SheetRow)
    (h : SimRel scraped p2 p1) :
    SimRel scraped (pstep p2 row) (pstep p1 row) := by
  obtain ⟨hcp, hpairs, hregs, hurls⟩ := h
  refine ⟨?_, ?_, ?_, ?_⟩
  · by_cases hm : pyLower (pyStrip row.colM) = "primary"
    · rw [pstep_cp_prim _ _ hm, pstep_cp_prim _ _ hm]
    · rw [pstep_cp_nonprim _ _ hm, pstep_cp_nonprim _ _ hm, hcp]
  · by_cases hm : pyLower (pyStrip row.colM) = "primary"
    · rw [pstep_pairs_prim _ _ hm, pstep_pairs_prim _ _ hm, hpairs]
    · rw [pstep_pairs_nonprim _ _ hm, pstep_pairs_nonprim _ _ hm, hpairs]
  · by_cases hm : pyLower (pyStrip row.colM) = "primary"
    · rw [pstep_regs_prim _ _ hm, pstep_regs_prim _ _ hm]
      exact dictLE_upd_cong _ id hregs (fun v1 v2 hsub x hx => hsub x hx)
    · cases hc : p1.cp with
      | none =>
        rw [pstep_regs_nonprim_none p1 row hm hc,
          pstep_regs_nonprim_none p2 row hm (by rw [hcp, hc])]
        exact hregs
      | some cpu =>
        rw [pstep_regs_nonprim_some p1 row cpu hm hc,
          pstep_regs_nonprim_some p2 row cpu hm (by rw [hcp, hc])]
        split_ifs with hu
        · exact dictLE_upd_cong _ (addToSet _) hregs (addToSet_compat _)
        · exact hregs
  · rw [pstep_urls, pstep_urls, List.filter_append, List.filter_append, hurls]

theorem sim_fold (scraped : List String) :
    ∀ (X : List SheetRow) (p2 p1 : PState), SimRel scraped p2 p1 →
      SimRel scraped (pfold p2 X) (pfold p1 X) := by
  intro X
  induction X with
  | nil => intro p2 p1 h; exact h
  | cons row rest ih =>
    intro p2 p1 h
    exact ih _ _ (sim_step scraped p2 p1 row h)

theorem sim_extra (scraped : List String) (p2 p1 : PState) (row : SheetRow)
    (h : SimRel scraped p2 p1)
    (hm : pyLower (pyStrip row.colM) ≠ "primary")
    (hu : pyStrip row.colS = "" ∨ pyStrip row.colS ∈ scraped) :
    SimRel scraped (pstep p2 row) p1 := by
  obtain ⟨hcp, hpairs, hregs, hurls⟩ := h
  refine ⟨?_, ?_, ?_, ?_⟩
  · rw [pstep_cp_nonprim _ _ hm]
    exact hcp
  · rw [pstep_pairs_nonprim _ _ hm]
    exact hpairs
  · exact dictLE_trans hregs (pstep_regs_grows p2 row)
  · rw [pstep_urls, List.filter_append]
    have hnil : (if pyStrip row.colS ≠ "" then [pyStrip row.colS] else []).filter
        (urlKeep scraped) = [] := by
      split_ifs with hne
      · rcases hu with he | hmem
        · exact absurd he hne
        · simp [List.filter, urlKeep_false_of_mem scraped _ hmem]
      · rfl
    rw [hnil, List.append_nil]
    exact hurls

theorem sim_extra_fold (scraped : List String) :
    ∀ (X : List SheetRow) (p2 p1 : PState), SimRel scraped p2 p1 →
      (∀ row ∈ X, pyLower (pyStrip row.colM) ≠ "primary"
        ∧ (pyStrip row.colS = "" ∨ pyStrip row.colS ∈ scraped)) →
      SimRel scraped (pfold p2 X) p1 := by
  intro X
  induction X with
  | nil => intro p2 p1 h _; exact h
  | cons row rest ih =>
    intro p2 p1 h hX
    obtain ⟨hm, hu⟩ := hX row (List.mem_cons_self _ _)
    exact ih _ _ (sim_extra scraped p2 p1 row h hm hu)
      (fun r2 h2 => hX r2 (List.mem_cons_of_mem _ h2))

/-! ## Registration of written regulation rows -/

theorem mkRow_secondary_nonprim (it : RowItem) (h : it.isReg = true) :
    pyLower (pyStrip (mkRow it).colM) ≠ "primary" := by
  have hcol : (mkRow it).colM = "Secondary" := by
    simp [mkRow, h]
  rw [hcol]
  decide

theorem pfold_reg_rows :
    ∀ (items : List RowItem) (p : PState) (k : String),
      (∀ it ∈ items, it.isReg = true ∧ it.url ≠ "" ∧ pyStrip it.url = it.url) →
      p.cp = some k →
      (pfold p (items.map mkRow)).cp = some k
      ∧ ∀ it ∈ items,
          it.url ∈ (dictGet (pfold p (items.map mkRow)).regs (some k)).getD [] := by
  intro items
  induction items with
  | nil =>
    intro p k _ hcp
    exact ⟨hcp, fun it h => absurd h (List.not_mem_nil _)⟩
  | cons it rest ih =>
    intro p k hOK hcp
    obtain ⟨hreg, hne, hfix⟩ := hOK it (List.mem_cons_self _ _)
    have hrowm := mkRow_secondary_nonprim it hreg
    have hrowu : pyStrip (mkRow it).colS = it.url := hfix
    have hstep_cp : (pstep p (mkRow it)).cp = some k := by
      rw [pstep_cp_nonprim _ _ hrowm]
      exact hcp
    have hstep_regs : (pstep p (mkRow it)).regs
        = dictUpd p.regs (some k) [] (addToSet it.url) := by
      rw [pstep_regs_nonprim_some p (mkRow it) k hrowm hcp, hrowu, if_pos hne]
    obtain ⟨ihcp, ihregs⟩ := ih (pstep p (mkRow it)) k
      (fun it2 h2 => hOK it2 (List.mem_cons_of_mem _ h2)) hstep_cp
    refine ⟨ihcp, ?_⟩
    intro it2 hit2
    rcases List.mem_cons.mp hit2 with rfl | h2
    · have hmem0 : it2.url ∈ (dictGet (pstep p (mkRow it2)).regs (some k)).getD [] := by
        rw [hstep_regs]
        exact dictUpd_mem_val p.regs (some k) it2.url
      exact pfold_regs_grows (rest.map mkRow) (pstep p (mkRow it2)) (some k) it2.url hmem0
    · exact ihregs it2 h2

/-! ## The current primary after a scan prefix -/

theorem getLastD_cons {α : Type} :
    ∀ (l : List α) (c d : α), ((c :: l).getLast?).getD d = (l.getLast?).getD c := by
  intro l
  induction l with
  | nil => intro c d; rfl
  | cons a as ih =>
    intro c d
    rw [List.getLast?_cons_cons, ih a d, ih a c]

theorem pfold_cp_eq :
    ∀ (X : List SheetRow) (p : PState),
      (pfold p X).cp
        = (((X.filter (fun r => pyLower (pyStrip r.colM) = "primary")).map
            cpvOf).getLast?).getD p.cp := by
  intro X
  induction X with
  | nil => intro p; rfl
  | cons row rest ih =>
    intro p
    show (pfold (pstep p row) rest).cp = _
    rw [ih]
    by_cases hm : pyLower (pyStrip row.colM) = "primary"
    · rw [List.filter_cons_of_pos (by simpa using hm), List.map_cons,
        getLastD_cons, pstep_cp_prim _ _ hm]
    · rw [List.filter_cons_of_neg (by simpa using hm), pstep_cp_nonprim _ _ hm]

theorem rowsFrom_primary_bound :
    ∀ (Y : List SheetRow) (r : Nat) (e : Option String × Nat),
      e ∈ ((rowsFrom r Y).filter
          (fun p => pyLower (pyStrip p.2.colM) = "primary")).map
          (fun p => (cpvOf p.2, p.1)) →
      r ≤ e.2 := by
  intro Y
  induction Y with
  | nil => intro r e he; exact absurd he (List.not_mem_nil _)
  | cons y ys ih =>
    intro r e he
    rw [show rowsFrom r (y :: ys) = (r, y) :: rowsFrom (r + 1) ys from rfl] at he
    by_cases hm : pyLower (pyStrip y.colM) = "primary"
    · rw [List.filter_cons_of_pos (by simpa using hm), List.map_cons] at he
      rcases List.mem_cons.mp he with rfl | h2
      · exact Nat.le_refl r
      · have := ih (r + 1) e h2
        omega
    · rw [List.filter_cons_of_neg (by simpa using hm)] at he
      have := ih (r + 1) e he
      omega

theorem take_primary_link :
    ∀ (Y : List SheetRow) (r m : Nat),
      ((Y.take m).filter (fun row => pyLower (pyStrip row.colM) = "primary")).map cpvOf
        = ((((rowsFrom r Y).filter
            (fun p => pyLower (pyStrip p.2.colM) = "primary")).map
            (fun p => (cpvOf p.2, p.1))).filter (fun e => e.2 < r + m)).map
            (fun e => e.1) := by
  intro Y
  induction Y with
  | nil =>
    intro r m
    simp [rowsFrom]
  | cons y ys ih =>
    intro r m
    cases m with
    | zero =>
      rw [List.take_zero]
      have hnil : (((rowsFrom r (y :: ys)).filter
          (fun p => pyLower (pyStrip p.2.colM) = "primary")).map
          (fun p => (cpvOf p.2, p.1))).filter (fun e => e.2 < r + 0) = [] := by
        rw [List.filter_eq_nil_iff]
        intro e he
        have := rowsFrom_primary_bound (y :: ys) r e he
        simp only [decide_eq_true_eq]
        omega
      rw [hnil]
      rfl
    | succ m2 =>
      rw [List.take_succ_cons]
      rw [show rowsFrom r (y :: ys) = (r, y) :: rowsFrom (r + 1) ys from rfl]
      rw [show r + (m2 + 1) = r + 1 + m2 by omega]
      by_cases hm : pyLower (pyStrip y.colM) = "primary"
      · rw [List.filter_cons_of_pos (by simpa using hm),
          List.filter_cons_of_pos (by simpa using hm), List.map_cons, List.map_cons,
          List.filter_cons_of_pos
            (by exact decide_eq_true (show r < r + 1 + m2 by omega)),
          List.map_cons]
        rw [ih (r + 1) m2]
      · rw [List.filter_cons_of_neg (by simpa using hm),
          List.filter_cons_of_neg (by simpa using hm)]
        exact ih (r + 1) m2

/-! ## Block adjacency in the primary-row list -/

theorem buildBlocks_adj (last : Nat) :
    ∀ (pr : List (Option String × Nat)),
      List.Pairwise (fun a b : Option String × Nat => a.2 < b.2) pr →
      (∀ e ∈ pr, e.2 ≤ last) →
      ∀ b ∈ buildBlocks last pr,
        ∃ A0 B0, pr = A0 ++ (b.url, b.row) :: B0
          ∧ (∀ e ∈ A0, e.2 ≤ b.end_row)
          ∧ (∀ e ∈ B0, b.end_row < e.2)
          ∧ b.row ≤ b.end_row := by
  intro pr
  induction pr with
  | nil => intro _ _ b hb; exact absurd hb (List.not_mem_nil _)
  | cons x rest ih =>
    obtain ⟨u, rr⟩ := x
    intro hp hlast b hb
    cases rest with
    | nil =>
      simp only [buildBlocks, List.mem_singleton] at hb
      subst hb
      refine ⟨[], [], rfl, by simp, by simp, ?_⟩
      exact hlast (u, rr) (List.mem_cons_self _ _)
    | cons x2 rest2 =>
      obtain ⟨u2, r2⟩ := x2
      simp only [buildBlocks] at hb
      have hrr2 : rr < r2 := List.rel_of_pairwise_cons hp (List.mem_cons_self _ _)
      rcases List.mem_cons.mp hb with hb1 | hb2
      · subst hb1
        refine ⟨[], (u2, r2) :: rest2, rfl, by simp, ?_, ?_⟩
        · intro e he
          rcases List.mem_cons.mp he with rfl | h2
          · dsimp only
            omega
          · have : r2 < e.2 :=
              List.rel_of_pairwise_cons (List.Pairwise.of_cons hp) h2
            dsimp only
            omega
        · dsimp only
          omega
      · obtain ⟨A0, B0, heq, hA, hB, hre⟩ := ih (List.Pairwise.of_cons hp)
          (fun e he => hlast e (List.mem_cons_of_mem _ he)) b hb2
        refine ⟨(u, rr) :: A0, B0, by rw [heq]; rfl, ?_, hB, hre⟩
        intro e he
        rcases List.mem_cons.mp he with rfl | h2
        · have hbmem : (b.url, b.row) ∈ (u2, r2) :: rest2 := by
            rw [heq]
            exact List.mem_append_right _ (List.mem_cons_self _ _)
          have hge : r2 ≤ b.row := by
            rcases List.mem_cons.mp hbmem with hh | h3
            · rw [Prod.mk.injEq] at hh
              omega
            · have : r2 < b.row :=
                List.rel_of_pairwise_cons (List.Pairwise.of_cons hp) h3
              omega
          dsimp only
          omega
        · exact hA e h2

theorem buildBlocks_mem_of_entry (last : Nat) :
    ∀ (pr : List (Option String × Nat)) (u0 : Option String) (rn : Nat),
      (u0, rn) ∈ pr → ∃ b ∈ buildBlocks last pr, b.url = u0 := by
  intro pr
  induction pr with
  | nil => intro u0 rn h; exact absurd h (List.not_mem_nil _)
  | cons x rest ih =>
    obtain ⟨u, rr⟩ := x
    intro u0 rn h
    cases rest with
    | nil =>
      simp only [List.mem_singleton] at h
      refine ⟨⟨u, rr, last⟩, by simp [buildBlocks], ?_⟩
      rw [Prod.mk.injEq] at h
      exact h.1.symm
    | cons x2 rest2 =>
      obtain ⟨u2, r2⟩ := x2
      rcases List.mem_cons.mp h with h1 | h2
      · refine ⟨⟨u, rr, r2 - 1⟩, List.mem_cons_self _ _, ?_⟩
        rw [Prod.mk.injEq] at h1
        exact h1.1.symm
      · obtain ⟨b, hb, hbu⟩ := ih u0 rn h2
        exact ⟨b, List.mem_cons_of_mem _ hb, hbu⟩

theorem lookupBlock_isSome_of_mem (blocks : List PrimaryBlock) (b : PrimaryBlock)
    (k : String) (hmem : b ∈ blocks) (hurl : b.url = some k) :
    ∃ b2, lookupBlock blocks k = some b2 := by
  unfold lookupBlock
  have hmemf : b ∈ blocks.filter (fun b2 => b2.url = some k) :=
    List.mem_filter.mpr ⟨hmem, by simp [hurl]⟩
  cases hl : (blocks.filter (fun b2 => b2.url = some k)).getLast? with
  | none =>
    rw [List.getLast?_eq_none_iff] at hl
    rw [hl] at hmemf
    exact absurd hmemf (List.not_mem_nil _)
  | some b2 => exact ⟨b2, rfl⟩

/-! ## Every recorded pair has a primary row, hence a block -/

theorem scanRow_pairs (st : ScanState) (rn : Nat) (row : SheetRow) :
    (scanRow st rn row).primary_pairs
      = if pyLower (pyStrip row.colM) = "primary" then
          (if pyStrip row.colH ≠ "" && pyStrip row.colS ≠ "" then
            addToSet (pyStrip row.colH, pyStrip row.colS) st.primary_pairs
          else st.primary_pairs)
        else st.primary_pairs := by
  unfold scanRow
  dsimp only
  split_ifs <;> (try split) <;> (try split_ifs) <;> first | rfl | simp_all

theorem scanRow_pairs_prim_inv (st : ScanState) (rn : Nat) (row : SheetRow)
    (hinv : ∀ du ∈ st.primary_pairs, ∃ rn2, (some du.2, rn2) ∈ st.primary_rows) :
    ∀ du ∈ (scanRow st rn row).primary_pairs,
      ∃ rn2, (some du.2, rn2) ∈ (scanRow st rn row).primary_rows := by
  intro du hdu
  rw [scanRow_pairs] at hdu
  rw [scanRow_primrows]
  by_cases hm : pyLower (pyStrip row.colM) = "primary"
  · rw [if_pos hm] at hdu
    by_cases hdc : (pyStrip row.colH ≠ "" && pyStrip row.colS ≠ "") = true
    · rw [if_pos hdc] at hdu
      rcases (mem_addToSet_iff _ _ _).mp hdu with rfl | hold
      · have hu : pyStrip row.colS ≠ "" := by
          simp only [Bool.and_eq_true, decide_eq_true_eq] at hdc
          exact hdc.2
        refine ⟨rn, List.mem_append_right _ ?_⟩
        rw [if_pos hm, if_pos hu]
        exact List.mem_singleton.mpr rfl
      · obtain ⟨rn2, h2⟩ := hinv du hold
        exact ⟨rn2, List.mem_append_left _ h2⟩
    · rw [if_neg hdc] at hdu
      obtain ⟨rn2, h2⟩ := hinv du hdu
      exact ⟨rn2, List.mem_append_left _ h2⟩
  · rw [if_neg hm] at hdu
    obtain ⟨rn2, h2⟩ := hinv du hdu
    exact ⟨rn2, List.mem_append_left _ h2⟩

theorem scanFold_pairs_prim_inv :
    ∀ (w : List (Nat × SheetRow)) (st : ScanState),
      (∀ du ∈ st.primary_pairs, ∃ rn2, (some du.2, rn2) ∈ st.primary_rows) →
      ∀ du ∈ (scanFold st w).primary_pairs,
        ∃ rn2, (some du.2, rn2) ∈ (scanFold st w).primary_rows := by
  intro w
  induction w with
  | nil => intro st h; exact h
  | cons x xs ih =>
    intro st h
    exact ih (scanRow st x.1 x.2) (scanRow_pairs_prim_inv st x.1 x.2 h)

theorem read_pairs_block (s : Sheet) (d u : String)
    (hmem : (d, u) ∈ (read_existing_context s).primary_pairs) :
    ∃ b, lookupBlock (read_existing_context s).primary_blocks u = some b := by
  rw [read_ctx_eq] at hmem ⊢
  dsimp only at hmem ⊢
  have hprim := scanFold_pairs_prim_inv (rowsFrom 3 (winOf s)) initScanState
    (by intro du hdu; exact absurd hdu (List.not_mem_nil _)) (d, u) hmem
  obtain ⟨rn2, h2⟩ := hprim
  obtain ⟨b, hb, hbu⟩ := buildBlocks_mem_of_entry (get_last_row s) _ (some u) rn2 h2
  exact lookupBlock_isSome_of_mem _ b u hb hbu

/-! ## The master simulation: scanning a spliced window -/

theorem take_drop_glue (A : Sheet) (m : Nat) (hm : 2 ≤ m) :
    (A.take m).drop 2 ++ A.drop m = A.drop 2 := by
  conv_rhs => rw [← List.take_append_drop m A]
  rw [List.drop_append_eq_append_drop]
  congr 1
  rcases Nat.lt_or_ge A.length 2 with h2 | h2
  · rw [List.drop_eq_nil_of_le (by omega : A.length ≤ m)]
    simp
  · rw [show 2 - (A.take m).length = 0 by simp [List.length_take]; omega, List.drop_zero]

theorem master_scan (scraped : List String) :
    ∀ (segs : List (Nat × List RowItem)) (A : Sheet) (p0 : PState),
      List.Pairwise (fun a b : Nat × List RowItem => b.1 < a.1) segs →
      (∀ sg ∈ segs, 3 ≤ sg.1 ∧ sg.1 ≤ A.length + 1) →
      (∀ sg ∈ segs, ∀ it ∈ sg.2,
        it.isReg = true ∧ it.url ≠ "" ∧ pyStrip it.url = it.url ∧ it.url ∈ scraped) →
      SimRel scraped (pfold p0 ((spliceSegsDesc A segs).drop 2)) (pfold p0 (A.drop 2))
      ∧ ∀ sg ∈ segs, ∀ k,
          (pfold p0 ((A.take (sg.1 - 1)).drop 2)).cp = some k →
          ∀ it ∈ sg.2,
            it.url ∈ (dictGet (pfold p0 ((spliceSegsDesc A segs).drop 2)).regs
              (some k)).getD [] := by
  intro segs
  induction segs with
  | nil =>
    intro A p0 _ _ _
    exact ⟨sim_refl scraped _, fun sg hsg => absurd hsg (List.not_mem_nil _)⟩
  | cons sg0 rest ih =>
    obtain ⟨q, w⟩ := sg0
    intro A p0 hstrict hbd hOK
    have hq3 : 3 ≤ q := (hbd (q, w) (List.mem_cons_self _ _)).1
    have hqA : q ≤ A.length + 1 := (hbd (q, w) (List.mem_cons_self _ _)).2
    have hall : ∀ sg2 ∈ rest, sg2.1 < q :=
      fun sg2 h2 => List.rel_of_pairwise_cons hstrict h2
    have hpt : padTake A (q - 1) = A.take (q - 1) :=
      padTake_eq_take A (q - 1) (by omega)
    have htklen : (A.take (q - 1)).length = q - 1 := by
      rw [List.length_take]
      omega
    have hsplice : spliceSegsDesc A ((q, w) :: rest)
        = spliceSegsDesc (A.take (q - 1)) rest ++ (w.map mkRow ++ A.drop (q - 1)) := by
      rw [show spliceSegsDesc A ((q, w) :: rest)
          = spliceSegsDesc (padTake A (q - 1)) rest ++ w.map mkRow ++ A.drop (q - 1)
        from rfl, hpt, List.append_assoc]
    have hrest_le : List.Pairwise (fun a b : Nat × List RowItem => b.1 ≤ a.1) rest :=
      (List.Pairwise.of_cons hstrict).imp (fun h => Nat.le_of_lt h)
    have hrest_bd : ∀ sg2 ∈ rest, 3 ≤ sg2.1 ∧ sg2.1 ≤ (A.take (q - 1)).length + 1 := by
      intro sg2 h2
      refine ⟨(hbd sg2 (List.mem_cons_of_mem _ h2)).1, ?_⟩
      rw [htklen]
      have := hall sg2 h2
      omega
    have hinnerlen : (spliceSegsDesc (A.take (q - 1)) rest).length
        = (q - 1) + (rest.map (fun sg => sg.2.length)).sum := by
      rw [spliceSegsDesc_length rest _ hrest_le
        (fun sg2 h2 => (hrest_bd sg2 h2).2), htklen]
    have hdrop2 : (spliceSegsDesc A ((q, w) :: rest)).drop 2
        = (spliceSegsDesc (A.take (q - 1)) rest).drop 2
          ++ (w.map mkRow ++ A.drop (q - 1)) := by
      rw [hsplice, List.drop_append_eq_append_drop,
        show 2 - (spliceSegsDesc (A.take (q - 1)) rest).length = 0 by
          rw [hinnerlen]; omega,
        List.drop_zero]
    obtain ⟨ihsim, ihreg⟩ := ih (A.take (q - 1)) p0 (List.Pairwise.of_cons hstrict)
      hrest_bd (fun sg2 h2 => hOK sg2 (List.mem_cons_of_mem _ h2))
    have hwOK : ∀ it ∈ w,
        it.isReg = true ∧ it.url ≠ "" ∧ pyStrip it.url = it.url ∧ it.url ∈ scraped :=
      hOK (q, w) (List.mem_cons_self _ _)
    have hwrows : ∀ row ∈ w.map mkRow,
        pyLower (pyStrip row.colM) ≠ "primary"
        ∧ (pyStrip row.colS = "" ∨ pyStrip row.colS ∈ scraped) := by
      intro row hrow
      obtain ⟨it, hit, hre⟩ := List.mem_map.mp hrow
      obtain ⟨hreg, hne, hfix, hscr⟩ := hwOK it hit
      rw [← hre]
      refine ⟨mkRow_secondary_nonprim it hreg, Or.inr ?_⟩
      show pyStrip it.url ∈ scraped
      rw [hfix]
      exact hscr
    have hsim2 : SimRel scraped
        (pfold (pfold p0 ((spliceSegsDesc (A.take (q - 1)) rest).drop 2)) (w.map mkRow))
        (pfold p0 ((A.take (q - 1)).drop 2)) :=
      sim_extra_fold scraped (w.map mkRow) _ _ ihsim hwrows
    have hglue : (A.take (q - 1)).drop 2 ++ A.drop (q - 1) = A.drop 2 :=
      take_drop_glue A (q - 1) (by omega)
    have htail1 : pfold p0 (A.drop 2)
        = pfold (pfold p0 ((A.take (q - 1)).drop 2)) (A.drop (q - 1)) := by
      rw [← hglue, pfold_append]
    have hfinal_eq : pfold p0 ((spliceSegsDesc A ((q, w) :: rest)).drop 2)
        = pfold (pfold (pfold p0 ((spliceSegsDesc (A.take (q - 1)) rest).drop 2))
            (w.map mkRow)) (A.drop (q - 1)) := by
      rw [hdrop2, pfold_append, pfold_append]
    constructor
    · rw [hfinal_eq, htail1]
      exact sim_fold scraped (A.drop (q - 1)) _ _ hsim2
    · intro sg2 hsg2 k hk it hit
      rw [hfinal_eq]
      rcases List.mem_cons.mp hsg2 with heq | hmem
      · subst heq
        have hcpP2 : (pfold p0
            ((spliceSegsDesc (A.take (q - 1)) rest).drop 2)).cp = some k := by
          rw [ihsim.1]
          exact hk
        obtain ⟨hcpw, hregw⟩ := pfold_reg_rows w
          (pfold p0 ((spliceSegsDesc (A.take (q - 1)) rest).drop 2)) k
          (fun it2 h2 => ⟨(hwOK it2 h2).1, (hwOK it2 h2).2.1, (hwOK it2 h2).2.2.1⟩)
          hcpP2
        exact pfold_regs_grows (A.drop (q - 1)) _ (some k) it.url (hregw it hit)
      · have hk2 : (pfold p0 (((A.take (q - 1)).take (sg2.1 - 1)).drop 2)).cp
            = some k := by
          rw [List.take_take, Nat.min_eq_left (by have := hall sg2 hmem; omega)]
          exact hk
        have hreg0 := ihreg sg2 hmem k hk2 it hit
        have h1 := pfold_regs_grows (w.map mkRow)
          (pfold p0 ((spliceSegsDesc (A.take (q - 1)) rest).drop 2)) (some k) it.url hreg0
        exact pfold_regs_grows (A.drop (q - 1)) _ (some k) it.url h1

/-! ## The inner regulation loop, case by case -/

theorem processReg_skip_of_ex (lie : Bool) (lu : String) (ex : List String)
    (bs : BuildState) (seen : List String) (reg : RegDoc)
    (hne : pyStrip reg.url ≠ "") (hex : pyStrip reg.url ∈ ex) :
    processReg lie lu ex (bs, seen) reg
      = ({ bs with scraped_urls := addToSet (pyStrip reg.url) bs.scraped_urls },
         seen) := by
  unfold processReg
  dsimp only
  rw [if_pos hne, if_pos (by simp [hne, hex])]

theorem processReg_skip_of_seen (lie : Bool) (lu : String) (ex : List String)
    (bs : BuildState) (seen : List String) (reg : RegDoc)
    (hne : pyStrip reg.url ≠ "") (hnex : pyStrip reg.url ∉ ex)
    (hseen : pyStrip reg.url ∈ seen) :
    processReg lie lu ex (bs, seen) reg
      = ({ bs with scraped_urls := addToSet (pyStrip reg.url) bs.scraped_urls },
         seen) := by
  unfold processReg
  dsimp only
  rw [if_pos hne, if_neg (by simp [hnex]), if_pos (by simp [hne, hseen])]

theorem processReg_emit_true (lu : String) (ex : List String)
    (bs : BuildState) (seen : List String) (reg : RegDoc)
    (hne : pyStrip reg.url ≠ "") (hnex : pyStrip reg.url ∉ ex)
    (hnseen : pyStrip reg.url ∉ seen) :
    processReg true lu ex (bs, seen) reg
      = ({ bs with
            scraped_urls := addToSet (pyStrip reg.url) bs.scraped_urls,
            regs_to_insert_under_existing :=
              dictUpd bs.regs_to_insert_under_existing lu []
                (fun l => l ++ [⟨true, reg.title, reg.date, pyStrip reg.url⟩]) },
         addToSet (pyStrip reg.url) seen) := by
  unfold processReg
  dsimp only
  rw [if_pos hne, if_neg (by simp [hnex]), if_neg (by simp [hnseen]),
    if_pos rfl, if_pos hne]

theorem processReg_emit_false (lu : String) (ex : List String)
    (bs : BuildState) (seen : List String) (reg : RegDoc)
    (hne : pyStrip reg.url ≠ "") (hnex : pyStrip reg.url ∉ ex)
    (hnseen : pyStrip reg.url ∉ seen) :
    processReg false lu ex (bs, seen) reg
      = ({ bs with
            scraped_urls := addToSet (pyStrip reg.url) bs.scraped_urls,
            output_rows_to_append := bs.output_rows_to_append
              ++ [⟨true, reg.title, reg.date, pyStrip reg.url⟩] },
         addToSet (pyStrip reg.url) seen) := by
  unfold processReg
  dsimp only
  rw [if_pos hne, if_neg (by simp [hnex]), if_neg (by simp [hnseen]),
    if_neg (by simp), if_pos hne]

theorem procRegs_scraped_mono (lie : Bool) (lu : String) (ex : List String) :
    ∀ (regs : List RegDoc) (bs : BuildState) (seen : List String),
      (∀ r ∈ regs, pyStrip r.url ≠ "") →
      ∀ u ∈ bs.scraped_urls,
        u ∈ ((regs.foldl (processReg lie lu ex) (bs, seen)).1).scraped_urls := by
  intro regs
  induction regs with
  | nil => intro bs seen _ u hu; exact hu
  | cons r rest ih =>
    intro bs seen hcl u hu
    have hne := hcl r (List.mem_cons_self _ _)
    have hcl2 := fun r2 h2 => hcl r2 (List.mem_cons_of_mem _ h2)
    simp only [List.foldl_cons]
    by_cases hex : pyStrip r.url ∈ ex
    · rw [processReg_skip_of_ex lie lu ex bs seen r hne hex]
      exact ih _ seen hcl2 u (addToSet_mono u _ _ hu)
    · by_cases hseen : pyStrip r.url ∈ seen
      · rw [processReg_skip_of_seen lie lu ex bs seen r hne hex hseen]
        exact ih _ seen hcl2 u (addToSet_mono u _ _ hu)
      · cases lie with
        | true =>
          rw [processReg_emit_true lu ex bs seen r hne hex hseen]
          exact ih _ _ hcl2 u (addToSet_mono u _ _ hu)
        | false =>
          rw [processReg_emit_false lu ex bs seen r hne hex hseen]
          exact ih _ _ hcl2 u (addToSet_mono u _ _ hu)

theorem procRegs_pairs (lie : Bool) (lu : String) (ex : List String) :
    ∀ (regs : List RegDoc) (bs : BuildState) (seen : List String),
      (∀ r ∈ regs, pyStrip r.url ≠ "") →
      ((regs.foldl (processReg lie lu ex) (bs, seen)).1).primary_pairs
        = bs.primary_pairs := by
  intro regs
  induction regs with
  | nil => intro bs seen _; rfl
  | cons r rest ih =>
    intro bs seen hcl
    have hne := hcl r (List.mem_cons_self _ _)
    have hcl2 := fun r2 h2 => hcl r2 (List.mem_cons_of_mem _ h2)
    simp only [List.foldl_cons]
    by_cases hex : pyStrip r.url ∈ ex
    · rw [processReg_skip_of_ex lie lu ex bs seen r hne hex]
      exact ih _ seen hcl2
    · by_cases hseen : pyStrip r.url ∈ seen
      · rw [processReg_skip_of_seen lie lu ex bs seen r hne hex hseen]
        exact ih _ seen hcl2
      · cases lie with
        | true =>
          rw [processReg_emit_true lu ex bs seen r hne hex hseen]
          exact ih _ _ hcl2
        | false =>
          rw [processReg_emit_false lu ex bs seen r hne hex hseen]
          exact ih _ _ hcl2

theorem procRegs_amb (lie : Bool) (lu : String) (ex : List String) :
    ∀ (regs : List RegDoc) (bs : BuildState) (seen : List String),
      (∀ r ∈ regs, pyStrip r.url ≠ "") →
      ((regs.foldl (processReg lie lu ex) (bs, seen)).1).ambiguous_positions_new
        = bs.ambiguous_positions_new := by
  intro regs
  induction regs with
  | nil => intro bs seen _; rfl
  | cons r rest ih =>
    intro bs seen hcl
    have hne := hcl r (List.mem_cons_self _ _)
    have hcl2 := fun r2 h2 => hcl r2 (List.mem_cons_of_mem _ h2)
    simp only [List.foldl_cons]
    by_cases hex : pyStrip r.url ∈ ex
    · rw [processReg_skip_of_ex lie lu ex bs seen r hne hex]
      exact ih _ seen hcl2
    · by_cases hseen : pyStrip r.url ∈ seen
      · rw [processReg_skip_of_seen lie lu ex bs seen r hne hex hseen]
        exact ih _ seen hcl2
      · cases lie with
        | true =>
          rw [processReg_emit_true lu ex bs seen r hne hex hseen]
          exact ih _ _ hcl2
        | false =>
          rw [processReg_emit_false lu ex bs seen r hne hex hseen]
          exact ih _ _ hcl2

theorem procRegs_out_true (lu : String) (ex : List String) :
    ∀ (regs : List RegDoc) (bs : BuildState) (seen : List String),
      (∀ r ∈ regs, pyStrip r.url ≠ "") →
      ((regs.foldl (processReg true lu ex) (bs, seen)).1).output_rows_to_append
        = bs.output_rows_to_append := by
  intro regs
  induction regs with
  | nil => intro bs seen _; rfl
  | cons r rest ih =>
    intro bs seen hcl
    have hne := hcl r (List.mem_cons_self _ _)
    have hcl2 := fun r2 h2 => hcl r2 (List.mem_cons_of_mem _ h2)
    simp only [List.foldl_cons]
    by_cases hex : pyStrip r.url ∈ ex
    · rw [processReg_skip_of_ex true lu ex bs seen r hne hex]
      exact ih _ seen hcl2
    · by_cases hseen : pyStrip r.url ∈ seen
      · rw [processReg_skip_of_seen true lu ex bs seen r hne hex hseen]
        exact ih _ seen hcl2
      · rw [processReg_emit_true lu ex bs seen r hne hex hseen]
        exact ih _ _ hcl2

theorem procRegs_dict_false (lu : String) (ex : List String) :
    ∀ (regs : List RegDoc) (bs : BuildState) (seen : List String),
      (∀ r ∈ regs, pyStrip r.url ≠ "") →
      ((regs.foldl (processReg false lu ex) (bs, seen)).1).regs_to_insert_under_existing
        = bs.regs_to_insert_under_existing := by
  intro regs
  induction regs with
  | nil => intro bs seen _; rfl
  | cons r rest ih =>
    intro bs seen hcl
    have hne := hcl r (List.mem_cons_self _ _)
    have hcl2 := fun r2 h2 => hcl r2 (List.mem_cons_of_mem _ h2)
    simp only [List.foldl_cons]
    by_cases hex : pyStrip r.url ∈ ex
    · rw [processReg_skip_of_ex false lu ex bs seen r hne hex]
      exact ih _ seen hcl2
    · by_cases hseen : pyStrip r.url ∈ seen
      · rw [processReg_skip_of_seen false lu ex bs seen r hne hex hseen]
        exact ih _ seen hcl2
      · rw [processReg_emit_false lu ex bs seen r hne hex hseen]
        exact ih _ _ hcl2

theorem procRegs_dict_keys (lu : String) (ex : List String) :
    ∀ (regs : List RegDoc) (bs : BuildState) (seen : List String),
      (∀ r ∈ regs, pyStrip r.url ≠ "") →
      ∀ e ∈ ((regs.foldl (processReg true lu ex) (bs, seen)).1).regs_to_insert_under_existing,
        e.1 = lu ∨ e.1 ∈ bs.regs_to_insert_under_existing.map Prod.fst := by
  intro regs
  induction regs with
  | nil => intro bs seen _ e he; exact Or.inr (List.mem_map.mpr ⟨e, he, rfl⟩)
  | cons r rest ih =>
    intro bs seen hcl e he
    have hne := hcl r (List.mem_cons_self _ _)
    have hcl2 := fun r2 h2 => hcl r2 (List.mem_cons_of_mem _ h2)
    simp only [List.foldl_cons] at he
    by_cases hex : pyStrip r.url ∈ ex
    · rw [processReg_skip_of_ex true lu ex bs seen r hne hex] at he
      exact ih { bs with scraped_urls := addToSet (pyStrip r.url) bs.scraped_urls }
        seen hcl2 e he
    · by_cases hseen : pyStrip r.url ∈ seen
      · rw [processReg_skip_of_seen true lu ex bs seen r hne hex hseen] at he
        exact ih { bs with scraped_urls := addToSet (pyStrip r.url) bs.scraped_urls }
          seen hcl2 e he
      · rw [processReg_emit_true lu ex bs seen r hne hex hseen] at he
        rcases ih { bs with
            scraped_urls := addToSet (pyStrip r.url) bs.scraped_urls,
            regs_to_insert_under_existing :=
              dictUpd bs.regs_to_insert_under_existing lu []
                (fun l => l ++ [⟨true, r.title, r.date, pyStrip r.url⟩]) }
          (addToSet (pyStrip r.url) seen) hcl2 e he with h1 | h2
        · exact Or.inl h1
        · obtain ⟨pr2, hpr2, hpr2e⟩ := List.mem_map.mp h2
          rcases dictUpd_mem_fst bs.regs_to_insert_under_existing lu []
            (fun l => l ++ [⟨true, r.title, r.date, pyStrip r.url⟩]) pr2 hpr2 with h3 | h4
          · exact Or.inl (by rw [← hpr2e, h3])
          · exact Or.inr (by rw [← hpr2e]; exact h4)

theorem procRegs_dict_mono (lu : String) (ex : List String) :
    ∀ (regs : List RegDoc) (bs : BuildState) (seen : List String),
      (∀ r ∈ regs, pyStrip r.url ≠ "") →
      ∀ (k : String) (x : RowItem),
        x ∈ (dictGet bs.regs_to_insert_under_existing k).getD [] →
        x ∈ (dictGet ((regs.foldl (processReg true lu ex) (bs, seen)).1).regs_to_insert_under_existing
          k).getD [] := by
  intro regs
  induction regs with
  | nil => intro bs seen _ k x hx; exact hx
  | cons r rest ih =>
    intro bs seen hcl k x hx
    have hne := hcl r (List.mem_cons_self _ _)
    have hcl2 := fun r2 h2 => hcl r2 (List.mem_cons_of_mem _ h2)
    simp only [List.foldl_cons]
    by_cases hex : pyStrip r.url ∈ ex
    · rw [processReg_skip_of_ex true lu ex bs seen r hne hex]
      exact ih _ seen hcl2 k x hx
    · by_cases hseen : pyStrip r.url ∈ seen
      · rw [processReg_skip_of_seen true lu ex bs seen r hne hex hseen]
        exact ih _ seen hcl2 k x hx
      · rw [processReg_emit_true lu ex bs seen r hne hex hseen]
        refine ih _ _ hcl2 k x ?_
        by_cases hk : k = lu
        · subst hk
          rw [dictGet_dictUpd_self]
          simp only [Option.getD_some]
          exact List.mem_append_left _ hx
        · rw [dictGet_dictUpd_other _ _ _ _ _ hk]
          exact hx

theorem regItOK_mono {s s2 : List String} {it : RowItem}
    (h : regItOK s it) (hsub : ∀ u ∈ s, u ∈ s2) : regItOK s2 it :=
  ⟨h.1, h.2.1, h.2.2.1, hsub it.url h.2.2.2⟩

theorem headOK_mono {s s2 : List String} {it : RowItem}
    (h : headOK s it) (hsub : ∀ u ∈ s, u ∈ s2) : headOK s2 it :=
  ⟨h.1, h.2.1, h.2.2.1, h.2.2.2.1, h.2.2.2.2.1, hsub it.url h.2.2.2.2.2⟩

theorem procRegs_true_items (lu : String) (ex : List String) :
    ∀ (regs : List RegDoc) (bs : BuildState) (seen : List String),
      (∀ r ∈ regs, pyStrip r.url ≠ "") →
      ∀ (k : String) (it : RowItem),
        it ∈ (dictGet
          ((regs.foldl (processReg true lu ex) (bs, seen)).1).regs_to_insert_under_existing
          k).getD [] →
        it ∈ (dictGet bs.regs_to_insert_under_existing k).getD []
        ∨ regItOK ((regs.foldl (processReg true lu ex) (bs, seen)).1).scraped_urls it := by
  intro regs
  induction regs with
  | nil => intro bs seen _ k it hit; exact Or.inl hit
  | cons r rest ih =>
    intro bs seen hcl k it hit
    have hne := hcl r (List.mem_cons_self _ _)
    have hcl2 := fun r2 h2 => hcl r2 (List.mem_cons_of_mem _ h2)
    simp only [List.foldl_cons] at hit ⊢
    by_cases hex : pyStrip r.url ∈ ex
    · rw [processReg_skip_of_ex true lu ex bs seen r hne hex] at hit ⊢
      exact ih { bs with scraped_urls := addToSet (pyStrip r.url) bs.scraped_urls }
        seen hcl2 k it hit
    · by_cases hseen : pyStrip r.url ∈ seen
      · rw [processReg_skip_of_seen true lu ex bs seen r hne hex hseen] at hit ⊢
        exact ih { bs with scraped_urls := addToSet (pyStrip r.url) bs.scraped_urls }
          seen hcl2 k it hit
      · rw [processReg_emit_true lu ex bs seen r hne hex hseen] at hit ⊢
        rcases ih { bs with
            scraped_urls := addToSet (pyStrip r.url) bs.scraped_urls,
            regs_to_insert_under_existing :=
              dictUpd bs.regs_to_insert_under_existing lu []
                (fun l => l ++ [⟨true, r.title, r.date, pyStrip r.url⟩]) }
          (addToSet (pyStrip r.url) seen) hcl2 k it hit with h1 | h2
        · by_cases hk : k = lu
          · subst hk
            rw [dictGet_dictUpd_self] at h1
            simp only [Option.getD_some] at h1
            rcases List.mem_append.mp h1 with h3 | h4
            · exact Or.inl h3
            · rw [List.mem_singleton] at h4
              subst h4
              refine Or.inr ⟨rfl, hne, pyStrip_idem r.url, ?_⟩
              refine procRegs_scraped_mono true k ex rest _ _ hcl2 _ ?_
              exact addToSet_self _ _
          · rw [dictGet_dictUpd_other _ _ _ _ _ hk] at h1
            exact Or.inl h1
        · exact Or.inr h2

theorem procRegs_true_cover (lu : String) (ex : List String) :
    ∀ (regs : List RegDoc) (bs : BuildState) (seen : List String),
      (∀ r ∈ regs, pyStrip r.url ≠ "") →
      ∀ r ∈ regs,
        pyStrip r.url ∈ ex ∨ pyStrip r.url ∈ seen
        ∨ pyStrip r.url ∈ ((dictGet
            ((regs.foldl (processReg true lu ex) (bs, seen)).1).regs_to_insert_under_existing
            lu).getD []).map (fun it => it.url) := by
  intro regs
  induction regs with
  | nil => intro bs seen _ r hr; exact absurd hr (List.not_mem_nil _)
  | cons r0 rest ih =>
    intro bs seen hcl r hr
    have hne := hcl r0 (List.mem_cons_self _ _)
    have hcl2 := fun r2 h2 => hcl r2 (List.mem_cons_of_mem _ h2)
    simp only [List.foldl_cons]
    by_cases hex : pyStrip r0.url ∈ ex
    · rw [processReg_skip_of_ex true lu ex bs seen r0 hne hex]
      rcases List.mem_cons.mp hr with rfl | hr2
      · exact Or.inl hex
      · exact ih _ seen hcl2 r hr2
    · by_cases hseen : pyStrip r0.url ∈ seen
      · rw [processReg_skip_of_seen true lu ex bs seen r0 hne hex hseen]
        rcases List.mem_cons.mp hr with rfl | hr2
        · exact Or.inr (Or.inl hseen)
        · exact ih _ seen hcl2 r hr2
      · rw [processReg_emit_true lu ex bs seen r0 hne hex hseen]
        have hmem0 : pyStrip r0.url ∈ ((dictGet
            ((rest.foldl (processReg true lu ex)
              ({ bs with
                  scraped_urls := addToSet (pyStrip r0.url) bs.scraped_urls,
                  regs_to_insert_under_existing :=
                    dictUpd bs.regs_to_insert_under_existing lu []
                      (fun l => l ++ [⟨true, r0.title, r0.date, pyStrip r0.url⟩]) },
                addToSet (pyStrip r0.url) seen)).1).regs_to_insert_under_existing
            lu).getD []).map (fun it => it.url) := by
          refine List.mem_map.mpr ⟨⟨true, r0.title, r0.date, pyStrip r0.url⟩, ?_, rfl⟩
          refine procRegs_dict_mono lu ex rest _ _ hcl2 lu _ ?_
          rw [dictGet_dictUpd_self]
          simp only [Option.getD_some]
          exact List.mem_append_right _ (List.mem_singleton.mpr rfl)
        rcases List.mem_cons.mp hr with rfl | hr2
        · exact Or.inr (Or.inr hmem0)
        · rcases ih _ _ hcl2 r hr2 with h1 | h2 | h3
          · exact Or.inl h1
          · rcases (mem_addToSet_iff _ _ _).mp h2 with heq | h4
            · rw [heq]
              exact Or.inr (Or.inr hmem0)
            · exact Or.inr (Or.inl h4)
          · exact Or.inr (Or.inr h3)

theorem procRegs_false_out (lu : String) (ex : List String) :
    ∀ (regs : List RegDoc) (bs : BuildState) (seen : List String),
      (∀ r ∈ regs, pyStrip r.url ≠ "") →
      ∃ em : List RowItem,
        ((regs.foldl (processReg false lu ex) (bs, seen)).1).output_rows_to_append
          = bs.output_rows_to_append ++ em
        ∧ (∀ it ∈ em,
            regItOK ((regs.foldl (processReg false lu ex) (bs, seen)).1).scraped_urls it)
        ∧ ∀ r ∈ regs,
            pyStrip r.url ∈ ex ∨ pyStrip r.url ∈ seen
            ∨ pyStrip r.url ∈ em.map (fun it => it.url) := by
  intro regs
  induction regs with
  | nil =>
    intro bs seen _
    exact ⟨[], (List.append_nil _).symm, fun it h => absurd h (List.not_mem_nil _),
      fun r hr => absurd hr (List.not_mem_nil _)⟩
  | cons r0 rest ih =>
    intro bs seen hcl
    have hne := hcl r0 (List.mem_cons_self _ _)
    have hcl2 := fun r2 h2 => hcl r2 (List.mem_cons_of_mem _ h2)
    simp only [List.foldl_cons]
    by_cases hex : pyStrip r0.url ∈ ex
    · rw [processReg_skip_of_ex false lu ex bs seen r0 hne hex]
      obtain ⟨em, he1, he2, he3⟩ := ih
        { bs with scraped_urls := addToSet (pyStrip r0.url) bs.scraped_urls } seen hcl2
      refine ⟨em, he1, he2, ?_⟩
      intro r hr
      rcases List.mem_cons.mp hr with rfl | hr2
      · exact Or.inl hex
      · exact he3 r hr2
    · by_cases hseen : pyStrip r0.url ∈ seen
      · rw [processReg_skip_of_seen false lu ex bs seen r0 hne hex hseen]
        obtain ⟨em, he1, he2, he3⟩ := ih
          { bs with scraped_urls := addToSet (pyStrip r0.url) bs.scraped_urls } seen hcl2
        refine ⟨em, he1, he2, ?_⟩
        intro r hr
        rcases List.mem_cons.mp hr with rfl | hr2
        · exact Or.inr (Or.inl hseen)
        · exact he3 r hr2
      · rw [processReg_emit_false lu ex bs seen r0 hne hex hseen]
        obtain ⟨em, he1, he2, he3⟩ := ih
          { bs with
              scraped_urls := addToSet (pyStrip r0.url) bs.scraped_urls,
              output_rows_to_append := bs.output_rows_to_append
                ++ [⟨true, r0.title, r0.date, pyStrip r0.url⟩] }
          (addToSet (pyStrip r0.url) seen) hcl2
        refine ⟨⟨true, r0.title, r0.date, pyStrip r0.url⟩ :: em, ?_, ?_, ?_⟩
        · rw [he1]
          simp [List.append_assoc]
        · intro it hit
          rcases List.mem_cons.mp hit with rfl | h2
          · refine ⟨rfl, hne, pyStrip_idem r0.url, ?_⟩
            refine procRegs_scraped_mono false lu ex rest _ _ hcl2 _ ?_
            exact addToSet_self _ _
          · exact he2 it h2
        · intro r hr
          rcases List.mem_cons.mp hr with rfl | hr2
          · refine Or.inr (Or.inr ?_)
            exact List.mem_map.mpr ⟨_, List.mem_cons_self _ _, rfl⟩
          · rcases he3 r hr2 with h1 | h2 | h3
            · exact Or.inl h1
            · rcases (mem_addToSet_iff _ _ _).mp h2 with heq | h4
              · rw [heq]
                refine Or.inr (Or.inr ?_)
                exact List.mem_map.mpr ⟨_, List.mem_cons_self _ _, rfl⟩
              · exact Or.inr (Or.inl h4)
            · refine Or.inr (Or.inr ?_)
              obtain ⟨it, hi1, hi2⟩ := List.mem_map.mp h3
              exact List.mem_map.mpr ⟨it, List.mem_cons_of_mem _ hi1, hi2⟩

theorem procRegs_scraped_eq (lie : Bool) (lu : String) (ex : List String) :
    ∀ (regs : List RegDoc) (bs : BuildState) (seen : List String),
      (∀ r ∈ regs, pyStrip r.url ≠ "") →
      ((regs.foldl (processReg lie lu ex) (bs, seen)).1).scraped_urls
        = regs.foldl (fun a r => addToSet (pyStrip r.url) a) bs.scraped_urls := by
  intro regs
  induction regs with
  | nil => intro bs seen _; rfl
  | cons r rest ih =>
    intro bs seen hcl
    have hne := hcl r (List.mem_cons_self _ _)
    have hcl2 := fun r2 h2 => hcl r2 (List.mem_cons_of_mem _ h2)
    simp only [List.foldl_cons]
    by_cases hex : pyStrip r.url ∈ ex
    · rw [processReg_skip_of_ex lie lu ex bs seen r hne hex]
      exact ih _ seen hcl2
    · by_cases hseen : pyStrip r.url ∈ seen
      · rw [processReg_skip_of_seen lie lu ex bs seen r hne hex hseen]
        exact ih _ seen hcl2
      · cases lie with
        | true =>
          rw [processReg_emit_true lu ex bs seen r hne hex hseen]
          exact ih _ _ hcl2
        | false =>
          rw [processReg_emit_false lu ex bs seen r hne hex hseen]
          exact ih _ _ hcl2

/-! ## One kept law, case by case -/

theorem processLaw_exist (ctx : LedgerContext) (rm : List (String × List RegDoc))
    (bs : BuildState) (law : LawDoc)
    (hd : law.date ≠ "") (hu : pyStrip law.url ≠ "")
    (hpair : (law.date, pyStrip law.url) ∈ bs.primary_pairs) :
    processLaw ctx rm bs law
      = ((regsForLaw rm law).foldl
          (processReg true (pyStrip law.url)
            ((dictGet ctx.regs_under_primary (some (pyStrip law.url))).getD []))
          ({ bs with scraped_urls := addToSet (pyStrip law.url) bs.scraped_urls },
           [])).1 := by
  unfold processLaw
  dsimp only
  rw [if_pos hu]
  have hlie : (law.date ≠ "" && pyStrip law.url ≠ ""
      && decide ((law.date, pyStrip law.url) ∈ bs.primary_pairs)) = true := by
    simp [hd, hu, hpair]
  rw [hlie, if_neg (by decide)]
  rfl

theorem processLaw_notexist (ctx : LedgerContext) (rm : List (String × List RegDoc))
    (bs : BuildState) (law : LawDoc)
    (hd : law.date ≠ "") (hu : pyStrip law.url ≠ "")
    (hpair : (law.date, pyStrip law.url) ∉ bs.primary_pairs) :
    processLaw ctx rm bs law
      = ((regsForLaw rm law).foldl
          (processReg false (pyStrip law.url)
            ((dictGet ctx.regs_under_primary (some (pyStrip law.url))).getD []))
          ({ bs with
              scraped_urls := addToSet (pyStrip law.url) bs.scraped_urls,
              output_rows_to_append := bs.output_rows_to_append
                ++ [(⟨false, law.title, law.date, pyStrip law.url⟩ : RowItem)],
              ambiguous_positions_new :=
                if law.status = "ambiguous" then
                  bs.ambiguous_positions_new
                    ++ [(bs.output_rows_to_append
                        ++ [(⟨false, law.title, law.date, pyStrip law.url⟩ : RowItem)]).length - 1]
                else bs.ambiguous_positions_new,
              primary_pairs :=
                addToSet (law.date, pyStrip law.url) bs.primary_pairs },
           [])).1 := by
  unfold processLaw
  dsimp only
  rw [if_pos hu]
  have hlie : (law.date ≠ "" && pyStrip law.url ≠ ""
      && decide ((law.date, pyStrip law.url) ∈ bs.primary_pairs)) = false := by
    simp [hpair]
  rw [hlie, if_pos (by decide)]
  rw [if_pos (show (decide (law.date ≠ "") && decide (pyStrip law.url ≠ "")) = true by
    simp [hd, hu])]
  rfl

/-! ## Flattened group structure of the append block -/

theorem flatG_out (X : List RowItem) :
    ∀ G : List (RowItem × List RowItem),
      G.foldr (fun g acc => g.1 :: g.2 ++ acc) X = flatG G ++ X := by
  intro G
  induction G with
  | nil => rfl
  | cons g Gs ih =>
    have h1 : (g :: Gs).foldr (fun g acc => g.1 :: g.2 ++ acc) X
        = g.1 :: g.2 ++ Gs.foldr (fun g acc => g.1 :: g.2 ++ acc) X := rfl
    have h2 : flatG (g :: Gs) = g.1 :: g.2 ++ flatG Gs := rfl
    rw [h1, h2, ih]
    simp [List.append_assoc]

theorem flatG_append_single (G : List (RowItem × List RowItem)) (h : RowItem)
    (em : List RowItem) :
    flatG (G ++ [(h, em)]) = flatG G ++ h :: em := by
  rw [flatG, List.foldr_append]
  rw [show List.foldr (fun g acc => g.1 :: g.2 ++ acc) [] [(h, em)] = h :: em by
    simp [List.foldr]]
  exact flatG_out (h :: em) G

/-! ## Facts carried across one processed law -/

theorem processLaw_exist_facts (ctx : LedgerContext) (rm : List (String × List RegDoc))
    (bs : BuildState) (G : List (RowItem × List RowItem)) (l : LawDoc)
    (hd : l.date ≠ "") (hu : pyStrip l.url ≠ "")
    (hregne : ∀ r ∈ regsForLaw rm l, pyStrip r.url ≠ "")
    (hpair : (l.date, pyStrip l.url) ∈ bs.primary_pairs)
    (hctxpair : (l.date, pyStrip l.url) ∈ ctx.primary_pairs)
    (hbf : buildFacts ctx bs G) :
    buildFacts ctx (processLaw ctx rm bs l) G
    ∧ (processLaw ctx rm bs l).primary_pairs = bs.primary_pairs
    ∧ (∀ u ∈ bs.scraped_urls, u ∈ (processLaw ctx rm bs l).scraped_urls)
    ∧ (∀ (k : String) (x : RowItem),
        x ∈ (dictGet bs.regs_to_insert_under_existing k).getD [] →
        x ∈ (dictGet (processLaw ctx rm bs l).regs_to_insert_under_existing k).getD [])
    ∧ lawHandled ctx (processLaw ctx rm bs l) G rm l := by
  rw [processLaw_exist ctx rm bs l hd hu hpair]
  refine ⟨⟨?_, ?_, ?_, ?_⟩, ?_, ?_, ?_, ?_⟩
  · exact (procRegs_out_true _ _ _ _ _ hregne).trans hbf.1
  · intro g hg
    refine ⟨headOK_mono (hbf.2.1 g hg).1 (fun u hu2 =>
        procRegs_scraped_mono true _ _ _ _ _ hregne u (addToSet_mono u _ _ hu2)),
      fun it hit => regItOK_mono ((hbf.2.1 g hg).2 it hit) (fun u hu2 =>
        procRegs_scraped_mono true _ _ _ _ _ hregne u (addToSet_mono u _ _ hu2))⟩
  · intro e he
    rcases procRegs_dict_keys _ _ _ _ _ hregne e he with h1 | h2
    · exact ⟨l.date, by rw [h1]; exact hctxpair⟩
    · obtain ⟨e2, he2, heq⟩ := List.mem_map.mp h2
      obtain ⟨d2, hd2⟩ := hbf.2.2.1 e2 he2
      exact ⟨d2, by rw [← heq]; exact hd2⟩
  · intro k it hit
    rcases procRegs_true_items _ _ _ _ _ hregne k it hit with h1 | h2
    · exact regItOK_mono (hbf.2.2.2 k it h1) (fun u hu2 =>
        procRegs_scraped_mono true _ _ _ _ _ hregne u (addToSet_mono u _ _ hu2))
    · exact h2
  · exact procRegs_pairs true _ _ _ _ _ hregne
  · exact fun u hu2 =>
      procRegs_scraped_mono true _ _ _ _ _ hregne u (addToSet_mono u _ _ hu2)
  · exact fun k x hx => procRegs_dict_mono _ _ _ _ _ hregne k x hx
  · refine ⟨Or.inl hctxpair, ?_⟩
    intro r hr
    rcases procRegs_true_cover (pyStrip l.url)
        ((dictGet ctx.regs_under_primary (some (pyStrip l.url))).getD [])
        (regsForLaw rm l)
        { bs with scraped_urls := addToSet (pyStrip l.url) bs.scraped_urls }
        [] hregne r hr with h1 | h2 | h3
    · exact Or.inl h1
    · exact absurd h2 (List.not_mem_nil _)
    · exact Or.inr (Or.inr h3)

theorem processLaw_notexist_facts (ctx : LedgerContext)
    (rm : List (String × List RegDoc))
    (bs : BuildState) (G : List (RowItem × List RowItem)) (l : LawDoc)
    (hd : l.date ≠ "") (hdfix : pyStrip l.date = l.date) (hu : pyStrip l.url ≠ "")
    (hregne : ∀ r ∈ regsForLaw rm l, pyStrip r.url ≠ "")
    (hpair : (l.date, pyStrip l.url) ∉ bs.primary_pairs)
    (hbf : buildFacts ctx bs G) :
    ∃ em : List RowItem,
      buildFacts ctx (processLaw ctx rm bs l)
        (G ++ [(⟨false, l.title, l.date, pyStrip l.url⟩, em)])
      ∧ (processLaw ctx rm bs l).primary_pairs
          = addToSet (l.date, pyStrip l.url) bs.primary_pairs
      ∧ (∀ u ∈ bs.scraped_urls, u ∈ (processLaw ctx rm bs l).scraped_urls)
      ∧ (∀ (k : String) (x : RowItem),
          x ∈ (dictGet bs.regs_to_insert_under_existing k).getD [] →
          x ∈ (dictGet (processLaw ctx rm bs l).regs_to_insert_under_existing k).getD [])
      ∧ lawHandled ctx (processLaw ctx rm bs l)
          (G ++ [(⟨false, l.title, l.date, pyStrip l.url⟩, em)]) rm l := by
  rw [processLaw_notexist ctx rm bs l hd hu hpair]
  obtain ⟨em, he1, he2, he3⟩ := procRegs_false_out (pyStrip l.url)
    ((dictGet ctx.regs_under_primary (some (pyStrip l.url))).getD [])
    (regsForLaw rm l)
    { bs with
        scraped_urls := addToSet (pyStrip l.url) bs.scraped_urls,
        output_rows_to_append := bs.output_rows_to_append
          ++ [(⟨false, l.title, l.date, pyStrip l.url⟩ : RowItem)],
        ambiguous_positions_new :=
          if l.status = "ambiguous" then
            bs.ambiguous_positions_new
              ++ [(bs.output_rows_to_append
                  ++ [(⟨false, l.title, l.date, pyStrip l.url⟩ : RowItem)]).length - 1]
          else bs.ambiguous_positions_new,
        primary_pairs := addToSet (l.date, pyStrip l.url) bs.primary_pairs }
    [] hregne
  refine ⟨em, ⟨?_, ?_, ?_, ?_⟩, ?_, ?_, ?_, ?_⟩
  · rw [flatG_append_single, he1]
    show (bs.output_rows_to_append
        ++ [(⟨false, l.title, l.date, pyStrip l.url⟩ : RowItem)]) ++ em
      = flatG G ++ (⟨false, l.title, l.date, pyStrip l.url⟩ : RowItem) :: em
    rw [hbf.1]
    simp [List.append_assoc]
  · intro g hg
    rcases List.mem_append.mp hg with hgG | hgN
    · refine ⟨headOK_mono (hbf.2.1 g hgG).1 (fun u hu2 =>
          procRegs_scraped_mono false _ _ _ _ _ hregne u (addToSet_mono u _ _ hu2)),
        fun it hit => regItOK_mono ((hbf.2.1 g hgG).2 it hit) (fun u hu2 =>
          procRegs_scraped_mono false _ _ _ _ _ hregne u (addToSet_mono u _ _ hu2))⟩
    · rw [List.mem_singleton] at hgN
      subst hgN
      refine ⟨⟨rfl, hd, hdfix, hu, pyStrip_idem l.url, ?_⟩, fun it hit => he2 it hit⟩
      exact procRegs_scraped_mono false _ _ _ _ _ hregne _ (addToSet_self _ _)
  · intro e he
    rw [procRegs_dict_false _ _ _ _ _ hregne] at he
    exact hbf.2.2.1 e he
  · intro k it hit
    rw [procRegs_dict_false _ _ _ _ _ hregne] at hit
    exact regItOK_mono (hbf.2.2.2 k it hit) (fun u hu2 =>
      procRegs_scraped_mono false _ _ _ _ _ hregne u (addToSet_mono u _ _ hu2))
  · exact procRegs_pairs false _ _ _ _ _ hregne
  · exact fun u hu2 =>
      procRegs_scraped_mono false _ _ _ _ _ hregne u (addToSet_mono u _ _ hu2)
  · intro k x hx
    rw [procRegs_dict_false _ _ _ _ _ hregne]
    exact hx
  · refine ⟨Or.inr ⟨(⟨false, l.title, l.date, pyStrip l.url⟩, em),
      List.mem_append_right _ (List.mem_singleton.mpr rfl), rfl⟩, ?_⟩
    intro r hr
    rcases he3 r hr with h1 | h2 | h3
    · exact Or.inl h1
    · exact absurd h2 (List.not_mem_nil _)
    · exact Or.inr (Or.inl ⟨(⟨false, l.title, l.date, pyStrip l.url⟩, em),
        List.mem_append_right _ (List.mem_singleton.mpr rfl), rfl, h3⟩)

/-! ## The whole kept-law loop -/

theorem processLaw_fold_facts (ctx : LedgerContext)
    (rm : List (String × List RegDoc)) :
    ∀ (laws : List LawDoc) (bs : BuildState) (G : List (RowItem × List RowItem)),
      (∀ l ∈ laws, cleanLaw l ∧ ∀ r ∈ regsForLaw rm l, cleanReg r) →
      laws.Pairwise (fun a b => (a.date, pyStrip a.url) ≠ (b.date, pyStrip b.url)) →
      buildFacts ctx bs G →
      (∀ pr ∈ bs.primary_pairs,
        pr ∈ ctx.primary_pairs ∨ ∃ g ∈ G, pr = (g.1.date, g.1.url)) →
      (∀ l ∈ laws, ∀ g ∈ G, (l.date, pyStrip l.url) ≠ (g.1.date, g.1.url)) →
      ∃ G2 : List (RowItem × List RowItem),
        buildFacts ctx (laws.foldl (processLaw ctx rm) bs) G2
        ∧ (∀ pr ∈ (laws.foldl (processLaw ctx rm) bs).primary_pairs,
            pr ∈ ctx.primary_pairs ∨ ∃ g ∈ G2, pr = (g.1.date, g.1.url))
        ∧ (∀ g ∈ G, g ∈ G2)
        ∧ (∀ u ∈ bs.scraped_urls, u ∈ (laws.foldl (processLaw ctx rm) bs).scraped_urls)
        ∧ (∀ (k : String) (x : RowItem),
            x ∈ (dictGet bs.regs_to_insert_under_existing k).getD [] →
            x ∈ (dictGet (laws.foldl (processLaw ctx rm)
                bs).regs_to_insert_under_existing k).getD [])
        ∧ ∀ l ∈ laws, lawHandled ctx (laws.foldl (processLaw ctx rm) bs) G2 rm l := by
  intro laws
  induction laws with
  | nil =>
    intro bs G _ _ hbf hpp _
    exact ⟨G, hbf, hpp, fun g hg => hg, fun u hu => hu, fun k x hx => hx,
      fun l hl => absurd hl (List.not_mem_nil _)⟩
  | cons l rest ih =>
    intro bs G hclean hpw hbf hpp hdist
    obtain ⟨⟨hd, hdfix, hu⟩, hregc⟩ := hclean l (List.mem_cons_self _ _)
    have hregne : ∀ r ∈ regsForLaw rm l, pyStrip r.url ≠ "" := hregc
    have hclean2 : ∀ l2 ∈ rest, cleanLaw l2 ∧ ∀ r ∈ regsForLaw rm l2, cleanReg r :=
      fun l2 h2 => hclean l2 (List.mem_cons_of_mem _ h2)
    have hpwrest := (List.pairwise_cons.mp hpw).2
    have hheadne := (List.pairwise_cons.mp hpw).1
    simp only [List.foldl_cons]
    by_cases hpair : (l.date, pyStrip l.url) ∈ bs.primary_pairs
    · have hctxpair : (l.date, pyStrip l.url) ∈ ctx.primary_pairs := by
        rcases hpp _ hpair with h1 | ⟨g, hg, he⟩
        · exact h1
        · exact absurd he (hdist l (List.mem_cons_self _ _) g hg)
      obtain ⟨hbf1, hpairs1, hscr1, hdict1, hhand1⟩ :=
        processLaw_exist_facts ctx rm bs G l hd hu hregne hpair hctxpair hbf
      obtain ⟨G2, hbf2, hpp2, hGsub2, hscr2, hdict2, hhand2⟩ :=
        ih (processLaw ctx rm bs l) G hclean2 hpwrest hbf1
          (by rw [hpairs1]; exact hpp)
          (fun l2 h2 g hg => hdist l2 (List.mem_cons_of_mem _ h2) g hg)
      refine ⟨G2, hbf2, hpp2, hGsub2, ?_, ?_, ?_⟩
      · exact fun u hu2 => hscr2 u (hscr1 u hu2)
      · exact fun k x hx => hdict2 k x (hdict1 k x hx)
      · intro l2 hl2
        rcases List.mem_cons.mp hl2 with rfl | h2
        · obtain ⟨hpo, hcov⟩ := hhand1
          refine ⟨?_, ?_⟩
          · rcases hpo with h | ⟨g, hg, he⟩
            · exact Or.inl h
            · exact Or.inr ⟨g, hGsub2 g hg, he⟩
          · intro r hr
            rcases hcov r hr with h | ⟨g, hg, he1a, he1b⟩ | h
            · exact Or.inl h
            · exact Or.inr (Or.inl ⟨g, hGsub2 g hg, he1a, he1b⟩)
            · obtain ⟨it, hit, hite⟩ := List.mem_map.mp h
              exact Or.inr (Or.inr (List.mem_map.mpr ⟨it, hdict2 _ it hit, hite⟩))
        · exact hhand2 l2 h2
    · obtain ⟨em, hbf1, hpairs1, hscr1, hdict1, hhand1⟩ :=
        processLaw_notexist_facts ctx rm bs G l hd hdfix hu hregne hpair hbf
      have hdist2 : ∀ l2 ∈ rest,
          ∀ g ∈ G ++ [((⟨false, l.title, l.date, pyStrip l.url⟩ : RowItem), em)],
            (l2.date, pyStrip l2.url) ≠ (g.1.date, g.1.url) := by
        intro l2 h2 g hg
        rcases List.mem_append.mp hg with hgG | hgN
        · exact hdist l2 (List.mem_cons_of_mem _ h2) g hgG
        · rw [List.mem_singleton] at hgN
          subst hgN
          intro he
          exact hheadne l2 h2 he.symm
      have hpp1 : ∀ pr ∈ (processLaw ctx rm bs l).primary_pairs,
          pr ∈ ctx.primary_pairs
          ∨ ∃ g ∈ G ++ [((⟨false, l.title, l.date, pyStrip l.url⟩ : RowItem), em)],
              pr = (g.1.date, g.1.url) := by
        intro pr hpr
        rw [hpairs1] at hpr
        rcases (mem_addToSet_iff _ _ _).mp hpr with heq | h2
        · exact Or.inr ⟨((⟨false, l.title, l.date, pyStrip l.url⟩ : RowItem), em),
            List.mem_append_right _ (List.mem_singleton.mpr rfl), heq⟩
        · rcases hpp pr h2 with h3 | ⟨g, hg, he⟩
          · exact Or.inl h3
          · exact Or.inr ⟨g, List.mem_append_left _ hg, he⟩
      obtain ⟨G2, hbf2, hpp2, hGsub2, hscr2, hdict2, hhand2⟩ :=
        ih (processLaw ctx rm bs l)
          (G ++ [((⟨false, l.title, l.date, pyStrip l.url⟩ : RowItem), em)])
          hclean2 hpwrest hbf1 hpp1 hdist2
      refine ⟨G2, hbf2, hpp2, ?_, ?_, ?_, ?_⟩
      · exact fun g hg => hGsub2 g (List.mem_append_left _ hg)
      · exact fun u hu2 => hscr2 u (hscr1 u hu2)
      · exact fun k x hx => hdict2 k x (hdict1 k x hx)
      · intro l2 hl2
        rcases List.mem_cons.mp hl2 with rfl | h2
        · obtain ⟨hpo, hcov⟩ := hhand1
          refine ⟨?_, ?_⟩
          · rcases hpo with h | ⟨g, hg, he⟩
            · exact Or.inl h
            · exact Or.inr ⟨g, hGsub2 g hg, he⟩
          · intro r hr
            rcases hcov r hr with h | ⟨g, hg, he1a, he1b⟩ | h
            · exact Or.inl h
            · exact Or.inr (Or.inl ⟨g, hGsub2 g hg, he1a, he1b⟩)
            · obtain ⟨it, hit, hite⟩ := List.mem_map.mp h
              exact Or.inr (Or.inr (List.mem_map.mpr ⟨it, hdict2 _ it hit, hite⟩))
        · exact hhand2 l2 h2

/-! ## The scraped-url set of a run is context independent -/

theorem processLaw_scraped_eq (ctx : LedgerContext) (rm : List (String × List RegDoc))
    (bs : BuildState) (l : LawDoc) (hu : pyStrip l.url ≠ "")
    (hregne : ∀ r ∈ regsForLaw rm l, pyStrip r.url ≠ "") :
    (processLaw ctx rm bs l).scraped_urls
      = (regsForLaw rm l).foldl (fun a r => addToSet (pyStrip r.url) a)
          (addToSet (pyStrip l.url) bs.scraped_urls) := by
  unfold processLaw
  dsimp only
  rw [if_pos hu]
  refine (procRegs_scraped_eq _ _ _ _ _ _ hregne).trans ?_
  congr 1
  split
  · rfl
  · rfl

theorem foldl_processLaw_scraped_eq (ctx1 ctx2 : LedgerContext)
    (rm : List (String × List RegDoc)) :
    ∀ (laws : List LawDoc) (bs1 bs2 : BuildState),
      (∀ l ∈ laws, cleanLaw l ∧ ∀ r ∈ regsForLaw rm l, cleanReg r) →
      bs1.scraped_urls = bs2.scraped_urls →
      (laws.foldl (processLaw ctx1 rm) bs1).scraped_urls
        = (laws.foldl (processLaw ctx2 rm) bs2).scraped_urls := by
  intro laws
  induction laws with
  | nil => intro bs1 bs2 _ h; exact h
  | cons l rest ih =>
    intro bs1 bs2 hclean h
    obtain ⟨⟨_, _, hu⟩, hregc⟩ := hclean l (List.mem_cons_self _ _)
    have hregne : ∀ r ∈ regsForLaw rm l, pyStrip r.url ≠ "" := hregc
    have hclean2 : ∀ l2 ∈ rest, cleanLaw l2 ∧ ∀ r ∈ regsForLaw rm l2, cleanReg r :=
      fun l2 h2 => hclean l2 (List.mem_cons_of_mem _ h2)
    simp only [List.foldl_cons]
    refine ih _ _ hclean2 ?_
    rw [processLaw_scraped_eq ctx1 rm bs1 l hu hregne,
      processLaw_scraped_eq ctx2 rm bs2 l hu hregne, h]

/-! ## Small list and dictionary helpers for the idempotence argument -/

theorem getD_append_right {α : Type} (A B : List α) (j : Nat) (d : α) :
    (A ++ B).getD (A.length + j) d = B.getD j d := by
  rw [List.getD_eq_getElem?_getD, List.getD_eq_getElem?_getD,
    List.getElem?_append_right (by omega),
    show A.length + j - A.length = j by omega]

theorem getLastD_append_single {α : Type} :
    ∀ (l : List α) (x d : α), ((l ++ [x]).getLast?).getD d = x := by
  intro l
  induction l with
  | nil => intro x d; rfl
  | cons a as ih =>
    intro x d
    rw [List.cons_append, getLastD_cons]
    exact ih x a

theorem rowsFrom_bounds :
    ∀ (Y : List SheetRow) (r : Nat) (e : Nat × SheetRow),
      e ∈ rowsFrom r Y → r ≤ e.1 ∧ e.1 < r + Y.length := by
  intro Y
  induction Y with
  | nil => intro r e he; exact absurd he (List.not_mem_nil _)
  | cons y ys ih =>
    intro r e he
    rw [show rowsFrom r (y :: ys) = (r, y) :: rowsFrom (r + 1) ys from rfl] at he
    rcases List.mem_cons.mp he with rfl | h2
    · simp
    · have := ih (r + 1) e h2
      constructor
      · omega
      · rw [List.length_cons]
        omega

theorem rowsFrom_pairwise :
    ∀ (Y : List SheetRow) (r : Nat),
      List.Pairwise (fun a b : Nat × SheetRow => a.1 < b.1) (rowsFrom r Y) := by
  intro Y
  induction Y with
  | nil => intro r; exact List.Pairwise.nil
  | cons y ys ih =>
    intro r
    rw [show rowsFrom r (y :: ys) = (r, y) :: rowsFrom (r + 1) ys from rfl]
    refine List.Pairwise.cons ?_ (ih (r + 1))
    intro e he
    have := rowsFrom_bounds ys (r + 1) e he
    dsimp only
    omega

theorem flatG_eq_nil {G : List (RowItem × List RowItem)} (h : flatG G = []) :
    G = [] := by
  cases G with
  | nil => rfl
  | cons g Gs =>
    exact absurd h (by rw [show flatG (g :: Gs) = g.1 :: (g.2 ++ flatG Gs) from rfl]; simp)

theorem stale_filter_map (scr : List String) :
    ∀ l : List (Nat × String),
      ((l.filter (fun p => p.2 ≠ "" && !(scr.contains p.2))).map (fun p => p.2))
        = (l.map (fun p => p.2)).filter (urlKeep scr) := by
  intro l
  induction l with
  | nil => rfl
  | cons x xs ih =>
    simp only [List.map_cons, List.filter_cons]
    by_cases h : (decide (x.2 ≠ "") && !scr.contains x.2) = true
    · rw [if_pos h, if_pos (show urlKeep scr x.2 = true from h), List.map_cons, ih]
    · rw [if_neg h, if_neg (show ¬ urlKeep scr x.2 = true from h), ih]

theorem blocksfold_mem (blocks : List PrimaryBlock) :
    ∀ (dict : List (String × List RowItem))
      (acc : List RowItem × List (Nat × String × List RowItem)),
      ∀ t ∈ (dict.foldl (fun acc kv =>
          match lookupBlock blocks kv.1 with
          | none => (acc.1 ++ kv.2, acc.2)
          | some block => (acc.1, acc.2 ++ [(block.end_row + 1, kv.1, kv.2)])) acc).2,
        t.2 ∈ dict ∨ t ∈ acc.2 := by
  intro dict
  induction dict with
  | nil => intro acc t ht; exact Or.inr ht
  | cons kv rest ih =>
    intro acc t ht
    rw [List.foldl_cons] at ht
    rcases hlb : lookupBlock blocks kv.1 with _ | b
    · simp only [hlb] at ht
      rcases ih (acc.1 ++ kv.2, acc.2) t ht with h1 | h2
      · exact Or.inl (List.mem_cons_of_mem _ h1)
      · exact Or.inr h2
    · simp only [hlb] at ht
      rcases ih (acc.1, acc.2 ++ [(b.end_row + 1, kv.1, kv.2)]) t ht with h1 | h2
      · exact Or.inl (List.mem_cons_of_mem _ h1)
      · rcases List.mem_append.mp h2 with h3 | h4
        · exact Or.inr h3
        · rw [List.mem_singleton] at h4
          subst h4
          exact Or.inl (List.mem_cons_self _ _)

theorem blocksfold_nil_left (blocks : List PrimaryBlock) :
    ∀ (dict : List (String × List RowItem))
      (acc : List RowItem × List (Nat × String × List RowItem)),
      (∀ kv ∈ dict, ∃ b, lookupBlock blocks kv.1 = some b) →
      (dict.foldl (fun acc kv =>
          match lookupBlock blocks kv.1 with
          | none => (acc.1 ++ kv.2, acc.2)
          | some block => (acc.1, acc.2 ++ [(block.end_row + 1, kv.1, kv.2)])) acc).1
        = acc.1 := by
  intro dict
  induction dict with
  | nil => intro acc _; rfl
  | cons kv rest ih =>
    intro acc hall
    rw [List.foldl_cons]
    obtain ⟨b, hb⟩ := hall kv (List.mem_cons_self _ _)
    rw [hb]
    exact ih _ (fun kv2 h2 => hall kv2 (List.mem_cons_of_mem _ h2))

theorem dictGet_mem_nodup {κ α : Type} [DecidableEq κ] :
    ∀ (d : List (κ × α)) (e : κ × α),
      List.Pairwise (fun a b : κ × α => a.1 ≠ b.1) d → e ∈ d →
      dictGet d e.1 = some e.2 := by
  intro d
  induction d with
  | nil => intro e _ he; exact absurd he (List.not_mem_nil _)
  | cons kv rest ih =>
    intro e hp he
    rcases List.mem_cons.mp he with rfl | h2
    · show (if e.1 = e.1 then some e.2 else dictGet rest e.1) = some e.2
      rw [if_pos rfl]
    · have hne : kv.1 ≠ e.1 := List.rel_of_pairwise_cons hp h2
      show (if e.1 = kv.1 then some kv.2 else dictGet rest e.1) = some e.2
      rw [if_neg (fun h => hne h.symm)]
      exact ih e (List.Pairwise.of_cons hp) h2

theorem buildBlocks_bounds (last : Nat) :
    ∀ (pr : List (Option String × Nat)),
      List.Pairwise (fun a b : Option String × Nat => a.2 < b.2) pr →
      (∀ e ∈ pr, 3 ≤ e.2 ∧ e.2 ≤ last) →
      ∀ b ∈ buildBlocks last pr,
        3 ≤ b.row ∧ b.row ≤ b.end_row ∧ b.end_row ≤ last := by
  intro pr
  induction pr with
  | nil => intro _ _ b hb; exact absurd hb (List.not_mem_nil _)
  | cons x rest ih =>
    obtain ⟨u, rr⟩ := x
    intro hp hbd b hb
    cases rest with
    | nil =>
      simp only [buildBlocks, List.mem_singleton] at hb
      subst hb
      have := hbd (u, rr) (List.mem_cons_self _ _)
      dsimp only at this ⊢
      omega
    | cons x2 rest2 =>
      obtain ⟨u2, r2⟩ := x2
      simp only [buildBlocks] at hb
      have hrr2 : rr < r2 := List.rel_of_pairwise_cons hp (List.mem_cons_self _ _)
      rcases List.mem_cons.mp hb with hb1 | hb2
      · subst hb1
        have h1 := hbd (u, rr) (List.mem_cons_self _ _)
        have h2 := hbd (u2, r2) (List.mem_cons_of_mem _ (List.mem_cons_self _ _))
        dsimp only at h1 h2 ⊢
        omega
      · exact ih (List.Pairwise.of_cons hp)
          (fun e he => hbd e (List.mem_cons_of_mem _ he)) b hb2

theorem rowUsed_blankRow : rowUsed blankRow = false := by decide

theorem mkRow_primary_prim (it : RowItem) (h : it.isReg = false) :
    pyLower (pyStrip (mkRow it).colM) = "primary" := by
  have hcol : (mkRow it).colM = "Primary" := by
    simp [mkRow, h]
  rw [hcol]
  decide

/-! ## Context and plan field characterisations -/

theorem read_initial_last_row (s : Sheet) :
    (read_existing_context s).initial_last_row = get_last_row s := by
  unfold read_existing_context
  dsimp only
  split
  · rfl
  · rfl

theorem read_blocks_bounds (s : Sheet) :
    ∀ b ∈ (read_existing_context s).primary_blocks,
      3 ≤ b.row ∧ b.row ≤ b.end_row ∧ b.end_row ≤ get_last_row s := by
  unfold read_existing_context
  dsimp only
  split
  · intro b hb
    exact absurd hb (List.not_mem_nil _)
  · rename_i hlast
    rw [foldl_scan_primrows]
    simp only [initScanState, List.nil_append]
    refine buildBlocks_bounds _ _ ?_ ?_
    · refine List.pairwise_map.mpr (List.Pairwise.filter _ (List.pairwise_map.mpr ?_))
      exact (pairwise_lt_range_one 3 _).imp (fun h => h)
    · intro p hp
      obtain ⟨q, hq, hqe⟩ := List.mem_map.mp hp
      obtain ⟨rn, hrn, hrne⟩ := List.mem_map.mp (List.mem_of_mem_filter hq)
      have hb := List.mem_range'_1.mp hrn
      rw [← hqe]
      dsimp only
      rw [← hrne]
      dsimp only
      omega

theorem plan_segs_field (ctx : LedgerContext) (laws : List LawDoc)
    (rm : List (String × List RegDoc)) :
    (plan_run ctx laws rm).segments_existing = planSegs ctx laws rm := rfl

theorem plan_ops_field (ctx : LedgerContext) (laws : List LawDoc)
    (rm : List (String × List RegDoc)) :
    (plan_run ctx laws rm).insert_ops_existing = segsOps (planSegs ctx laws rm) := by
  show (planFiltered ctx laws rm).map (fun t => (t.1, t.2.2.length))
    = segsOps (planSegs ctx laws rm)
  unfold segsOps planSegs
  rw [List.map_map]
  rfl

theorem plan_scraped_field (ctx : LedgerContext) (laws : List LawDoc)
    (rm : List (String × List RegDoc)) :
    (plan_run ctx laws rm).scraped_urls = (planBS ctx laws rm).scraped_urls := rfl

theorem plan_append_op_field (ctx : LedgerContext) (laws : List LawDoc)
    (rm : List (String × List RegDoc)) :
    (plan_run ctx laws rm).append_op
      = if (planOut ctx laws rm).length ≠ 0 then
          some ((if ctx.initial_last_row
              + (((planFiltered ctx laws rm).map (fun t => (t.1, t.2.2.length))).map
                  (fun op => op.2)).sum + 1 < 3 then 3
            else ctx.initial_last_row
              + (((planFiltered ctx laws rm).map (fun t => (t.1, t.2.2.length))).map
                  (fun op => op.2)).sum + 1),
            (planOut ctx laws rm).length)
        else none := rfl

theorem plan_sapp_field (ctx : LedgerContext) (laws : List LawDoc)
    (rm : List (String × List RegDoc)) :
    (plan_run ctx laws rm).segments_append
      = if (planOut ctx laws rm).length ≠ 0 then
          [((if ctx.initial_last_row
              + (((planFiltered ctx laws rm).map (fun t => (t.1, t.2.2.length))).map
                  (fun op => op.2)).sum + 1 < 3 then 3
            else ctx.initial_last_row
              + (((planFiltered ctx laws rm).map (fun t => (t.1, t.2.2.length))).map
                  (fun op => op.2)).sum + 1),
            planOut ctx laws rm)]
        else [] := rfl

theorem planFiltered_sum_eq (ctx : LedgerContext) (laws : List LawDoc)
    (rm : List (String × List RegDoc)) :
    (((planFiltered ctx laws rm).map (fun t => (t.1, t.2.2.length))).map
      (fun op => op.2)).sum
      = ((planSegs ctx laws rm).map (fun sg => sg.2.length)).sum := by
  unfold planSegs
  rw [List.map_map, List.map_map]
  rfl

theorem plan_append_op_char (ctx : LedgerContext) (laws : List LawDoc)
    (rm : List (String × List RegDoc)) (h2 : 2 ≤ ctx.initial_last_row) :
    (plan_run ctx laws rm).append_op
      = if (planOut ctx laws rm).length ≠ 0 then
          some (ctx.initial_last_row
            + ((planSegs ctx laws rm).map (fun sg => sg.2.length)).sum + 1,
            (planOut ctx laws rm).length)
        else none := by
  rw [plan_append_op_field, planFiltered_sum_eq]
  rw [if_neg (show ¬(ctx.initial_last_row
    + ((planSegs ctx laws rm).map (fun sg => sg.2.length)).sum + 1 < 3) by omega)]

theorem plan_sapp_char (ctx : LedgerContext) (laws : List LawDoc)
    (rm : List (String × List RegDoc)) (h2 : 2 ≤ ctx.initial_last_row) :
    (plan_run ctx laws rm).segments_append
      = if (planOut ctx laws rm).length ≠ 0 then
          [(ctx.initial_last_row
            + ((planSegs ctx laws rm).map (fun sg => sg.2.length)).sum + 1,
            planOut ctx laws rm)]
        else [] := by
  rw [plan_sapp_field, planFiltered_sum_eq]
  rw [if_neg (show ¬(ctx.initial_last_row
    + ((planSegs ctx laws rm).map (fun sg => sg.2.length)).sum + 1 < 3) by omega)]

/-! ## Membership of planned insert segments -/

theorem blocksfold_acc_mono (blocks : List PrimaryBlock) :
    ∀ (dict : List (String × List RowItem))
      (acc : List RowItem × List (Nat × String × List RowItem))
      (t : Nat × String × List RowItem), t ∈ acc.2 →
      t ∈ (dict.foldl (fun acc kv =>
          match lookupBlock blocks kv.1 with
          | none => (acc.1 ++ kv.2, acc.2)
          | some block => (acc.1, acc.2 ++ [(block.end_row + 1, kv.1, kv.2)])) acc).2 := by
  intro dict
  induction dict with
  | nil => intro acc t ht; exact ht
  | cons kv rest ih =>
    intro acc t ht
    rw [List.foldl_cons]
    rcases hlb : lookupBlock blocks kv.1 with _ | b
    · simp only [hlb]
      exact ih (acc.1 ++ kv.2, acc.2) t ht
    · simp only [hlb]
      exact ih (acc.1, acc.2 ++ [(b.end_row + 1, kv.1, kv.2)]) t
        (List.mem_append_left _ ht)

theorem blocksfold_entry (blocks : List PrimaryBlock) :
    ∀ (dict : List (String × List RowItem))
      (acc : List RowItem × List (Nat × String × List RowItem))
      (kv : String × List RowItem), kv ∈ dict →
      ∀ b, lookupBlock blocks kv.1 = some b →
      (b.end_row + 1, kv.1, kv.2) ∈ (dict.foldl (fun acc kv =>
          match lookupBlock blocks kv.1 with
          | none => (acc.1 ++ kv.2, acc.2)
          | some block => (acc.1, acc.2 ++ [(block.end_row + 1, kv.1, kv.2)])) acc).2 := by
  intro dict
  induction dict with
  | nil => intro acc kv hkv; exact absurd hkv (List.not_mem_nil _)
  | cons kv0 rest ih =>
    intro acc kv hkv b hb
    rw [List.foldl_cons]
    rcases List.mem_cons.mp hkv with rfl | h2
    · rw [hb]
      refine blocksfold_acc_mono blocks rest _ _ ?_
      exact List.mem_append_right _ (List.mem_singleton.mpr rfl)
    · rcases hlb : lookupBlock blocks kv0.1 with _ | b0
      · simp only [hlb]
        exact ih (acc.1 ++ kv0.2, acc.2) kv h2 b hb
      · simp only [hlb]
        exact ih (acc.1, acc.2 ++ [(b0.end_row + 1, kv0.1, kv0.2)]) kv h2 b hb

theorem plan_segs_facts (s : Sheet) (laws : List LawDoc)
    (rm : List (String × List RegDoc)) :
    List.Pairwise (fun a b : Nat × List RowItem => b.1 < a.1)
      (planSegs (read_existing_context s) laws rm)
    ∧ (∀ sg ∈ planSegs (read_existing_context s) laws rm,
        4 ≤ sg.1 ∧ sg.1 ≤ get_last_row s + 1)
    ∧ (∀ sg ∈ planSegs (read_existing_context s) laws rm, sg.2.length ≠ 0) := by
  have hshape := blocksfold_shape (read_existing_context s).primary_blocks
    ((planBS (read_existing_context s) laws rm).regs_to_insert_under_existing)
    ([], []) (by intro t ht; exact absurd ht (List.not_mem_nil _))
  have hkeys := blocksfold_keys_nodup (read_existing_context s).primary_blocks
    ((planBS (read_existing_context s) laws rm).regs_to_insert_under_existing)
    ([], [])
    (foldl_processLaw_regs_nodup (read_existing_context s) rm laws
      (initBuildState (read_existing_context s)) (by simp [initBuildState]))
    List.Pairwise.nil
    (by intro t ht; exact absurd ht (List.not_mem_nil _))
  have hends := read_blocks_ends_pairwise s
  have hposne : List.Pairwise
      (fun t t2 : Nat × String × List RowItem => t.1 ≠ t2.1)
      (planStep (read_existing_context s) laws rm).2 := by
    refine List.Pairwise.imp_of_mem ?_ hkeys
    intro a b ha hb hne
    obtain ⟨ba, hba, hpa⟩ := hshape a ha
    obtain ⟨bb, hbb, hpb⟩ := hshape b hb
    obtain ⟨hma, hua⟩ := lookupBlock_spec _ _ _ hba
    obtain ⟨hmb, hub⟩ := lookupBlock_spec _ _ _ hbb
    have hbane : ba ≠ bb := by
      intro hc
      rw [hc, hub] at hua
      injection hua with hv
      exact hne hv.symm
    have hendne : ba.end_row ≠ bb.end_row :=
      List.Pairwise.forall (fun {x y} h => Ne.symm h)
        (hends.imp (fun h => Nat.ne_of_lt h)) hma hmb hbane
    rw [hpa, hpb]
    omega
  have hsorted : List.Pairwise
      (fun a b : Nat × String × List RowItem => b.1 ≤ a.1)
      (sortDescBy (fun t : Nat × String × List RowItem => t.1)
        (planStep (read_existing_context s) laws rm).2) :=
    sortDescBy_sorted _ _
  have hsne : List.Pairwise
      (fun a b : Nat × String × List RowItem => a.1 ≠ b.1)
      (sortDescBy (fun t : Nat × String × List RowItem => t.1)
        (planStep (read_existing_context s) laws rm).2) :=
    (List.Perm.pairwise_iff (fun {x y} h => Ne.symm h)
      (sortDescBy_perm (fun t : Nat × String × List RowItem => t.1) _)).mpr hposne
  have hstrictF : List.Pairwise
      (fun a b : Nat × String × List RowItem => b.1 < a.1)
      (planFiltered (read_existing_context s) laws rm) :=
    ((hsorted.and hsne).filter _).imp
      (fun h => Nat.lt_of_le_of_ne h.1 (fun he => h.2 he.symm))
  refine ⟨?_, ?_, ?_⟩
  · exact List.pairwise_map.mpr (hstrictF.imp (fun h => h))
  · intro sg hsg
    obtain ⟨t, ht, hte⟩ := List.mem_map.mp hsg
    have ht2 := List.mem_of_mem_filter ht
    have ht3 := (sortDescBy_perm
      (fun t : Nat × String × List RowItem => t.1) _).mem_iff.mp ht2
    obtain ⟨b, hb, hpos⟩ := hshape t ht3
    obtain ⟨hmb, _⟩ := lookupBlock_spec _ _ _ hb
    have hbb := read_blocks_bounds s b hmb
    rw [← hte]
    dsimp only
    omega
  · intro sg hsg
    obtain ⟨t, ht, hte⟩ := List.mem_map.mp hsg
    have hc := List.of_mem_filter ht
    rw [← hte]
    dsimp only
    simpa using hc

/-! ## Scanning the appended block (one group per appended law) -/

theorem pfold_urls_filter (scr : List String) :
    ∀ (X : List SheetRow) (p : PState),
      (∀ row ∈ X, pyStrip row.colS = "" ∨ pyStrip row.colS ∈ scr) →
      (pfold p X).urls.filter (urlKeep scr) = p.urls.filter (urlKeep scr) := by
  intro X
  induction X with
  | nil => intro p _; rfl
  | cons row rest ih =>
    intro p hX
    have hstep : (pfold p (row :: rest)) = pfold (pstep p row) rest := rfl
    rw [hstep, ih (pstep p row) (fun r2 h2 => hX r2 (List.mem_cons_of_mem _ h2))]
    rw [pstep_urls, List.filter_append]
    have hnil : (if pyStrip row.colS ≠ "" then [pyStrip row.colS] else []).filter
        (urlKeep scr) = [] := by
      split_ifs with hne
      · rcases hX row (List.mem_cons_self _ _) with he | hmem
        · exact absurd he hne
        · simp [List.filter, urlKeep_false_of_mem scr _ hmem]
      · rfl
    rw [hnil, List.append_nil]

theorem pfold_groups (scr : List String) :
    ∀ (G : List (RowItem × List RowItem)) (p : PState),
      (∀ g ∈ G, headOK scr g.1 ∧ ∀ it ∈ g.2, regItOK scr it) →
      ∀ g ∈ G,
        (g.1.date, g.1.url) ∈ (pfold p ((flatG G).map mkRow)).pairs
        ∧ ∀ it ∈ g.2,
            it.url ∈ (dictGet (pfold p ((flatG G).map mkRow)).regs
              (some g.1.url)).getD [] := by
  intro G
  induction G with
  | nil => intro p _ g hg; exact absurd hg (List.not_mem_nil _)
  | cons g0 Gs ih =>
    intro p hOK g hg
    obtain ⟨h0, e0⟩ := hOK g0 (List.mem_cons_self _ _)
    have hfl : (flatG (g0 :: Gs)).map mkRow
        = mkRow g0.1 :: (g0.2.map mkRow ++ (flatG Gs).map mkRow) := by
      rw [show flatG (g0 :: Gs) = g0.1 :: (g0.2 ++ flatG Gs) from rfl,
        List.map_cons, List.map_append]
    have hprim : pyLower (pyStrip (mkRow g0.1).colM) = "primary" :=
      mkRow_primary_prim _ h0.1
    have hu : pyStrip (mkRow g0.1).colS = g0.1.url := h0.2.2.2.2.1
    have hd : pyStrip (mkRow g0.1).colH = g0.1.date := h0.2.2.1
    have hcp1 : (pstep p (mkRow g0.1)).cp = some g0.1.url := by
      rw [pstep_cp_prim _ _ hprim]
      unfold cpvOf
      rw [hu, if_pos h0.2.2.2.1]
    have hpair1 : (g0.1.date, g0.1.url) ∈ (pstep p (mkRow g0.1)).pairs := by
      rw [pstep_pairs_prim _ _ hprim, hu, hd,
        if_pos (by simp [h0.2.1, h0.2.2.2.1])]
      exact addToSet_self _ _
    obtain ⟨hcp2, hreg2⟩ := pfold_reg_rows g0.2 (pstep p (mkRow g0.1)) g0.1.url
      (fun it hit => ⟨(e0 it hit).1, (e0 it hit).2.1, (e0 it hit).2.2.1⟩) hcp1
    have hfold : pfold p ((flatG (g0 :: Gs)).map mkRow)
        = pfold (pfold (pstep p (mkRow g0.1)) (g0.2.map mkRow))
            ((flatG Gs).map mkRow) := by
      rw [hfl]
      rw [show pfold p (mkRow g0.1 :: (g0.2.map mkRow ++ (flatG Gs).map mkRow))
        = pfold (pstep p (mkRow g0.1)) (g0.2.map mkRow ++ (flatG Gs).map mkRow)
        from rfl]
      rw [pfold_append]
    rcases List.mem_cons.mp hg with rfl | hgS
    · constructor
      · rw [hfold]
        refine List.Perm.mem_iff (List.Perm.refl _) |>.mpr ?_
        refine pfold_pairs_mono _ _ _ ?_
        exact pfold_pairs_mono _ _ _ hpair1
      · intro it hit
        rw [hfold]
        exact pfold_regs_grows ((flatG Gs).map mkRow) _ (some g.1.url) it.url
          (hreg2 it hit)
    · rw [hfold]
      exact ih (pfold (pstep p (mkRow g0.1)) (g0.2.map mkRow))
        (fun g2 h2 => hOK g2 (List.mem_cons_of_mem _ h2)) g hgS

/-! ## The current primary at a planned insert position -/

theorem seg_prefix_cp (s : Sheet) (k : String) (b : PrimaryBlock)
    (hlb : lookupBlock (read_existing_context s).primary_blocks k = some b) :
    (pfold (pProj initScanState)
      (((padTake s (get_last_row s)).take b.end_row).drop 2)).cp = some k := by
  obtain ⟨hmem0, hurl⟩ := lookupBlock_spec _ _ _ hlb
  have hbb := read_blocks_bounds s b hmem0
  have hL2 := get_last_row_ge_two s
  have hmem := hmem0
  rw [read_ctx_eq] at hmem
  dsimp only at hmem
  have hpr : (scanFold initScanState (rowsFrom 3 (winOf s))).primary_rows
      = ((rowsFrom 3 (winOf s)).filter
          (fun p => pyLower (pyStrip p.2.colM) = "primary")).map
          (fun p => (cpvOf p.2, p.1)) := by
    show ((rowsFrom 3 (winOf s)).foldl (fun st p => scanRow st p.1 p.2)
      initScanState).primary_rows = _
    rw [foldl_scan_primrows]
    rfl
  rw [hpr] at hmem
  have hpw : List.Pairwise (fun a b : Option String × Nat => a.2 < b.2)
      (((rowsFrom 3 (winOf s)).filter
        (fun p => pyLower (pyStrip p.2.colM) = "primary")).map
        (fun p => (cpvOf p.2, p.1))) := by
    refine List.pairwise_map.mpr ?_
    refine List.Pairwise.filter _ ?_
    exact (rowsFrom_pairwise (winOf s) 3).imp (fun h => h)
  have hbd : ∀ e ∈ (((rowsFrom 3 (winOf s)).filter
        (fun p => pyLower (pyStrip p.2.colM) = "primary")).map
        (fun p => (cpvOf p.2, p.1))), e.2 ≤ get_last_row s := by
    intro e he
    obtain ⟨q, hq, hqe⟩ := List.mem_map.mp he
    have hbq := rowsFrom_bounds (winOf s) 3 q (List.mem_of_mem_filter hq)
    have hwl := winOf_length s
    rw [← hqe]
    dsimp only
    omega
  obtain ⟨A0, B0, heq, hA, hB, hre⟩ :=
    buildBlocks_adj (get_last_row s) _ hpw hbd b hmem
  have hX : ((padTake s (get_last_row s)).take b.end_row).drop 2
      = (winOf s).take (b.end_row - 2) := by
    rw [List.drop_take]
    rfl
  rw [hX, pfold_cp_eq, take_primary_link (winOf s) 3 (b.end_row - 2)]
  have hA0 : A0.filter (fun e : Option String × Nat => e.2 < 3 + (b.end_row - 2))
      = A0 :=
    List.filter_eq_self.mpr (fun e he => decide_eq_true
      (by have := hA e he; omega))
  have hB0 : B0.filter (fun e : Option String × Nat => e.2 < 3 + (b.end_row - 2))
      = [] :=
    List.filter_eq_nil_iff.mpr (fun e he => by
      simp only [decide_eq_true_eq]
      have := hB e he
      omega)
  have hcons : ((b.url, b.row) :: B0).filter
      (fun e : Option String × Nat => e.2 < 3 + (b.end_row - 2))
      = [(b.url, b.row)] := by
    rw [List.filter_cons_of_pos
      (by exact decide_eq_true (show b.row < 3 + (b.end_row - 2) by omega)), hB0]
  rw [heq, List.filter_append, hA0, hcons, List.map_append]
  rw [show [(b.url, b.row)].map (fun e : Option String × Nat => e.1) = [b.url]
    from rfl]
  rw [getLastD_append_single]
  exact hurl

/-! ## The grid after one run: decomposition and read window -/

theorem get_last_row_le_len (s : Sheet) (h3 : 3 ≤ get_last_row s) :
    get_last_row s ≤ s.length := by
  by_contra hc
  have hlen : s.length ≤ get_last_row s - 1 := by omega
  have := used_last_row s h3
  rw [List.getD_eq_default s blankRow hlen, rowUsed_blankRow] at this
  exact absurd this (by simp)

theorem map_mkRow_getD_used (out : List RowItem) (i : Nat) (h : i < out.length) :
    rowUsed ((out.map mkRow).getD i blankRow) = true := by
  rw [List.getD_eq_getElem?_getD, List.getElem?_map, List.getElem?_eq_getElem h]
  exact rowUsed_mkRow _

theorem splice_last_used (A : Sheet) (segs : List (Nat × List RowItem))
    (hA1 : 1 ≤ A.length)
    (hAlast : rowUsed (A.getD (A.length - 1) blankRow) = true)
    (hbd : ∀ sg ∈ segs, sg.1 ≤ A.length + 1)
    (hne : ∀ sg ∈ segs, sg.2.length ≠ 0) :
    rowUsed ((spliceSegsDesc A segs).getD ((spliceSegsDesc A segs).length - 1)
      blankRow) = true := by
  cases segs with
  | nil => exact hAlast
  | cons sg rest =>
    obtain ⟨q, w⟩ := sg
    have hq := hbd (q, w) (List.mem_cons_self _ _)
    have hw : w.length ≠ 0 := hne (q, w) (List.mem_cons_self _ _)
    have hsp : spliceSegsDesc A ((q, w) :: rest)
        = spliceSegsDesc (padTake A (q - 1)) rest
          ++ (w.map mkRow ++ A.drop (q - 1)) := by
      rw [show spliceSegsDesc A ((q, w) :: rest)
          = spliceSegsDesc (padTake A (q - 1)) rest ++ w.map mkRow ++ A.drop (q - 1)
        from rfl, List.append_assoc]
    rw [hsp]
    have hYlen : 1 ≤ (w.map mkRow ++ A.drop (q - 1)).length := by
      rw [List.length_append, List.length_map]
      omega
    rw [show (spliceSegsDesc (padTake A (q - 1)) rest
        ++ (w.map mkRow ++ A.drop (q - 1))).length - 1
      = (spliceSegsDesc (padTake A (q - 1)) rest).length
        + ((w.map mkRow ++ A.drop (q - 1)).length - 1) by
        rw [List.length_append]; omega]
    rw [getD_append_right]
    by_cases hdrop : A.drop (q - 1) = []
    · rw [hdrop, List.append_nil]
      refine map_mkRow_getD_used w _ ?_
      rw [List.length_map]
      omega
    · have hdlen : 1 ≤ (A.drop (q - 1)).length := by
        rcases Nat.pos_of_ne_zero (fun hc => hdrop (List.length_eq_zero.mp hc)) with h
        omega
      rw [show (w.map mkRow ++ A.drop (q - 1)).length - 1
          = (w.map mkRow).length + ((A.drop (q - 1)).length - 1) by
          rw [List.length_append]; omega]
      rw [getD_append_right, getD_drop_add]
      have hqlt : q - 1 < A.length := by
        have := List.length_drop (q - 1) A
        omega
      rw [show q - 1 + ((A.drop (q - 1)).length - 1) = A.length - 1 by
        rw [List.length_drop]; omega]
      exact hAlast

theorem run2_sheet_decomp (s : Sheet) (laws : List LawDoc)
    (rm : List (String × List RegDoc))
    (hAB : planOut (read_existing_context s) laws rm ≠ []
        ∨ planSegs (read_existing_context s) laws rm ≠ []) :
    run_apply s laws rm
      = spliceSegsDesc (padTake s (get_last_row s))
          (planSegs (read_existing_context s) laws rm)
        ++ ((planOut (read_existing_context s) laws rm).map mkRow
          ++ s.drop (get_last_row s)) := by
  obtain ⟨hstrict, hbd, hne⟩ := plan_segs_facts s laws rm
  have hilr := read_initial_last_row s
  have hL2 := get_last_row_ge_two s
  have h2ctx : 2 ≤ (read_existing_context s).initial_last_row := by
    rw [hilr]
    omega
  have hple : List.Pairwise (fun a b : Nat × List RowItem => b.1 ≤ a.1)
      (planSegs (read_existing_context s) laws rm) :=
    hstrict.imp (fun h => Nat.le_of_lt h)
  have hbdL : ∀ sg ∈ planSegs (read_existing_context s) laws rm,
      sg.1 ≤ get_last_row s + 1 := fun sg h => (hbd sg h).2
  by_cases hout : planOut (read_existing_context s) laws rm = []
  · have hsegne : planSegs (read_existing_context s) laws rm ≠ [] := by
      rcases hAB with h | h
      · exact absurd hout h
      · exact h
    obtain ⟨sg0, hsg0⟩ := List.exists_mem_of_ne_nil _ hsegne
    have hL3 : 3 ≤ get_last_row s := by
      have := hbd sg0 hsg0
      omega
    have hLlen := get_last_row_le_len s hL3
    have hbdlen : ∀ sg ∈ planSegs (read_existing_context s) laws rm,
        sg.1 ≤ s.length + 1 := by
      intro sg h
      have := hbd sg h
      omega
    have happ : (run_plan s laws rm).append_op = none := by
      show (plan_run (read_existing_context s) laws rm).append_op = none
      rw [plan_append_op_char _ _ _ h2ctx, if_neg (by rw [hout]; simp)]
    have hsapp : (run_plan s laws rm).segments_append = [] := by
      show (plan_run (read_existing_context s) laws rm).segments_append = []
      rw [plan_sapp_char _ _ _ h2ctx, if_neg (by rw [hout]; simp)]
    have hchar := apply_plan_char_noappend s (run_plan s laws rm)
      (planSegs (read_existing_context s) laws rm)
      (plan_ops_field (read_existing_context s) laws rm)
      (plan_segs_field (read_existing_context s) laws rm)
      hstrict (fun sg h => by have := hbd sg h; omega) hbdlen hne happ hsapp
    show apply_plan s (run_plan s laws rm) = _
    rw [hchar, hout]
    rw [show (([] : List RowItem).map mkRow ++ s.drop (get_last_row s))
      = s.drop (get_last_row s) from rfl]
    have hlen := spliceSegsDesc_length (planSegs (read_existing_context s) laws rm)
      s hple hbdlen
    calc spliceSegsDesc s (planSegs (read_existing_context s) laws rm)
        = padTake (spliceSegsDesc s (planSegs (read_existing_context s) laws rm))
            (get_last_row s
              + ((planSegs (read_existing_context s) laws rm).map
                  (fun sg => sg.2.length)).sum)
          ++ (spliceSegsDesc s (planSegs (read_existing_context s) laws rm)).drop
            (get_last_row s
              + ((planSegs (read_existing_context s) laws rm).map
                  (fun sg => sg.2.length)).sum) := by
          rw [padTake_eq_take _ _ (by rw [hlen]; omega), List.take_append_drop]
      _ = spliceSegsDesc (padTake s (get_last_row s))
            (planSegs (read_existing_context s) laws rm)
          ++ s.drop (get_last_row s) := by
          rw [spliceSegsDesc_padTake _ s _ hple hbdL,
            spliceSegsDesc_drop _ s _ hple hbdL]
  · have hlenne : (planOut (read_existing_context s) laws rm).length ≠ 0 :=
      fun hc => hout (List.length_eq_zero.mp hc)
    have happ : (run_plan s laws rm).append_op
        = some (get_last_row s
            + ((planSegs (read_existing_context s) laws rm).map
                (fun sg => sg.2.length)).sum + 1,
          (planOut (read_existing_context s) laws rm).length) := by
      show (plan_run (read_existing_context s) laws rm).append_op = _
      rw [plan_append_op_char _ _ _ h2ctx, if_pos hlenne, hilr]
    have hsapp : (run_plan s laws rm).segments_append
        = [(get_last_row s
            + ((planSegs (read_existing_context s) laws rm).map
                (fun sg => sg.2.length)).sum + 1,
          planOut (read_existing_context s) laws rm)] := by
      show (plan_run (read_existing_context s) laws rm).segments_append = _
      rw [plan_sapp_char _ _ _ h2ctx, if_pos hlenne, hilr]
    have hchar := apply_plan_char_append s (run_plan s laws rm)
      (planSegs (read_existing_context s) laws rm) (get_last_row s)
      (planOut (read_existing_context s) laws rm).length
      (planOut (read_existing_context s) laws rm)
      (plan_ops_field (read_existing_context s) laws rm)
      (plan_segs_field (read_existing_context s) laws rm)
      hstrict (fun sg h => by have := hbd sg h; omega) hne happ hsapp rfl hlenne
    show apply_plan s (run_plan s laws rm) = _
    rw [hchar, List.append_assoc]

theorem run2_window (s : Sheet) (laws : List LawDoc)
    (rm : List (String × List RegDoc))
    (hAB : planOut (read_existing_context s) laws rm ≠ []
        ∨ planSegs (read_existing_context s) laws rm ≠ []) :
    winOf (run_apply s laws rm)
      = (spliceSegsDesc (padTake s (get_last_row s))
          (planSegs (read_existing_context s) laws rm)).drop 2
        ++ (planOut (read_existing_context s) laws rm).map mkRow := by
  obtain ⟨hstrict, hbd, hne⟩ := plan_segs_facts s laws rm
  have hL2 := get_last_row_ge_two s
  have hple : List.Pairwise (fun a b : Nat × List RowItem => b.1 ≤ a.1)
      (planSegs (read_existing_context s) laws rm) :=
    hstrict.imp (fun h => Nat.le_of_lt h)
  have hbdpt : ∀ sg ∈ planSegs (read_existing_context s) laws rm,
      sg.1 ≤ (padTake s (get_last_row s)).length + 1 := by
    intro sg h
    rw [padTake_length]
    exact (hbd sg h).2
  have hSSlen : (spliceSegsDesc (padTake s (get_last_row s))
      (planSegs (read_existing_context s) laws rm)).length
      = get_last_row s
        + ((planSegs (read_existing_context s) laws rm).map
            (fun sg => sg.2.length)).sum := by
    rw [spliceSegsDesc_length _ _ hple hbdpt, padTake_length]
  have hdecomp := run2_sheet_decomp s laws rm hAB
  have htail : ∀ r ∈ s.drop (get_last_row s), rowUsed r = false :=
    drop_last_unused s
  have hXlast : rowUsed ((spliceSegsDesc (padTake s (get_last_row s))
        (planSegs (read_existing_context s) laws rm)
      ++ (planOut (read_existing_context s) laws rm).map mkRow).getD
      ((spliceSegsDesc (padTake s (get_last_row s))
          (planSegs (read_existing_context s) laws rm)
        ++ (planOut (read_existing_context s) laws rm).map mkRow).length - 1)
      blankRow) = true := by
    by_cases hout : planOut (read_existing_context s) laws rm = []
    · rw [hout]
      rw [show (([] : List RowItem).map mkRow) = [] from rfl, List.append_nil]
      have hsegne : planSegs (read_existing_context s) laws rm ≠ [] := by
        rcases hAB with h | h
        · exact absurd hout h
        · exact h
      obtain ⟨sg0, hsg0⟩ := List.exists_mem_of_ne_nil _ hsegne
      have hL3 : 3 ≤ get_last_row s := by
        have := hbd sg0 hsg0
        omega
      refine splice_last_used (padTake s (get_last_row s)) _ ?_ ?_ hbdpt hne
      · rw [padTake_length]
        omega
      · rw [padTake_length, padTake_getD s (get_last_row s) _ (by omega)]
        exact used_last_row s hL3
    · have hlenM : 1 ≤ ((planOut (read_existing_context s) laws rm).map mkRow).length := by
        rw [List.length_map]
        have := List.length_eq_zero.not.mpr hout
        omega
      rw [show (spliceSegsDesc (padTake s (get_last_row s))
            (planSegs (read_existing_context s) laws rm)
          ++ (planOut (read_existing_context s) laws rm).map mkRow).length - 1
        = (spliceSegsDesc (padTake s (get_last_row s))
            (planSegs (read_existing_context s) laws rm)).length
          + (((planOut (read_existing_context s) laws rm).map mkRow).length - 1) by
          rw [List.length_append]; omega]
      rw [getD_append_right]
      refine map_mkRow_getD_used _ _ ?_
      rw [List.length_map] at hlenM ⊢
      omega
  have hlast2 : get_last_row (run_apply s laws rm)
      = get_last_row s
        + ((planSegs (read_existing_context s) laws rm).map
            (fun sg => sg.2.length)).sum
        + (planOut (read_existing_context s) laws rm).length := by
    rw [hdecomp, ← List.append_assoc]
    rw [get_last_row_concat _ _ (by rw [List.length_append, hSSlen]; omega)
      hXlast htail]
    rw [List.length_append, hSSlen, List.length_map]
  rw [winOf, hlast2, hdecomp, ← List.append_assoc]
  have hpt := padTake_append_exact
    (spliceSegsDesc (padTake s (get_last_row s))
        (planSegs (read_existing_context s) laws rm)
      ++ (planOut (read_existing_context s) laws rm).map mkRow)
    (s.drop (get_last_row s)) 0
  rw [show (spliceSegsDesc (padTake s (get_last_row s))
        (planSegs (read_existing_context s) laws rm)
      ++ (planOut (read_existing_context s) laws rm).map mkRow).length + 0
    = get_last_row s
      + ((planSegs (read_existing_context s) laws rm).map
          (fun sg => sg.2.length)).sum
      + (planOut (read_existing_context s) laws rm).length by
      rw [List.length_append, hSSlen, List.length_map]; omega] at hpt
  rw [hpt]
  rw [show padTake (s.drop (get_last_row s)) 0 = [] from rfl, List.append_nil]
  rw [List.drop_append_eq_append_drop]
  rw [show 2 - (spliceSegsDesc (padTake s (get_last_row s))
      (planSegs (read_existing_context s) laws rm)).length = 0 by
      rw [hSSlen]; omega]
  rw [List.drop_zero]

/-! ## The second run keeps nothing to write -/

theorem procRegs_dict_allex (lie : Bool) (lu : String) (ex : List String) :
    ∀ (regs : List RegDoc) (bs : BuildState) (seen : List String),
      (∀ r ∈ regs, pyStrip r.url ≠ "") →
      (∀ r ∈ regs, pyStrip r.url ∈ ex) →
      ((regs.foldl (processReg lie lu ex) (bs, seen)).1).regs_to_insert_under_existing
        = bs.regs_to_insert_under_existing := by
  intro regs
  induction regs with
  | nil => intro bs seen _ _; rfl
  | cons r rest ih =>
    intro bs seen hcl hex
    have hne := hcl r (List.mem_cons_self _ _)
    have hexr := hex r (List.mem_cons_self _ _)
    simp only [List.foldl_cons]
    rw [processReg_skip_of_ex lie lu ex bs seen r hne hexr]
    exact ih _ seen (fun r2 h2 => hcl r2 (List.mem_cons_of_mem _ h2))
      (fun r2 h2 => hex r2 (List.mem_cons_of_mem _ h2))

theorem run2_fold_empty (ctx : LedgerContext) (rm : List (String × List RegDoc)) :
    ∀ (laws : List LawDoc) (bs : BuildState),
      (∀ l ∈ laws, cleanLaw l ∧ ∀ r ∈ regsForLaw rm l, cleanReg r) →
      (∀ l ∈ laws, (l.date, pyStrip l.url) ∈ bs.primary_pairs) →
      (∀ l ∈ laws, ∀ r ∈ regsForLaw rm l,
        pyStrip r.url
          ∈ (dictGet ctx.regs_under_primary (some (pyStrip l.url))).getD []) →
      (laws.foldl (processLaw ctx rm) bs).output_rows_to_append
        = bs.output_rows_to_append
      ∧ (laws.foldl (processLaw ctx rm) bs).regs_to_insert_under_existing
          = bs.regs_to_insert_under_existing
      ∧ (laws.foldl (processLaw ctx rm) bs).primary_pairs = bs.primary_pairs := by
  intro laws
  induction laws with
  | nil => intro bs _ _ _; exact ⟨rfl, rfl, rfl⟩
  | cons l rest ih =>
    intro bs hclean hp hcov
    obtain ⟨⟨hd, _, hu⟩, hregc⟩ := hclean l (List.mem_cons_self _ _)
    have hregne : ∀ r ∈ regsForLaw rm l, pyStrip r.url ≠ "" := hregc
    have hpair := hp l (List.mem_cons_self _ _)
    have h1 : (processLaw ctx rm bs l).output_rows_to_append
        = bs.output_rows_to_append := by
      rw [processLaw_exist ctx rm bs l hd hu hpair]
      exact procRegs_out_true _ _ _ _ _ hregne
    have h2 : (processLaw ctx rm bs l).regs_to_insert_under_existing
        = bs.regs_to_insert_under_existing := by
      rw [processLaw_exist ctx rm bs l hd hu hpair]
      exact procRegs_dict_allex true _ _ _ _ _ hregne
        (hcov l (List.mem_cons_self _ _))
    have h3 : (processLaw ctx rm bs l).primary_pairs = bs.primary_pairs := by
      rw [processLaw_exist ctx rm bs l hd hu hpair]
      exact procRegs_pairs true _ _ _ _ _ hregne
    simp only [List.foldl_cons]
    obtain ⟨i1, i2, i3⟩ := ih (processLaw ctx rm bs l)
      (fun l2 hl2 => hclean l2 (List.mem_cons_of_mem _ hl2))
      (fun l2 hl2 => by rw [h3]; exact hp l2 (List.mem_cons_of_mem _ hl2))
      (fun l2 hl2 => hcov l2 (List.mem_cons_of_mem _ hl2))
    exact ⟨i1.trans h1, i2.trans h2, i3.trans h3⟩

/-! ## Dictionary membership and planned segments -/

theorem mem_of_dictGet {κ α : Type} [DecidableEq κ] :
    ∀ (d : List (κ × α)) (k : κ) (v : α), dictGet d k = some v → (k, v) ∈ d := by
  intro d
  induction d with
  | nil => intro k v h; exact absurd h (by simp [dictGet])
  | cons kv rest ih =>
    intro k v h
    rw [show dictGet (kv :: rest) k
      = (if k = kv.1 then some kv.2 else dictGet rest k) from by
        rcases kv with ⟨k2, v2⟩; rfl] at h
    by_cases hk : k = kv.1
    · rw [if_pos hk] at h
      injection h with hv
      rw [hk, ← hv]
      exact List.mem_cons_self _ _
    · rw [if_neg hk] at h
      exact List.mem_cons_of_mem _ (ih k v h)

theorem flatG_mem :
    ∀ (G : List (RowItem × List RowItem)) (it : RowItem),
      it ∈ flatG G → ∃ g ∈ G, it = g.1 ∨ it ∈ g.2 := by
  intro G
  induction G with
  | nil => intro it h; exact absurd h (List.not_mem_nil _)
  | cons g Gs ih =>
    intro it h
    rw [show flatG (g :: Gs) = g.1 :: (g.2 ++ flatG Gs) from rfl] at h
    rcases List.mem_cons.mp h with rfl | h2
    · exact ⟨g, List.mem_cons_self _ _, Or.inl rfl⟩
    · rcases List.mem_append.mp h2 with h3 | h4
      · exact ⟨g, List.mem_cons_self _ _, Or.inr h3⟩
      · obtain ⟨g2, hg2, hor⟩ := ih it h4
        exact ⟨g2, List.mem_cons_of_mem _ hg2, hor⟩

theorem plan_seg_of_dict_entry (s : Sheet) (laws : List LawDoc)
    (rm : List (String × List RegDoc)) (k : String) (items : List RowItem)
    (hmem : (k, items)
      ∈ (planBS (read_existing_context s) laws rm).regs_to_insert_under_existing)
    (hlb : ∃ b, lookupBlock (read_existing_context s).primary_blocks k = some b)
    (hne : items ≠ []) :
    ∃ b, lookupBlock (read_existing_context s).primary_blocks k = some b
      ∧ (b.end_row + 1, items) ∈ planSegs (read_existing_context s) laws rm := by
  obtain ⟨b, hb⟩ := hlb
  refine ⟨b, hb, ?_⟩
  have hstep := blocksfold_entry (read_existing_context s).primary_blocks
    ((planBS (read_existing_context s) laws rm).regs_to_insert_under_existing)
    ([], []) (k, items) hmem b hb
  have hsort : (b.end_row + 1, k, items)
      ∈ sortDescBy (fun t : Nat × String × List RowItem => t.1)
        (planStep (read_existing_context s) laws rm).2 :=
    (sortDescBy_perm (fun t : Nat × String × List RowItem => t.1) _).mem_iff.mpr hstep
  have hfil : (b.end_row + 1, k, items)
      ∈ planFiltered (read_existing_context s) laws rm :=
    List.mem_filter.mpr ⟨hsort, decide_eq_true
      (show items.length ≠ 0 from fun hc => hne (List.length_eq_zero.mp hc))⟩
  exact List.mem_map.mpr ⟨(b.end_row + 1, k, items), hfil, rfl⟩

theorem plan_run_trivial_of (ctx : LedgerContext) (laws : List LawDoc)
    (rm : List (String × List RegDoc))
    (h2 : 2 ≤ ctx.initial_last_row)
    (hout : (planBS ctx laws rm).output_rows_to_append = [])
    (hdict : (planBS ctx laws rm).regs_to_insert_under_existing = []) :
    (plan_run ctx laws rm).insert_ops_existing = []
    ∧ (plan_run ctx laws rm).append_op = none := by
  have hstep : planStep ctx laws rm = ([], []) := by
    unfold planStep
    rw [hdict]
    rfl
  have hfil : planFiltered ctx laws rm = [] := by
    unfold planFiltered
    rw [hstep]
    rfl
  have hsegs : planSegs ctx laws rm = [] := by
    unfold planSegs
    rw [hfil]
    rfl
  have houtp : planOut ctx laws rm = [] := by
    unfold planOut
    rw [hout, hstep]
    rfl
  constructor
  · rw [plan_ops_field, hsegs]
    rfl
  · rw [plan_append_op_char ctx laws rm h2, if_neg (by rw [houtp]; simp)]

/-! ## Ledger context fields as projected scans -/

theorem read_pairs_proj (s : Sheet) :
    (read_existing_context s).primary_pairs
      = (pfold (pProj initScanState) (winOf s)).pairs := by
  rw [read_ctx_eq]
  exact congrArg PState.pairs (pProj_scan_rowsFrom (winOf s) 3 initScanState)

theorem read_regs_proj (s : Sheet) :
    (read_existing_context s).regs_under_primary
      = (pfold (pProj initScanState) (winOf s)).regs := by
  rw [read_ctx_eq]
  exact congrArg PState.regs (pProj_scan_rowsFrom (winOf s) 3 initScanState)

theorem read_urls_proj (s : Sheet) :
    (read_existing_context s).all_url_rows.map (fun p => p.2)
      = (pfold (pProj initScanState) (winOf s)).urls := by
  rw [read_ctx_eq]
  exact congrArg PState.urls (pProj_scan_rowsFrom (winOf s) 3 initScanState)

/-! ## The ledger after a clean run contains everything the run planned -/

theorem run2_ctx_facts (s : Sheet) (laws : List LawDoc)
    (rm : List (String × List RegDoc)) (hcr : cleanRun laws rm) :
    (∀ l ∈ laws, (l.date, pyStrip l.url)
        ∈ (read_existing_context (run_apply s laws rm)).primary_pairs)
    ∧ (∀ l ∈ laws, ∀ r ∈ regsForLaw rm l,
        pyStrip r.url ∈ (dictGet
          (read_existing_context (run_apply s laws rm)).regs_under_primary
          (some (pyStrip l.url))).getD [])
    ∧ stale_url_list (read_existing_context (run_apply s laws rm))
        (planBS (read_existing_context s) laws rm).scraped_urls
      = stale_url_list (read_existing_context s)
        (planBS (read_existing_context s) laws rm).scraped_urls := by
  obtain ⟨hcl, hpw⟩ := hcr
  have hbf0 : buildFacts (read_existing_context s)
      (initBuildState (read_existing_context s)) [] := by
    refine ⟨rfl, ?_, ?_, ?_⟩
    · intro g hg
      exact absurd hg (List.not_mem_nil _)
    · intro e he
      exact absurd he (List.not_mem_nil _)
    · intro k it hit
      exact absurd hit (List.not_mem_nil _)
  obtain ⟨G2, hbf, hppf, _, _, _, hhand⟩ :=
    processLaw_fold_facts (read_existing_context s) rm laws
      (initBuildState (read_existing_context s)) [] hcl hpw hbf0
      (fun pr hpr => Or.inl hpr)
      (fun l _ g hg => absurd hg (List.not_mem_nil _))
  have hbf2 : buildFacts (read_existing_context s)
      (planBS (read_existing_context s) laws rm) G2 := hbf
  have hhand2 : ∀ l ∈ laws,
      lawHandled (read_existing_context s)
        (planBS (read_existing_context s) laws rm) G2 rm l := hhand
  have hnodup : List.Pairwise (fun a b : String × List RowItem => a.1 ≠ b.1)
      ((planBS (read_existing_context s) laws rm).regs_to_insert_under_existing) :=
    foldl_processLaw_regs_nodup (read_existing_context s) rm laws
      (initBuildState (read_existing_context s)) (by simp [initBuildState])
  have hall : ∀ kv ∈ (planBS (read_existing_context s)
      laws rm).regs_to_insert_under_existing,
      ∃ b, lookupBlock (read_existing_context s).primary_blocks kv.1 = some b := by
    intro kv hkv
    obtain ⟨d2, hd2⟩ := hbf2.2.2.1 kv hkv
    exact read_pairs_block s d2 kv.1 hd2
  have hstep1 : (planStep (read_existing_context s) laws rm).1 = [] := by
    unfold planStep
    exact blocksfold_nil_left _ _ _ hall
  have hout_eq : planOut (read_existing_context s) laws rm = flatG G2 := by
    unfold planOut
    rw [hstep1, List.append_nil]
    exact hbf2.1
  have hilr := read_initial_last_row s
  have hL2 := get_last_row_ge_two s
  have h2ctx : 2 ≤ (read_existing_context s).initial_last_row := by
    rw [hilr]
    omega
  by_cases hAB : planOut (read_existing_context s) laws rm = []
      ∧ planSegs (read_existing_context s) laws rm = []
  · -- nothing was written: the sheet is unchanged and the plan was trivial
    obtain ⟨hABout, hABsegs⟩ := hAB
    have hG2nil : G2 = [] := flatG_eq_nil (hout_eq.symm.trans hABout)
    have hs2 : run_apply s laws rm = s := by
      show apply_plan s (run_plan s laws rm) = s
      refine apply_plan_trivial s (run_plan s laws rm) ?_ ?_ ?_ ?_
      · rw [show (run_plan s laws rm).insert_ops_existing
          = segsOps (planSegs (read_existing_context s) laws rm)
          from plan_ops_field (read_existing_context s) laws rm, hABsegs]
        rfl
      · rw [show (run_plan s laws rm).segments_existing
          = planSegs (read_existing_context s) laws rm
          from plan_segs_field (read_existing_context s) laws rm, hABsegs]
      · show (plan_run (read_existing_context s) laws rm).append_op = none
        rw [plan_append_op_char _ _ _ h2ctx, if_neg (by rw [hABout]; simp)]
      · show (plan_run (read_existing_context s) laws rm).segments_append = []
        rw [plan_sapp_char _ _ _ h2ctx, if_neg (by rw [hABout]; simp)]
    rw [hs2]
    refine ⟨?_, ?_, rfl⟩
    · intro l hl
      rcases (hhand2 l hl).1 with hin | ⟨g, hg, _⟩
      · exact hin
      · rw [hG2nil] at hg
        exact absurd hg (List.not_mem_nil _)
    · intro l hl r hr
      rcases (hhand2 l hl).2 r hr with h | ⟨g, hg, _, _⟩ | h
      · exact h
      · rw [hG2nil] at hg
        exact absurd hg (List.not_mem_nil _)
      · cases hdg : dictGet ((planBS (read_existing_context s)
            laws rm).regs_to_insert_under_existing) (pyStrip l.url) with
        | none =>
          rw [hdg] at h
          simp at h
        | some items =>
          rw [hdg] at h
          obtain ⟨it, hit, _⟩ := List.mem_map.mp h
          have hne : items ≠ [] := List.ne_nil_of_mem hit
          have hmemd := mem_of_dictGet _ _ _ hdg
          obtain ⟨b, hb, hbseg⟩ := plan_seg_of_dict_entry s laws rm
            (pyStrip l.url) items hmemd (hall _ hmemd) hne
          rw [hABsegs] at hbseg
          exact absurd hbseg (List.not_mem_nil _)
  · -- something was written: simulate the new window scan
    have hor : planOut (read_existing_context s) laws rm ≠ []
        ∨ planSegs (read_existing_context s) laws rm ≠ [] := by
      by_cases h1 : planOut (read_existing_context s) laws rm = []
      · exact Or.inr (fun hc => hAB ⟨h1, hc⟩)
      · exact Or.inl h1
    obtain ⟨hstrict, hbd, hne⟩ := plan_segs_facts s laws rm
    have hwin := run2_window s laws rm hor
    have hbd3 : ∀ sg ∈ planSegs (read_existing_context s) laws rm,
        3 ≤ sg.1 ∧ sg.1 ≤ (padTake s (get_last_row s)).length + 1 := by
      intro sg h
      rw [padTake_length]
      have := hbd sg h
      omega
    have hOKseg : ∀ sg ∈ planSegs (read_existing_context s) laws rm, ∀ it ∈ sg.2,
        it.isReg = true ∧ it.url ≠ "" ∧ pyStrip it.url = it.url
        ∧ it.url ∈ (planBS (read_existing_context s) laws rm).scraped_urls := by
      intro sg hsg it hit
      obtain ⟨t, htf, hte⟩ := List.mem_map.mp hsg
      have ht2 := List.mem_of_mem_filter htf
      have ht3 := (sortDescBy_perm
        (fun t : Nat × String × List RowItem => t.1) _).mem_iff.mp ht2
      rcases blocksfold_mem (read_existing_context s).primary_blocks
        ((planBS (read_existing_context s) laws rm).regs_to_insert_under_existing)
        ([], []) t ht3 with hdm | habs
      · have hget := dictGet_mem_nodup _ t.2 hnodup hdm
        have hit2 : it ∈ (dictGet ((planBS (read_existing_context s)
            laws rm).regs_to_insert_under_existing) t.2.1).getD [] := by
          rw [hget]
          rw [← hte] at hit
          exact hit
        exact hbf2.2.2.2 t.2.1 it hit2
      · exact absurd habs (List.not_mem_nil _)
    obtain ⟨hsim, hregseg⟩ := master_scan
      ((planBS (read_existing_context s) laws rm).scraped_urls)
      (planSegs (read_existing_context s) laws rm)
      (padTake s (get_last_row s)) (pProj initScanState) hstrict hbd3 hOKseg
    have hgroups := pfold_groups
      ((planBS (read_existing_context s) laws rm).scraped_urls) G2
      (pfold (pProj initScanState)
        ((spliceSegsDesc (padTake s (get_last_row s))
          (planSegs (read_existing_context s) laws rm)).drop 2))
      hbf2.2.1
    have hp2eq : (read_existing_context (run_apply s laws rm)).primary_pairs
        = (pfold (pfold (pProj initScanState)
            ((spliceSegsDesc (padTake s (get_last_row s))
              (planSegs (read_existing_context s) laws rm)).drop 2))
            ((flatG G2).map mkRow)).pairs := by
      rw [read_pairs_proj (run_apply s laws rm), hwin, pfold_append, hout_eq]
    have hr2eq : (read_existing_context (run_apply s laws rm)).regs_under_primary
        = (pfold (pfold (pProj initScanState)
            ((spliceSegsDesc (padTake s (get_last_row s))
              (planSegs (read_existing_context s) laws rm)).drop 2))
            ((flatG G2).map mkRow)).regs := by
      rw [read_regs_proj (run_apply s laws rm), hwin, pfold_append, hout_eq]
    refine ⟨?_, ?_, ?_⟩
    · intro l hl
      rw [hp2eq]
      rcases (hhand2 l hl).1 with hin | ⟨g, hg, hge⟩
      · have h1 : (l.date, pyStrip l.url)
            ∈ (pfold (pProj initScanState) (winOf s)).pairs := by
          rw [← read_pairs_proj s]
          exact hin
        have h2 : (l.date, pyStrip l.url)
            ∈ (pfold (pProj initScanState)
              ((spliceSegsDesc (padTake s (get_last_row s))
                (planSegs (read_existing_context s) laws rm)).drop 2)).pairs := by
          rw [hsim.2.1]
          exact h1
        exact pfold_pairs_mono _ _ _ h2
      · have hp := (hgroups g hg).1
        rw [hge] at hp
        exact hp
    · intro l hl r hr
      rw [hr2eq]
      rcases (hhand2 l hl).2 r hr with h | ⟨g, hg, hgu, hmem⟩ | h
      · have h1 : pyStrip r.url ∈ (dictGet
            ((pfold (pProj initScanState) (winOf s)).regs)
            (some (pyStrip l.url))).getD [] := by
          rw [← read_regs_proj s]
          exact h
        have h2 := hsim.2.2.1 (some (pyStrip l.url)) (pyStrip r.url) h1
        exact pfold_regs_grows _ _ (some (pyStrip l.url)) (pyStrip r.url) h2
      · obtain ⟨it, hit, hitu⟩ := List.mem_map.mp hmem
        have hp := (hgroups g hg).2 it hit
        rw [hgu, hitu] at hp
        exact hp
      · cases hdg : dictGet ((planBS (read_existing_context s)
            laws rm).regs_to_insert_under_existing) (pyStrip l.url) with
        | none =>
          rw [hdg] at h
          simp at h
        | some items =>
          rw [hdg] at h
          obtain ⟨it, hit, hitu⟩ := List.mem_map.mp h
          have hnei : items ≠ [] := List.ne_nil_of_mem hit
          have hmemd := mem_of_dictGet _ _ _ hdg
          obtain ⟨b, hb, hbseg⟩ := plan_seg_of_dict_entry s laws rm
            (pyStrip l.url) items hmemd (hall _ hmemd) hnei
          have hreg := hregseg (b.end_row + 1, items) hbseg (pyStrip l.url)
            (seg_prefix_cp s (pyStrip l.url) b hb) it hit
          have hreg2 := pfold_regs_grows ((flatG G2).map mkRow) _
            (some (pyStrip l.url)) it.url hreg
          rw [hitu] at hreg2
          exact hreg2
    · unfold stale_url_list
      rw [stale_filter_map, stale_filter_map]
      rw [read_urls_proj (run_apply s laws rm), read_urls_proj s, hwin,
        pfold_append, hout_eq]
      have hMOK : ∀ row ∈ (flatG G2).map mkRow,
          pyStrip row.colS = ""
          ∨ pyStrip row.colS
            ∈ (planBS (read_existing_context s) laws rm).scraped_urls := by
        intro row hrow
        obtain ⟨it, hit, hre⟩ := List.mem_map.mp hrow
        obtain ⟨g, hg, hor2⟩ := flatG_mem G2 it hit
        rw [← hre]
        rcases hor2 with rfl | hreg
        · have hOK := (hbf2.2.1 g hg).1
          refine Or.inr ?_
          show pyStrip g.1.url ∈ _
          rw [hOK.2.2.2.2.1]
          exact hOK.2.2.2.2.2
        · have hOK := (hbf2.2.1 g hg).2 it hreg
          refine Or.inr ?_
          show pyStrip it.url ∈ _
          rw [hOK.2.2.1]
          exact hOK.2.2.2
      rw [pfold_urls_filter _ _ _ hMOK]
      exact hsim.2.2.2

/-- C2 (amended): reconciliation is idempotent on clean inputs.  For every
sheet and every kept-document set whose laws all carry a non-empty stripped
url, a stripping-fixed non-empty date and pairwise-distinct `(date, url)`
keys, and whose attached regulations all carry non-empty stripped urls, a
second `run_scrape` against the ledger produced by the first plans zero row
insertions — an empty `insert_ops_existing` and no append segment — and
marks exactly the urls stale that the first run already marked stale.  (The
unamended claim, quantified over every document set, is refuted by
`claim_C2_counterexample`: an empty-url law is re-appended on every run.) -/
theorem claim_C2_idempotence (s : Sheet) (laws : List LawDoc)
    (rm : List (String × List RegDoc)) (hcr : cleanRun laws rm) :
    (run_plan (run_apply s laws rm) laws rm).insert_ops_existing = []
    ∧ (run_plan (run_apply s laws rm) laws rm).append_op = none
    ∧ stale_url_list (read_existing_context (run_apply s laws rm))
        (run_plan (run_apply s laws rm) laws rm).scraped_urls
      = stale_url_list (read_existing_context s)
        (run_plan s laws rm).scraped_urls := by
  obtain ⟨ha, hb, hstale⟩ := run2_ctx_facts s laws rm hcr
  have hcl := hcr.1
  obtain ⟨hout2, hdict2, _⟩ := run2_fold_empty
    (read_existing_context (run_apply s laws rm)) rm laws
    (initBuildState (read_existing_context (run_apply s laws rm)))
    hcl (fun l hl => ha l hl) hb
  have hilr2 := read_initial_last_row (run_apply s laws rm)
  have hL22 := get_last_row_ge_two (run_apply s laws rm)
  have h2ctx2 : 2 ≤ (read_existing_context (run_apply s laws rm)).initial_last_row := by
    rw [hilr2]
    omega
  have hout2b : (planBS (read_existing_context (run_apply s laws rm))
      laws rm).output_rows_to_append = [] := hout2
  have hdict2b : (planBS (read_existing_context (run_apply s laws rm))
      laws rm).regs_to_insert_under_existing = [] := hdict2
  obtain ⟨hops, happ⟩ := plan_run_trivial_of
    (read_existing_context (run_apply s laws rm)) laws rm h2ctx2 hout2b hdict2b
  refine ⟨hops, happ, ?_⟩
  have hscr2 : (run_plan (run_apply s laws rm) laws rm).scraped_urls
      = (planBS (read_existing_context s) laws rm).scraped_urls := by
    show (planBS (read_existing_context (run_apply s laws rm))
      laws rm).scraped_urls = _
    exact foldl_processLaw_scraped_eq
      (read_existing_context (run_apply s laws rm)) (read_existing_context s)
      rm laws _ _ hcl rfl
  have hscr1 : (run_plan s laws rm).scraped_urls
      = (planBS (read_existing_context s) laws rm).scraped_urls := rfl
  rw [hscr2, hscr1]
  exact hstale

/-- C2 witness: the sample ledger and document set are a clean run, and the
second run against the once-reconciled sample sheet plans no inserts, no
append, and the same stale urls as the first. -/
theorem claim_C2_witness :
    cleanRun sampleLaws sampleRegMap
    ∧ ((run_plan (run_apply sampleSheet sampleLaws sampleRegMap)
          sampleLaws sampleRegMap).insert_ops_existing = []
      ∧ (run_plan (run_apply sampleSheet sampleLaws sampleRegMap)
          sampleLaws sampleRegMap).append_op = none
      ∧ stale_url_list
          (read_existing_context (run_apply sampleSheet sampleLaws sampleRegMap))
          (run_plan (run_apply sampleSheet sampleLaws sampleRegMap)
            sampleLaws sampleRegMap).scraped_urls
        = stale_url_list (read_existing_context sampleSheet)
          (run_plan sampleSheet sampleLaws sampleRegMap).scraped_urls) :=
  ⟨by unfold cleanRun cleanLaw cleanReg; decide,
   claim_C2_idempotence sampleSheet sampleLaws sampleRegMap
    (by unfold cleanRun cleanLaw cleanReg; decide)⟩
